import Mathlib

/-!
# PathVisualiser: shallow embedding and verification

A shallow embedding of the search/maze core of the PathVisualiser
repository (grid data model, the five search engines, the maze generator,
the maze-editing handlers and the comparison aggregator), together with
proofs and refutations of the specification's testable properties.

Modelling conventions, shared by all definitions below:
* TypeScript `Position` uses JS numbers for `row`/`col`; all arithmetic that
  occurs is exact integer arithmetic, modelled with `Int`.
* A grid `CellType[][]` is a list of rows.  The JS indexing expression
  `grid[r][c]` evaluates to `undefined` when out of range; this is modelled
  by `cellGet : Grid → Position → Option CellType` returning `none`, so that
  the source's comparisons (`!== CellType.WALL`, `=== CellType.FREE`) are
  modelled as comparisons against `some _` (`undefined` compares unequal to
  every `CellType`).
* JS `Set<string>` of keys `"${row},${col}"` (the key is an injective
  encoding of the position) is modelled as `Finset Position`;
  `Map<string, T>` is modelled as an association list where `set` conses in
  front and `get` takes the first match, which matches the overwrite
  semantics of `Map.set`/`Map.get`.
* `performance.now()` timing (`timeTaken`) is an external effect with no
  algorithmic content and is omitted from the embedded result record.
* `while` loops are embedded as recursion over an explicit fuel parameter,
  returning `none` when fuel runs out; each engine is invoked with a fuel
  that is proved sufficient (lemmas `*_fuel_sufficient` below), so the
  embedded `execute*` functions agree with the always-terminating source
  loops.
-/

set_option maxHeartbeats 1000000

/-- `CellType` from `maze.types`. -/
inductive CellType where
  | WALL
  | FREE
  | START
  | GOAL
deriving DecidableEq, Repr, Inhabited

/-- `Position`: integer pair (row, col). -/
structure Position where
  row : Int
  col : Int
deriving DecidableEq, Repr, Inhabited

/-- The shared 4-direction table (Up, Down, Left, Right). -/
def DIRECTIONS : List Position := [⟨-1, 0⟩, ⟨1, 0⟩, ⟨0, -1⟩, ⟨0, 1⟩]

/-- A maze grid: list of rows of cells. -/
abbrev Grid := List (List CellType)

/-- `grid.length`. -/
def gridRows (g : Grid) : Nat := g.length

/-- `grid[0].length` (the column bound used by every bounds check). -/
def gridCols (g : Grid) : Nat := (g.headD []).length

/-- JS `grid[row][col]`; `none` models `undefined`/out-of-range access. -/
def cellGet (g : Grid) (p : Position) : Option CellType :=
  if 0 ≤ p.row ∧ 0 ≤ p.col then
    ((g.get? p.row.toNat).getD []).get? p.col.toNat
  else none

/-- Componentwise addition `{row: p.row + d.row, col: p.col + d.col}`. -/
def posAdd (p d : Position) : Position := ⟨p.row + d.row, p.col + d.col⟩

/-- `manhattanDistance`, shared by A*, Weighted A* and IDA*. -/
def manhattanDistance (a b : Position) : Nat :=
  (a.row - b.row).natAbs + (a.col - b.col).natAbs

/-- `positionsEqual`. -/
def positionsEqual (a b : Position) : Bool :=
  a.row == b.row && a.col == b.col

theorem positionsEqual_iff (a b : Position) : positionsEqual a b = true ↔ a = b := by
  cases a
  cases b
  simp [positionsEqual, Position.mk.injEq]

/-- The common `getNeighbors`: 4-connected, bounds-checked, excludes walls. -/
def getNeighbors (pos : Position) (grid : Grid) : List Position :=
  DIRECTIONS.filterMap (fun dir =>
    let newPos : Position := ⟨pos.row + dir.row, pos.col + dir.col⟩
    if 0 ≤ newPos.row ∧ newPos.row < (gridRows grid : Int) ∧
        0 ≤ newPos.col ∧ newPos.col < (gridCols grid : Int) ∧
        cellGet grid newPos ≠ some CellType.WALL
    then some newPos else none)

/-- `SearchNode`: position plus parent back-reference (DFS/BFS). -/
structure SearchNode where
  position : Position
  parent : Option Position
deriving DecidableEq, Repr, Inhabited

/-- `AlgorithmResult` (without the wall-clock `timeTaken` field). -/
structure AlgorithmResult where
  algorithmName : String
  found : Bool
  path : List Position
  explorationOrder : List Position
  nodesExpanded : Nat
  pathLength : Nat
  isOptimal : Bool
deriving DecidableEq, Repr, Inhabited

/-- `Map.set`, modelled by consing (later `set` shadows earlier ones). -/
def mapSet {α : Type} (m : List (Position × α)) (k : Position) (v : α) :
    List (Position × α) :=
  (k, v) :: m

/-- `Map.get`, the most recent binding of the key. -/
def mapGet {α : Type} (m : List (Position × α)) (k : Position) : Option α :=
  (m.find? (fun e => decide (e.1 = k))).map Prod.snd

/-- The shared `reconstructPath` while-loop (`path.unshift(current)` then
follow `node?.parent || null`).  `fuel` bounds the walk; the source loop
diverges on a cyclic parent map, which the searches never build (proved via
the chain invariants below), and every call site passes fuel larger than the
length of any acyclic chain. -/
def reconstructPathGo (nodeMap : List (Position × SearchNode)) :
    Nat → Option Position → List Position → List Position
  | _, none, path => path
  | 0, some _, path => path
  | fuel + 1, some current, path =>
    reconstructPathGo nodeMap fuel
      (match mapGet nodeMap current with
       | some node => node.parent
       | none => none)
      (current :: path)

/-- `reconstructPath(nodeMap, goal)`. -/
def reconstructPath (nodeMap : List (Position × SearchNode)) (goal : Position) :
    List Position :=
  reconstructPathGo nodeMap (nodeMap.length + 1) (some goal) []

/-! ## BFS (`executeBFS`) -/

/-- Loop state of `executeBFS`. -/
structure BFSState where
  queue : List SearchNode
  visited : Finset Position
  nodeMap : List (Position × SearchNode)
  explorationOrder : List Position
  nodesExpanded : Nat

/-- The neighbor loop of BFS: mark visited on enqueue, push to the back. -/
def bfsPush (current : SearchNode) :
    List Position → List SearchNode → Finset Position →
    List SearchNode × Finset Position
  | [], queue, visited => (queue, visited)
  | neighbor :: rest, queue, visited =>
    if neighbor ∈ visited then bfsPush current rest queue visited
    else
      bfsPush current rest (queue ++ [⟨neighbor, some current.position⟩])
        (insert neighbor visited)

/-- The BFS result record for the not-found case. -/
def bfsNotFound (s : BFSState) : AlgorithmResult :=
  { algorithmName := "BFS", found := false, path := [],
    explorationOrder := s.explorationOrder, nodesExpanded := s.nodesExpanded,
    pathLength := 0, isOptimal := true }

/-- The `while (queue.length > 0)` loop of `executeBFS`. -/
def bfsLoop (grid : Grid) (goal : Position) :
    Nat → BFSState → Option AlgorithmResult
  | 0, _ => none
  | fuel + 1, s =>
    match s.queue with
    | [] => some (bfsNotFound s)
    | current :: rest =>
      let nodeMap := mapSet s.nodeMap current.position current
      let explorationOrder := s.explorationOrder ++ [current.position]
      let nodesExpanded := s.nodesExpanded + 1
      if positionsEqual current.position goal then
        let path := reconstructPath nodeMap goal
        some { algorithmName := "BFS", found := true, path := path,
               explorationOrder := explorationOrder,
               nodesExpanded := nodesExpanded,
               pathLength := path.length - 1, isOptimal := true }
      else
        let pushed := bfsPush current (getNeighbors current.position grid) rest s.visited
        bfsLoop grid goal fuel
          { queue := pushed.1, visited := pushed.2, nodeMap := nodeMap,
            explorationOrder := explorationOrder, nodesExpanded := nodesExpanded }

/-- Fuel sufficient for the BFS/DFS loops (proved below). -/
def searchFuel (grid : Grid) : Nat :=
  5 * (gridRows grid * gridCols grid + 1) + 2

/-- `executeBFS`. -/
def executeBFS (grid : Grid) (start goal : Position) : AlgorithmResult :=
  (bfsLoop grid goal (searchFuel grid)
    { queue := [⟨start, none⟩], visited := {start}, nodeMap := [],
      explorationOrder := [], nodesExpanded := 0 }).getD default

/-! ## DFS (`executeDFS`)

The source stack is a JS array used with `push`/`pop` at the back; it is
modelled as a list used at the head (same LIFO order).  The source pushes
neighbors in reverse scan order, which at the head of a list is a fold that
conses `neighbor[0]` last, so `neighbor[0]` is popped first, exactly as in
the source. -/

/-- Loop state of `executeDFS`. -/
structure DFSState where
  stack : List SearchNode
  visited : Finset Position
  nodeMap : List (Position × SearchNode)
  explorationOrder : List Position
  nodesExpanded : Nat

/-- The reverse-order neighbor push loop of DFS
(`for (let i = neighbors.length - 1; i >= 0; i--)`). -/
def dfsPush (current : SearchNode) :
    List Position → Finset Position → List SearchNode → List SearchNode
  | [], _, stack => stack
  | neighbor :: rest, visited, stack =>
    let stack' := dfsPush current rest visited stack
    if neighbor ∈ visited then stack'
    else ⟨neighbor, some current.position⟩ :: stack'

/-- The DFS result record for the not-found case. -/
def dfsNotFound (s : DFSState) : AlgorithmResult :=
  { algorithmName := "DFS", found := false, path := [],
    explorationOrder := s.explorationOrder, nodesExpanded := s.nodesExpanded,
    pathLength := 0, isOptimal := false }

/-- The `while (stack.length > 0)` loop of `executeDFS`. -/
def dfsLoop (grid : Grid) (goal : Position) :
    Nat → DFSState → Option AlgorithmResult
  | 0, _ => none
  | fuel + 1, s =>
    match s.stack with
    | [] => some (dfsNotFound s)
    | current :: rest =>
      if current.position ∈ s.visited then
        dfsLoop grid goal fuel { s with stack := rest }
      else
        let visited := insert current.position s.visited
        let nodeMap := mapSet s.nodeMap current.position current
        let explorationOrder := s.explorationOrder ++ [current.position]
        let nodesExpanded := s.nodesExpanded + 1
        if positionsEqual current.position goal then
          let path := reconstructPath nodeMap goal
          some { algorithmName := "DFS", found := true, path := path,
                 explorationOrder := explorationOrder,
                 nodesExpanded := nodesExpanded,
                 pathLength := path.length - 1, isOptimal := false }
        else
          let stack := dfsPush current (getNeighbors current.position grid) visited rest
          dfsLoop grid goal fuel
            { stack := stack, visited := visited, nodeMap := nodeMap,
              explorationOrder := explorationOrder, nodesExpanded := nodesExpanded }

/-- `executeDFS`. -/
def executeDFS (grid : Grid) (start goal : Position) : AlgorithmResult :=
  (dfsLoop grid goal (searchFuel grid)
    { stack := [⟨start, none⟩], visited := ∅, nodeMap := [],
      explorationOrder := [], nodesExpanded := 0 }).getD default

/-! ## A* and Weighted A* (`executeAStar`, `executeWeightedAStar`)

`astar.ts` and `weightedAstar.ts` are textually identical up to the
heuristic weight in `f` (`1` vs `WEIGHT = 2.0`), the algorithm name and the
`isOptimal` flag; they are embedded once, parameterized by these three.
In the source, `nodeMap` and the priority queue share node objects, so the
in-place update `existingNode.g = ...` also updates the queued node; since
a node is in the open queue exactly when it is in `nodeMap` and not closed,
the explicit `updateNode` call that follows makes the embedding's separate
map/queue updates observably equivalent. -/

/-- `AStarNode` (f = g + weight·h; all values are exact naturals). -/
structure AStarNode where
  position : Position
  g : Nat
  h : Nat
  f : Nat
  parent : Option Position
deriving DecidableEq, Repr, Inhabited

/-- The comparator of the `PriorityQueue.sort` calls: by `f`, ties by `h`. -/
def pqLE (a b : AStarNode) : Bool :=
  decide (a.f < b.f ∨ (a.f = b.f ∧ a.h ≤ b.h))

/-- One step of a stable sort by `pqLE`: insert after all existing entries
that compare less-or-equal. -/
def pqInsert (node : AStarNode) : List AStarNode → List AStarNode
  | [] => [node]
  | head :: tail =>
    if pqLE head node then head :: pqInsert node tail
    else node :: head :: tail

/-- JS `Array.prototype.sort` with the f-then-h comparator.  `Array.sort` is
specified to be stable, and a stable sort by a total comparator has a unique
result, so stable insertion sort is an exact model of the source's sort. -/
def pqSort (items : List AStarNode) : List AStarNode :=
  items.foldl (fun acc node => pqInsert node acc) []

/-- `PriorityQueue.enqueue`: push then stable sort. -/
def pqEnqueue (items : List AStarNode) (node : AStarNode) : List AStarNode :=
  pqSort (items ++ [node])

/-- `PriorityQueue.contains`. -/
def pqContains (items : List AStarNode) (position : Position) : Bool :=
  items.any (fun node => positionsEqual node.position position)

/-- `PriorityQueue.updateNode`: update the first matching entry, re-sort. -/
def pqUpdateNode (items : List AStarNode) (position : Position)
    (newG newF : Nat) (parent : Position) : List AStarNode :=
  match items.findIdx? (fun node => positionsEqual node.position position) with
  | none => items
  | some index =>
    match items.get? index with
    | none => items
    | some node =>
      pqSort (items.set index
        { node with g := newG, f := newF, parent := some parent })

/-- Loop state of `executeAStar`/`executeWeightedAStar`;
`openItems` is the priority queue's backing array. -/
structure AStarState where
  openItems : List AStarNode
  closedSet : Finset Position
  nodeMap : List (Position × AStarNode)
  explorationOrder : List Position
  nodesExpanded : Nat

/-- A* `reconstructPath` (same loop as BFS/DFS, over `AStarNode`s). -/
def astarReconstructGo (nodeMap : List (Position × AStarNode)) :
    Nat → Option Position → List Position → List Position
  | _, none, path => path
  | 0, some _, path => path
  | fuel + 1, some current, path =>
    astarReconstructGo nodeMap fuel
      (match mapGet nodeMap current with
       | some node => node.parent
       | none => none)
      (current :: path)

/-- A* `reconstructPath(nodeMap, goal)`. -/
def astarReconstructPath (nodeMap : List (Position × AStarNode))
    (goal : Position) : List Position :=
  astarReconstructGo nodeMap (nodeMap.length + 1) (some goal) []

/-- The `for (const neighbor of neighbors)` loop of A*/Weighted A*. -/
def astarRelax (weight : Nat) (goal : Position) (current : AStarNode) :
    List Position → List AStarNode → Finset Position →
    List (Position × AStarNode) →
    List AStarNode × List (Position × AStarNode)
  | [], openItems, _, nodeMap => (openItems, nodeMap)
  | neighbor :: rest, openItems, closedSet, nodeMap =>
    if neighbor ∈ closedSet then
      astarRelax weight goal current rest openItems closedSet nodeMap
    else
      let tentativeG := current.g + 1
      let h := manhattanDistance neighbor goal
      let f := tentativeG + weight * h
      match mapGet nodeMap neighbor with
      | none =>
        let newNode : AStarNode :=
          ⟨neighbor, tentativeG, h, f, some current.position⟩
        astarRelax weight goal current rest (pqEnqueue openItems newNode)
          closedSet (mapSet nodeMap neighbor newNode)
      | some existingNode =>
        if tentativeG < existingNode.g then
          let updated :=
            { existingNode with
                g := tentativeG, f := f, parent := some current.position }
          let openItems' :=
            if pqContains openItems neighbor then
              pqUpdateNode openItems neighbor tentativeG f current.position
            else openItems
          astarRelax weight goal current rest openItems' closedSet
            (mapSet nodeMap neighbor updated)
        else
          astarRelax weight goal current rest openItems closedSet nodeMap

/-- The not-found result record of A*/Weighted A*. -/
def astarNotFound (name : String) (isOpt : Bool) (s : AStarState) :
    AlgorithmResult :=
  { algorithmName := name, found := false, path := [],
    explorationOrder := s.explorationOrder, nodesExpanded := s.nodesExpanded,
    pathLength := 0, isOptimal := isOpt }

/-- The `while (!openSet.isEmpty())` loop of A*/Weighted A*. -/
def astarLoop (weight : Nat) (name : String) (isOpt : Bool) (grid : Grid)
    (goal : Position) : Nat → AStarState → Option AlgorithmResult
  | 0, _ => none
  | fuel + 1, s =>
    match s.openItems with
    | [] => some (astarNotFound name isOpt s)
    | current :: rest =>
      if current.position ∈ s.closedSet then
        astarLoop weight name isOpt grid goal fuel { s with openItems := rest }
      else
        let closedSet := insert current.position s.closedSet
        let explorationOrder := s.explorationOrder ++ [current.position]
        let nodesExpanded := s.nodesExpanded + 1
        if positionsEqual current.position goal then
          let path := astarReconstructPath s.nodeMap goal
          some { algorithmName := name, found := true, path := path,
                 explorationOrder := explorationOrder,
                 nodesExpanded := nodesExpanded,
                 pathLength := path.length - 1, isOptimal := isOpt }
        else
          let relaxed :=
            astarRelax weight goal current (getNeighbors current.position grid)
              rest closedSet s.nodeMap
          astarLoop weight name isOpt grid goal fuel
            { openItems := relaxed.1, closedSet := closedSet,
              nodeMap := relaxed.2, explorationOrder := explorationOrder,
              nodesExpanded := nodesExpanded }

/-- Fuel sufficient for the A*/Weighted A* loop (proved below). -/
def astarFuel (grid : Grid) : Nat :=
  12 * (gridRows grid * gridCols grid + 1) + 2

/-- The shared body of `executeAStar`/`executeWeightedAStar`. -/
def astarExec (weight : Nat) (name : String) (isOpt : Bool) (grid : Grid)
    (start goal : Position) : AlgorithmResult :=
  let h := manhattanDistance start goal
  let startNode : AStarNode := ⟨start, 0, h, 0 + weight * h, none⟩
  (astarLoop weight name isOpt grid goal (astarFuel grid)
    { openItems := pqEnqueue [] startNode,
      closedSet := ∅,
      nodeMap := mapSet [] start startNode,
      explorationOrder := [], nodesExpanded := 0 }).getD default

/-- `executeAStar`. -/
def executeAStar (grid : Grid) (start goal : Position) : AlgorithmResult :=
  astarExec 1 "A*" true grid start goal

/-- `executeWeightedAStar` (`WEIGHT = 2.0`; `2.0 * h` is exact, hence `2 * h`). -/
def executeWeightedAStar (grid : Grid) (start goal : Position) : AlgorithmResult :=
  astarExec 2 "Weighted A* (e=2)" false grid start goal

/-! ## IDA* (`executeIDAStar`) -/

/-- `INFINITY_THRESHOLD`. -/
def INFINITY_THRESHOLD : Nat := 999999

/-- The refs threaded through `search` (`explorationOrder`, `nodesExpanded`). -/
structure IDAState where
  explorationOrder : List Position
  count : Nat
deriving DecidableEq, Repr, Inhabited

/-- The `for (const neighbor of neighbors)` loop of `search`, carrying the
running `min`; `child` is the recursive call of `search` one level deeper
(at one unit less fuel, same bound). -/
def idaFold
    (child : List Position → Nat → IDAState →
      Option (Nat × Option (List Position) × IDAState))
    (path : List Position) (g : Nat) :
    List Position → Nat → IDAState →
    Option (Nat × Option (List Position) × IDAState)
  | [], minSoFar, st => some (minSoFar, none, st)
  | neighbor :: rest, minSoFar, st =>
    if path.any (fun p => positionsEqual p neighbor) then
      idaFold child path g rest minSoFar st
    else
      match child (path ++ [neighbor]) (g + 1) st with
      | none => none
      | some (t, some result, st') => some (t, some result, st')
      | some (t, none, st') =>
        idaFold child path g rest (if t < minSoFar then t else minSoFar) st'

/-- `search(grid, path, g, bound, goal, explorationOrder, nodesExpanded)`;
returns `(threshold, path?)` plus the threaded refs.  `fuel` bounds the
recursion depth (the source recursion depth is bounded by the number of
distinct in-bounds cells on the current path; proved sufficient below). -/
def idaSearch (grid : Grid) (goal : Position) :
    Nat → List Position → Nat → Nat → IDAState →
    Option (Nat × Option (List Position) × IDAState)
  | 0, _, _, _, _ => none
  | fuel + 1, path, g, bound, st =>
    let node := (path.getLast?).getD default
    let h := manhattanDistance node goal
    let f := g + h
    if bound < f then some (f, none, st)
    else if positionsEqual node goal then some (f, some path, st)
    else
      let st' : IDAState :=
        { explorationOrder := st.explorationOrder ++ [node],
          count := st.count + 1 }
      idaFold (fun path' g' st' => idaSearch grid goal fuel path' g' bound st')
        path g (getNeighbors node grid) INFINITY_THRESHOLD st'

/-- Fuel sufficient for the depth of `search` (proved below). -/
def idaFuel (grid : Grid) : Nat :=
  gridRows grid * gridCols grid + 2

/-- The `while (true)` outer deepening loop of `executeIDAStar`. -/
def idaOuter (grid : Grid) (start goal : Position) :
    Nat → Nat → IDAState → Option AlgorithmResult
  | 0, _, _ => none
  | fuel + 1, bound, st =>
    match idaSearch grid goal (idaFuel grid) [start] 0 bound st with
    | none => none
    | some (_, some result, st') =>
      some { algorithmName := "IDA*", found := true, path := result,
             explorationOrder := st'.explorationOrder,
             nodesExpanded := st'.count,
             pathLength := result.length - 1, isOptimal := true }
    | some (t, none, st') =>
      if t = INFINITY_THRESHOLD then
        some { algorithmName := "IDA*", found := false, path := [],
               explorationOrder := st'.explorationOrder,
               nodesExpanded := st'.count,
               pathLength := 0, isOptimal := true }
      else idaOuter grid start goal fuel t st'

/-- Fuel sufficient for the outer deepening loop (proved below): the bound
strictly increases every iteration while staying below
`INFINITY_THRESHOLD`. -/
def idaOuterFuel : Nat := 1000001

/-- `executeIDAStar`. -/
def executeIDAStar (grid : Grid) (start goal : Position) : AlgorithmResult :=
  (idaOuter grid start goal idaOuterFuel (manhattanDistance start goal)
    ⟨[], 0⟩).getD default

/-! ## Maze generator (`mazeGenerator.ts`)

The generator's only effect is `Math.random()`, drawn once per
`shuffleArray` call and once before the loop-opening phase when no seed is
supplied; these draws are modelled by an explicit entropy oracle
`entropy : Nat → Nat` consumed at an explicit counter, so that seeded runs
are provably independent of it.  All seeded arithmetic
(`(random * 1103515245 + 12345) % 2147483648`, division by `2 ** 31` and
`Math.floor` of the scaled value) is exact in IEEE doubles for every value
that occurs, because `2147483648` is a power of two and the products fit in
53 bits for the list lengths involved; it is modelled by exact integer
arithmetic.  `Math.floor((rows * cols) * 0.08)` equals
`rows * cols * 2 / 25` in natural division for all feasible sizes (the
double closest to `0.08` is larger than `2/25` by less than `2⁻⁵⁴`, far
smaller than the `1/25` quantisation of the exact products). -/

/-- The 2-step carving direction table of `mazeGenerator.ts`. -/
def MAZE_DIRECTIONS : List Position := [⟨-2, 0⟩, ⟨2, 0⟩, ⟨0, -2⟩, ⟨0, 2⟩]

/-- One step of the linear-congruential generator used by the maze code. -/
def lcgNext (state : Nat) : Nat := (state * 1103515245 + 12345) % 2147483648

/-- `Math.floor(nextRandom() * n)` where the current LCG state is `state`
(so `nextRandom()` returned `state / 2 ** 31`): exact floored scaling, with
`Int.fdiv` giving the JS `Math.floor` behavior on negative `n`. -/
def floorMulDiv (state : Nat) (n : Int) : Int :=
  Int.fdiv ((state : Int) * n) 2147483648

/-- `[arr[i], arr[j]] = [arr[j], arr[i]]`. -/
def listSwap {α : Type} (arr : List α) (i j : Nat) : List α :=
  match arr.get? i, arr.get? j with
  | some a, some b => (arr.set i b).set j a
  | _, _ => arr

/-- The Fisher–Yates loop of `shuffleArray`
(`for (let i = arr.length - 1; i > 0; i--)`), returning the shuffled list
and the final LCG state. -/
def shuffleGo {α : Type} : Nat → List α → Nat → List α × Nat
  | 0, arr, state => (arr, state)
  | i + 1, arr, state =>
    let state' := lcgNext state
    let j := state' * (i + 2) / 2147483648
    shuffleGo i (listSwap arr (i + 1) j) state'

/-- `shuffleArray(array, seed?)`; `draw` models the `Math.random() *
2147483647` seed used when `seed` is `undefined`. -/
def shuffleArray {α : Type} (array : List α) (seed : Option Nat) (draw : Nat) :
    List α :=
  let random := match seed with | some s => s | none => draw
  (shuffleGo (array.length - 1) array random).1

/-- `isInBounds(pos, rows, cols)`. -/
def isInBounds (pos : Position) (rows cols : Nat) : Bool :=
  decide (0 ≤ pos.row ∧ pos.row < (rows : Int) ∧
    0 ≤ pos.col ∧ pos.col < (cols : Int))

/-- JS `grid[p.row][p.col] = c` (call sites only use in-range indices). -/
def gridSet (g : Grid) (p : Position) (c : CellType) : Grid :=
  if 0 ≤ p.row ∧ 0 ≤ p.col then
    match g.get? p.row.toNat with
    | some row => g.set p.row.toNat (row.set p.col.toNat c)
    | none => g
  else g

/-- The `for (const dir of directions)` loop of `carvePath`; `child` is the
recursive `carvePath` call one level deeper (at one unit less fuel). -/
def carveFold
    (child : Grid → Position → Finset Position → Nat →
      Option (Grid × Finset Position × Nat))
    (current : Position) :
    List Position → Grid → Finset Position → Nat →
    Option (Grid × Finset Position × Nat)
  | [], grid, visited, ctr => some (grid, visited, ctr)
  | dir :: rest, grid, visited, ctr =>
    let next : Position := ⟨current.row + dir.row, current.col + dir.col⟩
    if isInBounds next (gridRows grid) (gridCols grid) = true ∧ next ∉ visited then
      let wall : Position := ⟨current.row + dir.row / 2, current.col + dir.col / 2⟩
      let grid' := gridSet grid wall CellType.FREE
      match child grid' next visited ctr with
      | none => none
      | some (grid2, visited2, ctr2) =>
        carveFold child current rest grid2 visited2 ctr2
    else carveFold child current rest grid visited ctr

/-- `carvePath(grid, current, visited, seed)`: mark visited, clear the room,
shuffle the four 2-step directions, recurse into unvisited rooms.  `ctr`
counts entropy draws; `fuel` bounds the recursion depth (the source depth is
bounded by the number of unvisited in-bounds rooms; proved sufficient
below). -/
def carvePath (seed : Option Nat) (entropy : Nat → Nat) :
    Nat → Grid → Position → Finset Position → Nat →
    Option (Grid × Finset Position × Nat)
  | 0, _, _, _, _ => none
  | fuel + 1, grid, current, visited, ctr =>
    let visited' := insert current visited
    let grid' := gridSet grid current CellType.FREE
    let directions := shuffleArray MAZE_DIRECTIONS seed (entropy ctr)
    let ctr' := match seed with | some _ => ctr | none => ctr + 1
    carveFold (fun g n v c => carvePath seed entropy fuel g n v c)
      current directions grid' visited' ctr'

/-- The loop-opening `while (opened < wallsToOpen && attempts < maxAttempts)`
loop.  The first argument is the remaining attempt budget
(`maxAttempts - attempts`), on which the source loop visibly terminates; the
third returned component counts the iterations actually performed. -/
def openWallsLoop (aR aC wallsToOpen : Nat) :
    Nat → Grid → Nat → Nat → Grid × Nat × Nat
  | 0, grid, opened, _ => (grid, opened, 0)
  | remaining + 1, grid, opened, state =>
    if opened < wallsToOpen then
      let s1 := lcgNext state
      let row : Int := 2 + floorMulDiv s1 ((aR : Int) - 4)
      let s2 := lcgNext s1
      let col : Int := 2 + floorMulDiv s2 ((aC : Int) - 4)
      let p : Position := ⟨row, col⟩
      let next :=
        if cellGet grid p = some CellType.WALL then
          let adjacentFree :=
            ([cellGet grid ⟨row - 1, col⟩, cellGet grid ⟨row + 1, col⟩,
              cellGet grid ⟨row, col - 1⟩, cellGet grid ⟨row, col + 1⟩].filter
              (fun c => decide (c = some CellType.FREE))).length
          if 2 ≤ adjacentFree ∧ adjacentFree ≤ 3 then
            (gridSet grid p CellType.FREE, opened + 1)
          else (grid, opened)
        else (grid, opened)
      let result := openWallsLoop aR aC wallsToOpen remaining next.1 next.2 s2
      (result.1, result.2.1, result.2.2 + 1)
    else (grid, opened, 0)

/-- `generateMaze(rows, cols, seed?)`.  The `[]` branch is the carve-fuel
fallback, proved unreachable (`carvePath_fuel_sufficient`). -/
def generateMaze (rows cols : Nat) (seed : Option Nat) (entropy : Nat → Nat) :
    Grid :=
  let actualRows := if rows % 2 = 0 then rows - 1 else rows
  let actualCols := if cols % 2 = 0 then cols - 1 else cols
  let grid : Grid :=
    List.replicate actualRows (List.replicate actualCols CellType.WALL)
  match carvePath seed entropy (actualRows * actualCols + 1) grid ⟨1, 1⟩ ∅ 0 with
  | none => []
  | some (carved, _, ctr) =>
    let random := match seed with | some s => s | none => entropy ctr
    let wallsToOpen := actualRows * actualCols * 2 / 25
    let maxAttempts := wallsToOpen * 5
    let opened := openWallsLoop actualRows actualCols wallsToOpen maxAttempts
      carved 0 random
    let withStart := gridSet opened.1 ⟨1, 1⟩ CellType.START
    gridSet withStart ⟨(actualRows : Int) - 2, (actualCols : Int) - 2⟩
      CellType.GOAL

/-! ## Maze editing (`handleCellClick`) -/

/-- The `TOGGLE_WALL` branch of `handleCellClick`. -/
def handleToggleWall (grid : Grid) (row col : Nat) : Grid :=
  let currentCell := cellGet grid ⟨row, col⟩
  if currentCell ≠ some CellType.START ∧ currentCell ≠ some CellType.GOAL then
    gridSet grid ⟨row, col⟩
      (if currentCell = some CellType.WALL then CellType.FREE else CellType.WALL)
  else grid

/-- The clearing double loop of the `SET_START`/`SET_GOAL` branches: every
cell equal to `old` within the first `grid[0].length` columns becomes
`FREE`. -/
def clearCellsOf (old : CellType) (grid : Grid) : Grid :=
  let cols := gridCols grid
  grid.map (fun r =>
    (r.take cols).map (fun c => if c = old then CellType.FREE else c) ++
      r.drop cols)

/-- The `SET_START` branch of `handleCellClick`. -/
def handleSetStart (grid : Grid) (row col : Nat) : Grid :=
  gridSet (clearCellsOf CellType.START grid) ⟨row, col⟩ CellType.START

/-- The `SET_GOAL` branch of `handleCellClick`. -/
def handleSetGoal (grid : Grid) (row col : Nat) : Grid :=
  gridSet (clearCellsOf CellType.GOAL grid) ⟨row, col⟩ CellType.GOAL

/-- Number of cells of a given type in the grid. -/
def countCells (grid : Grid) (c : CellType) : Nat :=
  (grid.map (fun r => r.count c)).sum

/-! ## Comparison aggregator (`runComparison`) -/

/-- The replay state of the comparison aggregator: the position-ownership
map `exploredBy : Map<string, Set<string>>` and the
`goalReachedStep : Record<string, number>` of first goal arrivals. -/
structure ComparisonState where
  exploredBy : List (Position × Finset String)
  goalReachedStep : List (String × Nat)

/-- `if (!exploredBy.has(key)) exploredBy.set(key, new Set());
exploredBy.get(key)!.add(alg)`. -/
def exploredAdd (m : List (Position × Finset String)) (pos : Position)
    (alg : String) : List (Position × Finset String) :=
  mapSet m pos (insert alg ((mapGet m pos).getD ∅))

/-- `Record` lookup. -/
def recordGet (m : List (String × Nat)) (k : String) : Option Nat :=
  (m.find? (fun e => decide (e.1 = k))).map Prod.snd

/-- JS falsiness of `goalReachedStep[name]` (`undefined` and `0` are
falsy). -/
def jsFalsy (o : Option Nat) : Bool :=
  match o with
  | none => true
  | some n => n == 0

/-- One algorithm's contribution to one replay tick: add ownership of
`order[step]` and record the first goal arrival. -/
def comparisonTickAlg (alg label : String) (order : List Position)
    (goal : Position) (step : Nat) (st : ComparisonState) : ComparisonState :=
  if h : step < order.length then
    let pos := order.get ⟨step, h⟩
    let exploredBy := exploredAdd st.exploredBy pos alg
    let goalReachedStep :=
      if pos = goal ∧ jsFalsy (recordGet st.goalReachedStep label) = true then
        (label, step) :: st.goalReachedStep
      else st.goalReachedStep
    ⟨exploredBy, goalReachedStep⟩
  else st

/-- One full tick of the comparison replay (DFS, then BFS, then A*). -/
def comparisonTick (dfsOrder bfsOrder astarOrder : List Position)
    (goal : Position) (step : Nat) (st : ComparisonState) : ComparisonState :=
  comparisonTickAlg "astar" "A*" astarOrder goal step
    (comparisonTickAlg "bfs" "BFS" bfsOrder goal step
      (comparisonTickAlg "dfs" "DFS" dfsOrder goal step st))

/-- The comparison replay after `t` ticks (ticks run `step = 0, 1, …`). -/
def comparisonRun (dfsOrder bfsOrder astarOrder : List Position)
    (goal : Position) : Nat → ComparisonState
  | 0 => ⟨[], []⟩
  | t + 1 =>
    comparisonTick dfsOrder bfsOrder astarOrder goal t
      (comparisonRun dfsOrder bfsOrder astarOrder goal t)

/-! ## Brute-force reference shortest path

The specification's brute-force reference: iterate one-step neighbor
expansion from the start; the reference distance is the first iteration
index at which the goal is reached.  `reachableWithin` stabilises after at
most `rows * cols + 1` steps (proved below), so `refDist` decides
reachability exactly. -/

/-- All positions reachable from `start` in at most `n` steps. -/
def reachableWithin (grid : Grid) (start : Position) : Nat → Finset Position
  | 0 => {start}
  | n + 1 =>
    let s := reachableWithin grid start n
    s ∪ s.biUnion (fun p => (getNeighbors p grid).toFinset)

/-- The true shortest-path length from `start` to `goal`, as decided by the
brute-force reference within the stabilisation bound. -/
def refDist (grid : Grid) (start goal : Position) : Option Nat :=
  (List.range (gridRows grid * gridCols grid + 2)).find?
    (fun n => decide (goal ∈ reachableWithin grid start n))

/-- Reachability (in any number of steps). -/
def Reaches (grid : Grid) (start goal : Position) : Prop :=
  ∃ n, goal ∈ reachableWithin grid start n

/-! ## Result-shape lemmas: `found = false` results are empty -/

theorem bfsLoop_shape (grid : Grid) (goal : Position) :
    ∀ (fuel : Nat) (s : BFSState) (r : AlgorithmResult),
      bfsLoop grid goal fuel s = some r → r.found = false →
      r.path = [] ∧ r.pathLength = 0 := by
  intro fuel
  induction fuel with
  | zero => intro s r h _; simp [bfsLoop] at h
  | succ n ih =>
    intro s r h hf
    rw [bfsLoop] at h
    rcases hq : s.queue with _ | ⟨current, rest⟩
    · rw [hq] at h
      simp only [Option.some.injEq] at h
      subst h
      exact ⟨rfl, rfl⟩
    · rw [hq] at h
      simp only at h
      by_cases hg : positionsEqual current.position goal
      · rw [if_pos hg] at h
        simp only [Option.some.injEq] at h
        subst h
        simp at hf
      · rw [if_neg hg] at h
        exact ih _ _ h hf

theorem dfsLoop_shape (grid : Grid) (goal : Position) :
    ∀ (fuel : Nat) (s : DFSState) (r : AlgorithmResult),
      dfsLoop grid goal fuel s = some r → r.found = false →
      r.path = [] ∧ r.pathLength = 0 := by
  intro fuel
  induction fuel with
  | zero => intro s r h _; simp [dfsLoop] at h
  | succ n ih =>
    intro s r h hf
    rw [dfsLoop] at h
    rcases hq : s.stack with _ | ⟨current, rest⟩
    · rw [hq] at h
      simp only [Option.some.injEq] at h
      subst h
      exact ⟨rfl, rfl⟩
    · rw [hq] at h
      simp only at h
      by_cases hv : current.position ∈ s.visited
      · rw [if_pos hv] at h
        exact ih _ _ h hf
      · rw [if_neg hv] at h
        by_cases hg : positionsEqual current.position goal
        · rw [if_pos hg] at h
          simp only [Option.some.injEq] at h
          subst h
          simp at hf
        · rw [if_neg hg] at h
          exact ih _ _ h hf

theorem astarLoop_shape (weight : Nat) (name : String) (isOpt : Bool)
    (grid : Grid) (goal : Position) :
    ∀ (fuel : Nat) (s : AStarState) (r : AlgorithmResult),
      astarLoop weight name isOpt grid goal fuel s = some r → r.found = false →
      r.path = [] ∧ r.pathLength = 0 := by
  intro fuel
  induction fuel with
  | zero => intro s r h _; simp [astarLoop] at h
  | succ n ih =>
    intro s r h hf
    rw [astarLoop] at h
    rcases hq : s.openItems with _ | ⟨current, rest⟩
    · rw [hq] at h
      simp only [Option.some.injEq] at h
      subst h
      exact ⟨rfl, rfl⟩
    · rw [hq] at h
      simp only at h
      by_cases hv : current.position ∈ s.closedSet
      · rw [if_pos hv] at h
        exact ih _ _ h hf
      · rw [if_neg hv] at h
        by_cases hg : positionsEqual current.position goal
        · rw [if_pos hg] at h
          simp only [Option.some.injEq] at h
          subst h
          simp at hf
        · rw [if_neg hg] at h
          exact ih _ _ h hf

theorem idaOuter_shape (grid : Grid) (start goal : Position) :
    ∀ (fuel bound : Nat) (st : IDAState) (r : AlgorithmResult),
      idaOuter grid start goal fuel bound st = some r → r.found = false →
      r.path = [] ∧ r.pathLength = 0 := by
  intro fuel
  induction fuel with
  | zero => intro bound st r h _; simp [idaOuter] at h
  | succ n ih =>
    intro bound st r h hf
    rw [idaOuter] at h
    rcases hs : idaSearch grid goal (idaFuel grid) [start] 0 bound st with
      _ | ⟨t, res, st'⟩
    · rw [hs] at h
      simp at h
    · rw [hs] at h
      rcases res with _ | tr
      · simp only at h
        by_cases hb : t = INFINITY_THRESHOLD
        · rw [if_pos hb] at h
          simp only [Option.some.injEq] at h
          subst h
          exact ⟨rfl, rfl⟩
        · rw [if_neg hb] at h
          exact ih _ _ _ h hf
      · simp only [Option.some.injEq] at h
        subst h
        simp at hf

theorem default_result_shape :
    (default : AlgorithmResult).found = false ∧
    (default : AlgorithmResult).path = [] ∧
    (default : AlgorithmResult).pathLength = 0 := by
  refine ⟨rfl, rfl, rfl⟩

theorem executeBFS_shape (grid : Grid) (start goal : Position)
    (h : (executeBFS grid start goal).found = false) :
    (executeBFS grid start goal).path = [] ∧
    (executeBFS grid start goal).pathLength = 0 := by
  unfold executeBFS at *
  rcases hr : bfsLoop grid goal (searchFuel grid)
      { queue := [⟨start, none⟩], visited := {start}, nodeMap := [],
        explorationOrder := [], nodesExpanded := 0 } with _ | r
  · exact ⟨rfl, rfl⟩
  · rw [hr] at h
    simp only [Option.getD_some] at h ⊢
    exact bfsLoop_shape grid goal _ _ _ hr h

theorem executeDFS_shape (grid : Grid) (start goal : Position)
    (h : (executeDFS grid start goal).found = false) :
    (executeDFS grid start goal).path = [] ∧
    (executeDFS grid start goal).pathLength = 0 := by
  unfold executeDFS at *
  rcases hr : dfsLoop grid goal (searchFuel grid)
      { stack := [⟨start, none⟩], visited := ∅, nodeMap := [],
        explorationOrder := [], nodesExpanded := 0 } with _ | r
  · exact ⟨rfl, rfl⟩
  · rw [hr] at h
    simp only [Option.getD_some] at h ⊢
    exact dfsLoop_shape _ _ _ _ _ hr h

theorem astarExec_shape (weight : Nat) (name : String) (isOpt : Bool)
    (grid : Grid) (start goal : Position)
    (h : (astarExec weight name isOpt grid start goal).found = false) :
    (astarExec weight name isOpt grid start goal).path = [] ∧
    (astarExec weight name isOpt grid start goal).pathLength = 0 := by
  unfold astarExec at *
  simp only at h ⊢
  rcases hr : astarLoop weight name isOpt grid goal (astarFuel grid)
      { openItems := pqEnqueue [] ⟨start, 0, manhattanDistance start goal,
          0 + weight * manhattanDistance start goal, none⟩,
        closedSet := ∅,
        nodeMap := mapSet [] start ⟨start, 0, manhattanDistance start goal,
          0 + weight * manhattanDistance start goal, none⟩,
        explorationOrder := [], nodesExpanded := 0 } with _ | r
  · exact ⟨rfl, rfl⟩
  · rw [hr] at h
    simp only [Option.getD_some] at h ⊢
    exact astarLoop_shape _ _ _ _ _ _ _ _ hr h

theorem executeIDAStar_shape (grid : Grid) (start goal : Position)
    (h : (executeIDAStar grid start goal).found = false) :
    (executeIDAStar grid start goal).path = [] ∧
    (executeIDAStar grid start goal).pathLength = 0 := by
  unfold executeIDAStar at *
  rcases hr : idaOuter grid start goal idaOuterFuel
      (manhattanDistance start goal) ⟨[], 0⟩ with _ | r
  · exact ⟨rfl, rfl⟩
  · rw [hr] at h
    simp only [Option.getD_some] at h ⊢
    exact idaOuter_shape _ _ _ _ _ _ _ hr h

/-! ## Neighbor lemmas -/

/-- The bounds condition checked by `getNeighbors`. -/
def InBounds (grid : Grid) (p : Position) : Prop :=
  0 ≤ p.row ∧ p.row < (gridRows grid : Int) ∧
    0 ≤ p.col ∧ p.col < (gridCols grid : Int)

instance (grid : Grid) (p : Position) : Decidable (InBounds grid p) := by
  unfold InBounds
  infer_instance

theorem mem_getNeighbors {grid : Grid} {pos p : Position} :
    p ∈ getNeighbors pos grid ↔
      ∃ dir ∈ DIRECTIONS, p = posAdd pos dir ∧ InBounds grid p ∧
        cellGet grid p ≠ some CellType.WALL := by
  unfold getNeighbors
  rw [List.mem_filterMap]
  constructor
  · rintro ⟨dir, hdir, hf⟩
    simp only at hf
    by_cases hc : 0 ≤ pos.row + dir.row ∧ pos.row + dir.row < (gridRows grid : Int) ∧
        0 ≤ pos.col + dir.col ∧ pos.col + dir.col < (gridCols grid : Int) ∧
        cellGet grid ⟨pos.row + dir.row, pos.col + dir.col⟩ ≠ some CellType.WALL
    · rw [if_pos hc, Option.some.injEq] at hf
      subst hf
      exact ⟨dir, hdir, rfl, ⟨hc.1, hc.2.1, hc.2.2.1, hc.2.2.2.1⟩, hc.2.2.2.2⟩
    · rw [if_neg hc] at hf
      exact absurd hf (by simp)
  · rintro ⟨dir, hdir, rfl, hb, hw⟩
    refine ⟨dir, hdir, ?_⟩
    simp only
    rw [if_pos ⟨hb.1, hb.2.1, hb.2.2.1, hb.2.2.2, hw⟩]
    rfl

theorem getNeighbors_nonwall {grid : Grid} {pos p : Position}
    (h : p ∈ getNeighbors pos grid) : cellGet grid p ≠ some CellType.WALL := by
  obtain ⟨dir, -, -, -, hw⟩ := mem_getNeighbors.1 h
  exact hw

theorem getNeighbors_inBounds {grid : Grid} {pos p : Position}
    (h : p ∈ getNeighbors pos grid) : InBounds grid p := by
  obtain ⟨dir, -, -, hb, -⟩ := mem_getNeighbors.1 h
  exact hb

theorem DIRECTIONS_neg_mem :
    ∀ dir ∈ DIRECTIONS, (⟨-dir.row, -dir.col⟩ : Position) ∈ DIRECTIONS := by
  decide

theorem getNeighbors_adj {grid : Grid} {pos p : Position}
    (h : p ∈ getNeighbors pos grid) : manhattanDistance pos p = 1 := by
  rcases mem_getNeighbors.1 h with ⟨dir, hdir, rfl, _, _⟩
  fin_cases hdir <;> simp [manhattanDistance, posAdd]

theorem getNeighbors_rev {grid : Grid} {pos p : Position}
    (h : p ∈ getNeighbors pos grid) :
    ∃ dir ∈ DIRECTIONS, pos = posAdd p dir := by
  rcases mem_getNeighbors.1 h with ⟨dir, hdir, rfl, _, _⟩
  refine ⟨⟨-dir.row, -dir.col⟩, DIRECTIONS_neg_mem dir hdir, ?_⟩
  cases pos
  cases dir
  simp only [posAdd, Position.mk.injEq]
  constructor <;> ring

/-! ## Enclosed goal: the goal position never enters any frontier (C7) -/

/-- The goal is fully enclosed by walls: every in-bounds 4-neighbor position
of the goal holds a `WALL` cell. -/
def GoalEnclosed (grid : Grid) (goal : Position) : Prop :=
  ∀ dir ∈ DIRECTIONS, InBounds grid (posAdd goal dir) →
    cellGet grid (posAdd goal dir) = some CellType.WALL

instance (grid : Grid) (goal : Position) : Decidable (GoalEnclosed grid goal) := by
  unfold GoalEnclosed
  exact List.decidableBAll _ DIRECTIONS

/-- The frontier invariant for the enclosed-goal argument: an entry is the
start or an in-bounds non-wall cell, and is never the goal. -/
def FrontierOK (grid : Grid) (start goal p : Position) : Prop :=
  p ≠ goal ∧ (p = start ∨ (InBounds grid p ∧ cellGet grid p ≠ some CellType.WALL))

theorem frontierOK_of_neighbor {grid : Grid} {start goal current p : Position}
    (henc : GoalEnclosed grid goal)
    (hstart : InBounds grid start ∧ cellGet grid start ≠ some CellType.WALL)
    (hcur : FrontierOK grid start goal current)
    (hmem : p ∈ getNeighbors current grid) :
    FrontierOK grid start goal p := by
  refine ⟨?_, Or.inr ⟨getNeighbors_inBounds hmem, getNeighbors_nonwall hmem⟩⟩
  rintro rfl
  rcases getNeighbors_rev hmem with ⟨dir, hdir, hcurEq⟩
  have hcb : InBounds grid current ∧ cellGet grid current ≠ some CellType.WALL := by
    rcases hcur.2 with h | h
    · rw [h]; exact hstart
    · exact h
  have := henc dir hdir (hcurEq ▸ hcb.1)
  rw [← hcurEq] at this
  exact hcb.2 this

theorem positionsEqual_false {a b : Position} (h : a ≠ b) :
    positionsEqual a b = false := by
  rcases hb : positionsEqual a b with _ | _
  · rfl
  · exact absurd (positionsEqual_iff a b |>.1 hb) h

theorem bfsPush_mem {current : SearchNode} :
    ∀ (nbrs : List Position) (queue : List SearchNode) (visited : Finset Position)
      (n : SearchNode), n ∈ (bfsPush current nbrs queue visited).1 →
      n ∈ queue ∨ n.position ∈ nbrs := by
  intro nbrs
  induction nbrs with
  | nil =>
    intro queue visited n h
    exact Or.inl h
  | cons nb rest ih =>
    intro queue visited n h
    rw [bfsPush] at h
    by_cases hv : nb ∈ visited
    · rw [if_pos hv] at h
      rcases ih _ _ _ h with h1 | h2
      · exact Or.inl h1
      · exact Or.inr (List.mem_cons_of_mem _ h2)
    · rw [if_neg hv] at h
      rcases ih _ _ _ h with h1 | h2
      · rcases List.mem_append.1 h1 with h3 | h4
        · exact Or.inl h3
        · simp only [List.mem_singleton] at h4
          subst h4
          exact Or.inr (List.mem_cons_self _ _)
      · exact Or.inr (List.mem_cons_of_mem _ h2)

theorem dfsPush_mem {current : SearchNode} :
    ∀ (nbrs : List Position) (visited : Finset Position)
      (stack : List SearchNode) (n : SearchNode),
      n ∈ dfsPush current nbrs visited stack →
      n ∈ stack ∨ n.position ∈ nbrs := by
  intro nbrs
  induction nbrs with
  | nil =>
    intro visited stack n h
    exact Or.inl h
  | cons nb rest ih =>
    intro visited stack n h
    rw [dfsPush] at h
    by_cases hv : nb ∈ visited
    · rw [if_pos hv] at h
      rcases ih _ _ _ h with h1 | h2
      · exact Or.inl h1
      · exact Or.inr (List.mem_cons_of_mem _ h2)
    · rw [if_neg hv] at h
      rcases List.mem_cons.1 h with h1 | h2
      · subst h1
        exact Or.inr (List.mem_cons_self _ _)
      · rcases ih _ _ _ h2 with h3 | h4
        · exact Or.inl h3
        · exact Or.inr (List.mem_cons_of_mem _ h4)

theorem pqInsert_perm (node : AStarNode) :
    ∀ items : List AStarNode, (pqInsert node items).Perm (node :: items) := by
  intro items
  induction items with
  | nil => simp [pqInsert]
  | cons head tail ih =>
    rw [pqInsert]
    by_cases hle : pqLE head node
    · rw [if_pos hle]
      exact (ih.cons head).trans (List.Perm.swap node head tail)
    · rw [if_neg hle]

theorem pqSortGo_perm :
    ∀ (items acc : List AStarNode),
      (items.foldl (fun acc node => pqInsert node acc) acc).Perm (acc ++ items) := by
  intro items
  induction items with
  | nil => simp
  | cons head tail ih =>
    intro acc
    have h1 := ih (pqInsert head acc)
    have h2 : (pqInsert head acc ++ tail).Perm (acc ++ head :: tail) := by
      have := (pqInsert_perm head acc).append_right tail
      refine this.trans ?_
      exact (List.perm_middle).symm
    exact h1.trans h2

theorem pqSort_perm (items : List AStarNode) : (pqSort items).Perm items := by
  have := pqSortGo_perm items []
  simpa [pqSort] using this

theorem pqEnqueue_perm (items : List AStarNode) (node : AStarNode) :
    (pqEnqueue items node).Perm (node :: items) := by
  refine (pqSort_perm _).trans ?_
  exact (List.perm_middle.symm).symm.trans (by simpa using List.perm_append_singleton node items)

theorem pqUpdateNode_positions {items : List AStarNode} {position : Position}
    {newG newF : Nat} {parent : Position} {p : Position}
    (h : p ∈ (pqUpdateNode items position newG newF parent).map AStarNode.position) :
    p ∈ items.map AStarNode.position := by
  unfold pqUpdateNode at h
  split at h
  · exact h
  · split at h
    · exact h
    · rename_i x index hidx y node hget
      have hperm := pqSort_perm (items.set index
        { node with g := newG, f := newF, parent := some parent })
      rw [List.mem_map] at h
      rcases h with ⟨n, hn, rfl⟩
      have hn' := hperm.mem_iff.1 hn
      rcases List.mem_or_eq_of_mem_set hn' with h1 | h2
      · exact List.mem_map_of_mem _ h1
      · subst h2
        have hmem : node ∈ items := List.get?_mem hget
        exact List.mem_map.2 ⟨node, hmem, rfl⟩

theorem astarRelax_mem {weight : Nat} {goal : Position} {current : AStarNode} :
    ∀ (nbrs : List Position) (openItems : List AStarNode)
      (closedSet : Finset Position) (nodeMap : List (Position × AStarNode))
      (p : Position),
      p ∈ (astarRelax weight goal current nbrs openItems closedSet nodeMap).1.map
        AStarNode.position →
      p ∈ openItems.map AStarNode.position ∨ p ∈ nbrs := by
  intro nbrs
  induction nbrs with
  | nil =>
    intro openItems closedSet nodeMap p h
    exact Or.inl h
  | cons nb rest ih =>
    intro openItems closedSet nodeMap p h
    rw [astarRelax] at h
    split at h
    · rcases ih _ _ _ _ h with h1 | h2
      · exact Or.inl h1
      · exact Or.inr (List.mem_cons_of_mem _ h2)
    · simp only at h
      split at h
      · rcases ih _ _ _ _ h with h1 | h2
        · have := ((pqEnqueue_perm openItems
            ⟨nb, current.g + 1, manhattanDistance nb goal,
              current.g + 1 + weight * manhattanDistance nb goal,
              some current.position⟩).map AStarNode.position).mem_iff.1 h1
          rcases List.mem_cons.1 this with h3 | h4
          · subst h3
            exact Or.inr (List.mem_cons_self _ _)
          · exact Or.inl h4
        · exact Or.inr (List.mem_cons_of_mem _ h2)
      · split at h
        · rcases ih _ _ _ _ h with h1 | h2
          · by_cases hcon : pqContains openItems nb
            · rw [if_pos hcon] at h1
              exact Or.inl (pqUpdateNode_positions h1)
            · rw [if_neg hcon] at h1
              exact Or.inl h1
          · exact Or.inr (List.mem_cons_of_mem _ h2)
        · rcases ih _ _ _ _ h with h1 | h2
          · exact Or.inl h1
          · exact Or.inr (List.mem_cons_of_mem _ h2)

theorem bfsLoop_enclosed {grid : Grid} {start goal : Position}
    (henc : GoalEnclosed grid goal)
    (hstart : InBounds grid start ∧ cellGet grid start ≠ some CellType.WALL) :
    ∀ (fuel : Nat) (s : BFSState),
      (∀ n ∈ s.queue, FrontierOK grid start goal n.position) →
      ∀ r, bfsLoop grid goal fuel s = some r → r.found = false := by
  intro fuel
  induction fuel with
  | zero => intro s _ r h; simp [bfsLoop] at h
  | succ n ih =>
    intro s hinv r h
    rw [bfsLoop] at h
    rcases hq : s.queue with _ | ⟨current, rest⟩
    · rw [hq] at h
      simp only [Option.some.injEq] at h
      subst h
      rfl
    · rw [hq] at h
      simp only at h
      have hcur : FrontierOK grid start goal current.position :=
        hinv current (hq ▸ List.mem_cons_self _ _)
      rw [positionsEqual_false hcur.1] at h
      simp only [Bool.false_eq_true, if_false] at h
      refine ih _ ?_ r h
      intro m hm
      rcases bfsPush_mem _ _ _ _ hm with h1 | h2
      · exact hinv m (hq ▸ List.mem_cons_of_mem _ h1)
      · exact frontierOK_of_neighbor henc hstart hcur h2

theorem dfsLoop_enclosed {grid : Grid} {start goal : Position}
    (henc : GoalEnclosed grid goal)
    (hstart : InBounds grid start ∧ cellGet grid start ≠ some CellType.WALL) :
    ∀ (fuel : Nat) (s : DFSState),
      (∀ n ∈ s.stack, FrontierOK grid start goal n.position) →
      ∀ r, dfsLoop grid goal fuel s = some r → r.found = false := by
  intro fuel
  induction fuel with
  | zero => intro s _ r h; simp [dfsLoop] at h
  | succ n ih =>
    intro s hinv r h
    rw [dfsLoop] at h
    rcases hq : s.stack with _ | ⟨current, rest⟩
    · rw [hq] at h
      simp only [Option.some.injEq] at h
      subst h
      rfl
    · rw [hq] at h
      simp only at h
      have hcur : FrontierOK grid start goal current.position :=
        hinv current (hq ▸ List.mem_cons_self _ _)
      have hrest : ∀ n ∈ rest, FrontierOK grid start goal n.position :=
        fun m hm => hinv m (hq ▸ List.mem_cons_of_mem _ hm)
      by_cases hv : current.position ∈ s.visited
      · rw [if_pos hv] at h
        exact ih _ hrest r h
      · rw [if_neg hv] at h
        rw [positionsEqual_false hcur.1] at h
        simp only [Bool.false_eq_true, if_false] at h
        refine ih _ ?_ r h
        intro m hm
        rcases dfsPush_mem _ _ _ _ hm with h1 | h2
        · exact hrest m h1
        · exact frontierOK_of_neighbor henc hstart hcur h2

theorem astarLoop_enclosed {weight : Nat} {name : String} {isOpt : Bool}
    {grid : Grid} {start goal : Position}
    (henc : GoalEnclosed grid goal)
    (hstart : InBounds grid start ∧ cellGet grid start ≠ some CellType.WALL) :
    ∀ (fuel : Nat) (s : AStarState),
      (∀ p ∈ s.openItems.map AStarNode.position, FrontierOK grid start goal p) →
      ∀ r, astarLoop weight name isOpt grid goal fuel s = some r →
      r.found = false := by
  intro fuel
  induction fuel with
  | zero => intro s _ r h; simp [astarLoop] at h
  | succ n ih =>
    intro s hinv r h
    rw [astarLoop] at h
    rcases hq : s.openItems with _ | ⟨current, rest⟩
    · rw [hq] at h
      simp only [Option.some.injEq] at h
      subst h
      rfl
    · rw [hq] at h
      simp only at h
      have hcur : FrontierOK grid start goal current.position := by
        refine hinv current.position ?_
        rw [hq]
        exact List.mem_map_of_mem _ (List.mem_cons_self _ _)
      have hrest : ∀ p ∈ rest.map AStarNode.position,
          FrontierOK grid start goal p := by
        intro p hp
        refine hinv p ?_
        rw [hq, List.map_cons]
        exact List.mem_cons_of_mem _ hp
      by_cases hv : current.position ∈ s.closedSet
      · rw [if_pos hv] at h
        exact ih _ hrest r h
      · rw [if_neg hv] at h
        rw [positionsEqual_false hcur.1] at h
        simp only [Bool.false_eq_true, if_false] at h
        refine ih _ ?_ r h
        intro p hp
        rcases astarRelax_mem _ _ _ _ _ hp with h1 | h2
        · exact hrest p h1
        · exact frontierOK_of_neighbor henc hstart hcur h2

theorem executeBFS_enclosed {grid : Grid} {start goal : Position}
    (henc : GoalEnclosed grid goal) (hsb : InBounds grid start)
    (hsw : cellGet grid start ≠ some CellType.WALL) (hsg : start ≠ goal) :
    (executeBFS grid start goal).found = false := by
  unfold executeBFS
  rcases hr : bfsLoop grid goal (searchFuel grid)
      { queue := [⟨start, none⟩], visited := {start}, nodeMap := [],
        explorationOrder := [], nodesExpanded := 0 } with _ | r
  · rfl
  · simp only [Option.getD_some]
    refine bfsLoop_enclosed henc ⟨hsb, hsw⟩ _ _ ?_ r hr
    intro m hm
    simp only [List.mem_singleton] at hm
    subst hm
    exact ⟨hsg, Or.inl rfl⟩

theorem executeDFS_enclosed {grid : Grid} {start goal : Position}
    (henc : GoalEnclosed grid goal) (hsb : InBounds grid start)
    (hsw : cellGet grid start ≠ some CellType.WALL) (hsg : start ≠ goal) :
    (executeDFS grid start goal).found = false := by
  unfold executeDFS
  rcases hr : dfsLoop grid goal (searchFuel grid)
      { stack := [⟨start, none⟩], visited := ∅, nodeMap := [],
        explorationOrder := [], nodesExpanded := 0 } with _ | r
  · rfl
  · simp only [Option.getD_some]
    refine dfsLoop_enclosed henc ⟨hsb, hsw⟩ _ _ ?_ r hr
    intro m hm
    simp only [List.mem_singleton] at hm
    subst hm
    exact ⟨hsg, Or.inl rfl⟩

theorem astarExec_enclosed {weight : Nat} {name : String} {isOpt : Bool}
    {grid : Grid} {start goal : Position}
    (henc : GoalEnclosed grid goal) (hsb : InBounds grid start)
    (hsw : cellGet grid start ≠ some CellType.WALL) (hsg : start ≠ goal) :
    (astarExec weight name isOpt grid start goal).found = false := by
  unfold astarExec
  simp only
  rcases hr : astarLoop weight name isOpt grid goal (astarFuel grid)
      { openItems := pqEnqueue [] ⟨start, 0, manhattanDistance start goal,
          0 + weight * manhattanDistance start goal, none⟩,
        closedSet := ∅,
        nodeMap := mapSet [] start ⟨start, 0, manhattanDistance start goal,
          0 + weight * manhattanDistance start goal, none⟩,
        explorationOrder := [], nodesExpanded := 0 } with _ | r
  · rfl
  · simp only [Option.getD_some]
    refine astarLoop_enclosed henc ⟨hsb, hsw⟩ _ _ ?_ r hr
    intro p hp
    have := ((pqEnqueue_perm [] ⟨start, 0, manhattanDistance start goal,
        0 + weight * manhattanDistance start goal, none⟩).map
        AStarNode.position).mem_iff.1 hp
    simp only [List.map_cons, List.map_nil, List.mem_singleton] at this
    subst this
    exact ⟨hsg, Or.inl rfl⟩

/-- A small grid whose goal cell `(2,1)` is fully enclosed by walls. -/
def enclosedGrid : Grid :=
  [[CellType.START, CellType.FREE, CellType.FREE],
   [CellType.WALL, CellType.WALL, CellType.WALL],
   [CellType.WALL, CellType.GOAL, CellType.WALL]]

/-- C7: every engine that reports `found = false` returns the empty path and
`pathLength = 0`; and on any grid whose goal is fully enclosed by wall
cells (with a well-formed start: in bounds, not a wall, distinct from the
goal), DFS, BFS and A* all return `found = false` with empty path and zero
path length. -/
theorem C7_not_found_empty (grid : Grid) (start goal : Position) :
    ((executeDFS grid start goal).found = false →
      (executeDFS grid start goal).path = [] ∧
      (executeDFS grid start goal).pathLength = 0) ∧
    ((executeBFS grid start goal).found = false →
      (executeBFS grid start goal).path = [] ∧
      (executeBFS grid start goal).pathLength = 0) ∧
    ((executeAStar grid start goal).found = false →
      (executeAStar grid start goal).path = [] ∧
      (executeAStar grid start goal).pathLength = 0) ∧
    ((executeWeightedAStar grid start goal).found = false →
      (executeWeightedAStar grid start goal).path = [] ∧
      (executeWeightedAStar grid start goal).pathLength = 0) ∧
    ((executeIDAStar grid start goal).found = false →
      (executeIDAStar grid start goal).path = [] ∧
      (executeIDAStar grid start goal).pathLength = 0) ∧
    (GoalEnclosed grid goal → InBounds grid start →
      cellGet grid start ≠ some CellType.WALL → start ≠ goal →
      (executeDFS grid start goal).found = false ∧
      (executeBFS grid start goal).found = false ∧
      (executeAStar grid start goal).found = false ∧
      (executeDFS grid start goal).path = [] ∧
      (executeBFS grid start goal).path = [] ∧
      (executeAStar grid start goal).path = [] ∧
      (executeDFS grid start goal).pathLength = 0 ∧
      (executeBFS grid start goal).pathLength = 0 ∧
      (executeAStar grid start goal).pathLength = 0) := by
  refine ⟨executeDFS_shape grid start goal, executeBFS_shape grid start goal,
    astarExec_shape 1 "A*" true grid start goal,
    astarExec_shape 2 "Weighted A* (e=2)" false grid start goal,
    executeIDAStar_shape grid start goal, ?_⟩
  intro henc hsb hsw hsg
  have hd := executeDFS_enclosed henc hsb hsw hsg
  have hb := executeBFS_enclosed henc hsb hsw hsg
  have ha : (executeAStar grid start goal).found = false :=
    astarExec_enclosed henc hsb hsw hsg
  have hd' := executeDFS_shape grid start goal hd
  have hb' := executeBFS_shape grid start goal hb
  have ha' := astarExec_shape 1 "A*" true grid start goal ha
  exact ⟨hd, hb, ha, hd'.1, hb'.1, ha'.1, hd'.2, hb'.2, ha'.2⟩

/-- Witness for C7 at a concrete enclosed-goal grid. -/
theorem C7_not_found_empty_witness :
    (executeDFS enclosedGrid ⟨0, 0⟩ ⟨2, 1⟩).found = false ∧
    (executeBFS enclosedGrid ⟨0, 0⟩ ⟨2, 1⟩).found = false ∧
    (executeAStar enclosedGrid ⟨0, 0⟩ ⟨2, 1⟩).found = false ∧
    (executeBFS enclosedGrid ⟨0, 0⟩ ⟨2, 1⟩).path = [] ∧
    (executeBFS enclosedGrid ⟨0, 0⟩ ⟨2, 1⟩).pathLength = 0 := by
  have h := (C7_not_found_empty enclosedGrid ⟨0, 0⟩ ⟨2, 1⟩).2.2.2.2.2
    (by decide) (by decide) (by decide) (by decide)
  exact ⟨h.1, h.2.1, h.2.2.1, h.2.2.2.2.1, h.2.2.2.2.2.2.2.1⟩

/-! ## No duplicate expansions (C3) -/

theorem bfsPush_nodup (current : SearchNode) :
    ∀ (nbrs : List Position) (queue : List SearchNode) (visited : Finset Position)
      (seen : List Position),
      (seen ++ queue.map SearchNode.position).Nodup →
      (∀ p ∈ seen ++ queue.map SearchNode.position, p ∈ visited) →
      ((seen ++ (bfsPush current nbrs queue visited).1.map SearchNode.position).Nodup ∧
       (∀ p ∈ seen ++ (bfsPush current nbrs queue visited).1.map SearchNode.position,
          p ∈ (bfsPush current nbrs queue visited).2)) := by
  intro nbrs
  induction nbrs with
  | nil =>
    intro queue visited seen hnd hmem
    exact ⟨hnd, hmem⟩
  | cons nb rest ih =>
    intro queue visited seen hnd hmem
    rw [bfsPush]
    by_cases hv : nb ∈ visited
    · rw [if_pos hv]
      exact ih queue visited seen hnd hmem
    · rw [if_neg hv]
      have hnb : nb ∉ seen ++ queue.map SearchNode.position := by
        intro hc
        exact hv (hmem nb hc)
      refine ih _ _ seen ?_ ?_
      · rw [List.map_append, ← List.append_assoc]
        simp only [List.map_cons, List.map_nil]
        rw [List.nodup_append]
        refine ⟨hnd, List.nodup_singleton _, ?_⟩
        intro a ha hb
        simp only [List.mem_singleton] at hb
        subst hb
        exact hnb ha
      · intro p hp
        rw [List.map_append, ← List.append_assoc] at hp
        rcases List.mem_append.1 hp with h1 | h2
        · exact Finset.mem_insert_of_mem (hmem p h1)
        · simp only [List.map_cons, List.map_nil, List.mem_singleton] at h2
          subst h2
          exact Finset.mem_insert_self _ _

theorem bfsLoop_nodup (grid : Grid) (goal : Position) :
    ∀ (fuel : Nat) (s : BFSState) (r : AlgorithmResult),
      (s.explorationOrder ++ s.queue.map SearchNode.position).Nodup →
      (∀ p ∈ s.explorationOrder ++ s.queue.map SearchNode.position, p ∈ s.visited) →
      bfsLoop grid goal fuel s = some r → r.explorationOrder.Nodup := by
  intro fuel
  induction fuel with
  | zero => intro s r _ _ h; simp [bfsLoop] at h
  | succ n ih =>
    intro s r hnd hmem h
    rw [bfsLoop] at h
    rcases hq : s.queue with _ | ⟨current, rest⟩
    · rw [hq] at h
      simp only [Option.some.injEq] at h
      subst h
      simp only [bfsNotFound]
      rw [hq] at hnd
      simpa using hnd
    · rw [hq] at h
      simp only at h
      rw [hq] at hnd hmem
      simp only [List.map_cons] at hnd hmem
      have hstep : (s.explorationOrder ++ [current.position] ++
          rest.map SearchNode.position).Nodup := by
        simpa [List.append_assoc] using hnd
      by_cases hg : positionsEqual current.position goal
      · rw [if_pos hg] at h
        simp only [Option.some.injEq] at h
        subst h
        simp only
        exact hstep.sublist (List.sublist_append_left _ _)
      · rw [if_neg hg] at h
        refine ih _ r ?_ ?_ h
        · simp only
          have := bfsPush_nodup current (getNeighbors current.position grid) rest s.visited
            (s.explorationOrder ++ [current.position]) (by simpa [List.append_assoc] using hstep)
            (fun p hp => hmem p (by
              rcases List.mem_append.1 hp with h1 | h2
              · rcases List.mem_append.1 h1 with h3 | h4
                · exact List.mem_append.2 (Or.inl h3)
                · simp only [List.mem_singleton] at h4
                  subst h4
                  exact List.mem_append.2 (Or.inr (List.mem_cons_self _ _))
              · exact List.mem_append.2 (Or.inr (List.mem_cons_of_mem _ h2))))
          simpa [List.append_assoc] using this.1
        · simp only
          have := bfsPush_nodup current (getNeighbors current.position grid) rest s.visited
            (s.explorationOrder ++ [current.position]) (by simpa [List.append_assoc] using hstep)
            (fun p hp => hmem p (by
              rcases List.mem_append.1 hp with h1 | h2
              · rcases List.mem_append.1 h1 with h3 | h4
                · exact List.mem_append.2 (Or.inl h3)
                · simp only [List.mem_singleton] at h4
                  subst h4
                  exact List.mem_append.2 (Or.inr (List.mem_cons_self _ _))
              · exact List.mem_append.2 (Or.inr (List.mem_cons_of_mem _ h2))))
          intro p hp
          refine this.2 p ?_
          simpa [List.append_assoc] using hp

theorem dfsLoop_nodup (grid : Grid) (goal : Position) :
    ∀ (fuel : Nat) (s : DFSState) (r : AlgorithmResult),
      s.explorationOrder.Nodup →
      (∀ p ∈ s.explorationOrder, p ∈ s.visited) →
      dfsLoop grid goal fuel s = some r → r.explorationOrder.Nodup := by
  intro fuel
  induction fuel with
  | zero => intro s r _ _ h; simp [dfsLoop] at h
  | succ n ih =>
    intro s r hnd hmem h
    rw [dfsLoop] at h
    rcases hq : s.stack with _ | ⟨current, rest⟩
    · rw [hq] at h
      simp only [Option.some.injEq] at h
      subst h
      exact hnd
    · rw [hq] at h
      simp only at h
      by_cases hv : current.position ∈ s.visited
      · rw [if_pos hv] at h
        exact ih { s with stack := rest } r hnd hmem h
      · rw [if_neg hv] at h
        have hcur : current.position ∉ s.explorationOrder :=
          fun hc => hv (hmem _ hc)
        have hnd' : (s.explorationOrder ++ [current.position]).Nodup := by
          rw [List.nodup_append]
          refine ⟨hnd, List.nodup_singleton _, ?_⟩
          intro a ha hb
          simp only [List.mem_singleton] at hb
          subst hb
          exact hcur ha
        have hmem' : ∀ p ∈ s.explorationOrder ++ [current.position],
            p ∈ insert current.position s.visited := by
          intro p hp
          rcases List.mem_append.1 hp with h1 | h2
          · exact Finset.mem_insert_of_mem (hmem p h1)
          · simp only [List.mem_singleton] at h2
            subst h2
            exact Finset.mem_insert_self _ _
        by_cases hg : positionsEqual current.position goal
        · rw [if_pos hg] at h
          simp only [Option.some.injEq] at h
          subst h
          exact hnd'
        · rw [if_neg hg] at h
          exact ih _ r hnd' hmem' h

theorem astarLoop_nodup (weight : Nat) (name : String) (isOpt : Bool)
    (grid : Grid) (goal : Position) :
    ∀ (fuel : Nat) (s : AStarState) (r : AlgorithmResult),
      s.explorationOrder.Nodup →
      (∀ p ∈ s.explorationOrder, p ∈ s.closedSet) →
      astarLoop weight name isOpt grid goal fuel s = some r →
      r.explorationOrder.Nodup := by
  intro fuel
  induction fuel with
  | zero => intro s r _ _ h; simp [astarLoop] at h
  | succ n ih =>
    intro s r hnd hmem h
    rw [astarLoop] at h
    rcases hq : s.openItems with _ | ⟨current, rest⟩
    · rw [hq] at h
      simp only [Option.some.injEq] at h
      subst h
      exact hnd
    · rw [hq] at h
      simp only at h
      by_cases hv : current.position ∈ s.closedSet
      · rw [if_pos hv] at h
        exact ih { s with openItems := rest } r hnd hmem h
      · rw [if_neg hv] at h
        have hcur : current.position ∉ s.explorationOrder :=
          fun hc => hv (hmem _ hc)
        have hnd' : (s.explorationOrder ++ [current.position]).Nodup := by
          rw [List.nodup_append]
          refine ⟨hnd, List.nodup_singleton _, ?_⟩
          intro a ha hb
          simp only [List.mem_singleton] at hb
          subst hb
          exact hcur ha
        have hmem' : ∀ p ∈ s.explorationOrder ++ [current.position],
            p ∈ insert current.position s.closedSet := by
          intro p hp
          rcases List.mem_append.1 hp with h1 | h2
          · exact Finset.mem_insert_of_mem (hmem p h1)
          · simp only [List.mem_singleton] at h2
            subst h2
            exact Finset.mem_insert_self _ _
        by_cases hg : positionsEqual current.position goal
        · rw [if_pos hg] at h
          simp only [Option.some.injEq] at h
          subst h
          exact hnd'
        · rw [if_neg hg] at h
          exact ih _ r hnd' hmem' h

/-- A 3×3 grid whose only start-to-goal route is a 6-step detour, so IDA*
needs three deepening iterations. -/
def detourGrid : Grid :=
  [[CellType.START, CellType.FREE, CellType.FREE],
   [CellType.WALL, CellType.WALL, CellType.FREE],
   [CellType.GOAL, CellType.FREE, CellType.FREE]]

/-- C3 counterexample: `executeIDAStar` repeats positions in its
`explorationOrder` (it re-explores from the start on every deepening
iteration and can also revisit a position on two different branches of the
same iteration), refuting the claim's no-duplicates guarantee for IDA*. -/
theorem C3_counterexample :
    ¬ (executeIDAStar detourGrid ⟨0, 0⟩ ⟨2, 0⟩).explorationOrder.Nodup := by
  decide

/-- C3 (amended): for every grid, start and goal, `executeBFS`,
`executeAStar` and `executeDFS` never list a position twice in
`explorationOrder` (so DFS never expands a position twice); `executeIDAStar`
has no such guarantee. -/
theorem C3_no_duplicates (grid : Grid) (start goal : Position) :
    (executeBFS grid start goal).explorationOrder.Nodup ∧
    (executeAStar grid start goal).explorationOrder.Nodup ∧
    (executeDFS grid start goal).explorationOrder.Nodup := by
  refine ⟨?_, ?_, ?_⟩
  · unfold executeBFS
    rcases hr : bfsLoop grid goal (searchFuel grid)
        { queue := [⟨start, none⟩], visited := {start}, nodeMap := [],
          explorationOrder := [], nodesExpanded := 0 } with _ | r
    · exact List.nodup_nil
    · simp only [Option.getD_some]
      refine bfsLoop_nodup grid goal _ _ r ?_ ?_ hr
      · simp
      · intro p hp
        simp only [List.nil_append, List.map_cons, List.map_nil,
          List.mem_singleton] at hp
        subst hp
        exact Finset.mem_singleton_self _
  · unfold executeAStar astarExec
    simp only
    rcases hr : astarLoop 1 "A*" true grid goal (astarFuel grid)
        { openItems := pqEnqueue [] ⟨start, 0, manhattanDistance start goal,
            0 + 1 * manhattanDistance start goal, none⟩,
          closedSet := ∅,
          nodeMap := mapSet [] start ⟨start, 0, manhattanDistance start goal,
            0 + 1 * manhattanDistance start goal, none⟩,
          explorationOrder := [], nodesExpanded := 0 } with _ | r
    · exact List.nodup_nil
    · simp only [Option.getD_some]
      exact astarLoop_nodup 1 "A*" true grid goal _ _ r (by simp) (by simp) hr
  · unfold executeDFS
    rcases hr : dfsLoop grid goal (searchFuel grid)
        { stack := [⟨start, none⟩], visited := ∅, nodeMap := [],
          explorationOrder := [], nodesExpanded := 0 } with _ | r
    · exact List.nodup_nil
    · simp only [Option.getD_some]
      exact dfsLoop_nodup grid goal _ _ r (by simp) (by simp) hr

/-! ## Goal expansion accounting (C10) -/

theorem bfsLoop_goal_last (grid : Grid) (goal : Position) :
    ∀ (fuel : Nat) (s : BFSState) (r : AlgorithmResult),
      s.nodesExpanded = s.explorationOrder.length →
      bfsLoop grid goal fuel s = some r →
      (r.found = true → r.explorationOrder.getLast? = some goal) ∧
      r.nodesExpanded = r.explorationOrder.length := by
  intro fuel
  induction fuel with
  | zero => intro s r _ h; simp [bfsLoop] at h
  | succ n ih =>
    intro s r hcnt h
    rw [bfsLoop] at h
    rcases hq : s.queue with _ | ⟨current, rest⟩
    · rw [hq] at h
      simp only [Option.some.injEq] at h
      subst h
      exact ⟨fun hf => by simp [bfsNotFound] at hf, hcnt⟩
    · rw [hq] at h
      simp only at h
      by_cases hg : positionsEqual current.position goal
      · rw [if_pos hg] at h
        simp only [Option.some.injEq] at h
        subst h
        have hgoal : current.position = goal := (positionsEqual_iff _ _).1 hg
        subst hgoal
        refine ⟨fun _ => List.getLast?_concat _, ?_⟩
        simp [hcnt]
      · rw [if_neg hg] at h
        refine ih _ r ?_ h
        simp [hcnt]

theorem dfsLoop_goal_last (grid : Grid) (goal : Position) :
    ∀ (fuel : Nat) (s : DFSState) (r : AlgorithmResult),
      s.nodesExpanded = s.explorationOrder.length →
      dfsLoop grid goal fuel s = some r →
      (r.found = true → r.explorationOrder.getLast? = some goal) ∧
      r.nodesExpanded = r.explorationOrder.length := by
  intro fuel
  induction fuel with
  | zero => intro s r _ h; simp [dfsLoop] at h
  | succ n ih =>
    intro s r hcnt h
    rw [dfsLoop] at h
    rcases hq : s.stack with _ | ⟨current, rest⟩
    · rw [hq] at h
      simp only [Option.some.injEq] at h
      subst h
      exact ⟨fun hf => by simp [dfsNotFound] at hf, hcnt⟩
    · rw [hq] at h
      simp only at h
      by_cases hv : current.position ∈ s.visited
      · rw [if_pos hv] at h
        exact ih { s with stack := rest } r hcnt h
      · rw [if_neg hv] at h
        by_cases hg : positionsEqual current.position goal
        · rw [if_pos hg] at h
          simp only [Option.some.injEq] at h
          subst h
          have hgoal : current.position = goal := (positionsEqual_iff _ _).1 hg
          subst hgoal
          refine ⟨fun _ => List.getLast?_concat _, ?_⟩
          simp [hcnt]
        · rw [if_neg hg] at h
          refine ih _ r ?_ h
          simp [hcnt]

theorem astarLoop_goal_last (weight : Nat) (name : String) (isOpt : Bool)
    (grid : Grid) (goal : Position) :
    ∀ (fuel : Nat) (s : AStarState) (r : AlgorithmResult),
      s.nodesExpanded = s.explorationOrder.length →
      astarLoop weight name isOpt grid goal fuel s = some r →
      (r.found = true → r.explorationOrder.getLast? = some goal) ∧
      r.nodesExpanded = r.explorationOrder.length := by
  intro fuel
  induction fuel with
  | zero => intro s r _ h; simp [astarLoop] at h
  | succ n ih =>
    intro s r hcnt h
    rw [astarLoop] at h
    rcases hq : s.openItems with _ | ⟨current, rest⟩
    · rw [hq] at h
      simp only [Option.some.injEq] at h
      subst h
      exact ⟨fun hf => by simp [astarNotFound] at hf, hcnt⟩
    · rw [hq] at h
      simp only at h
      by_cases hv : current.position ∈ s.closedSet
      · rw [if_pos hv] at h
        exact ih { s with openItems := rest } r hcnt h
      · rw [if_neg hv] at h
        by_cases hg : positionsEqual current.position goal
        · rw [if_pos hg] at h
          simp only [Option.some.injEq] at h
          subst h
          have hgoal : current.position = goal := (positionsEqual_iff _ _).1 hg
          subst hgoal
          refine ⟨fun _ => List.getLast?_concat _, ?_⟩
          simp [hcnt]
        · rw [if_neg hg] at h
          refine ih _ r ?_ h
          simp [hcnt]

/-- The IDA* exploration refs only ever grow by goal-free blocks. -/
def IDAExtOK (goal : Position) (st st' : IDAState) : Prop :=
  ∃ ext, st'.explorationOrder = st.explorationOrder ++ ext ∧
    goal ∉ ext ∧ st'.count = st.count + ext.length

theorem idaExtOK_rfl (goal : Position) (st : IDAState) : IDAExtOK goal st st :=
  ⟨[], by simp, by simp, by simp⟩

theorem idaExtOK_trans {goal : Position} {s1 s2 s3 : IDAState}
    (h1 : IDAExtOK goal s1 s2) (h2 : IDAExtOK goal s2 s3) :
    IDAExtOK goal s1 s3 := by
  rcases h1 with ⟨e1, he1, hg1, hc1⟩
  rcases h2 with ⟨e2, he2, hg2, hc2⟩
  refine ⟨e1 ++ e2, ?_, ?_, ?_⟩
  · rw [he2, he1, List.append_assoc]
  · intro hc
    rcases List.mem_append.1 hc with h | h
    · exact hg1 h
    · exact hg2 h
  · rw [hc2, hc1, List.length_append]
    ring

theorem idaFold_ext {goal : Position}
    {child : List Position → Nat → IDAState →
      Option (Nat × Option (List Position) × IDAState)}
    (hchild : ∀ path' g' st' t res st'',
      child path' g' st' = some (t, res, st'') → IDAExtOK goal st' st'') :
    ∀ (nbrs path : List Position) (g minSoFar : Nat) (st : IDAState)
      (t : Nat) (res : Option (List Position)) (st' : IDAState),
      idaFold child path g nbrs minSoFar st = some (t, res, st') →
      IDAExtOK goal st st' := by
  intro nbrs
  induction nbrs with
  | nil =>
    intro path g minSoFar st t res st' h
    rw [idaFold] at h
    simp only [Option.some.injEq, Prod.mk.injEq] at h
    rw [← h.2.2]
    exact idaExtOK_rfl goal st
  | cons nb rest ih =>
    intro path g minSoFar st t res st' h
    rw [idaFold] at h
    by_cases hp : path.any (fun p => positionsEqual p nb)
    · rw [if_pos hp] at h
      exact ih _ _ _ _ _ _ _ h
    · rw [if_neg hp] at h
      rcases hc : child (path ++ [nb]) (g + 1) st with _ | ⟨t2, res2, st2⟩
      · rw [hc] at h
        simp at h
      · rw [hc] at h
        have hstep := hchild _ _ _ _ _ _ hc
        rcases res2 with _ | r2
        · simp only at h
          exact idaExtOK_trans hstep (ih _ _ _ _ _ _ _ h)
        · simp only [Option.some.injEq, Prod.mk.injEq] at h
          rw [← h.2.2]
          exact hstep

theorem idaSearch_ext (grid : Grid) (goal : Position) :
    ∀ (fuel : Nat) (path : List Position) (g bound : Nat) (st : IDAState)
      (t : Nat) (res : Option (List Position)) (st' : IDAState),
      idaSearch grid goal fuel path g bound st = some (t, res, st') →
      IDAExtOK goal st st' := by
  intro fuel
  induction fuel with
  | zero => intro path g bound st t res st' h; simp [idaSearch] at h
  | succ n ih =>
    intro path g bound st t res st' h
    rw [idaSearch] at h
    simp only at h
    by_cases hb : bound < g + manhattanDistance ((path.getLast?).getD default) goal
    · rw [if_pos hb] at h
      simp only [Option.some.injEq, Prod.mk.injEq] at h
      rw [← h.2.2]
      exact idaExtOK_rfl goal st
    · rw [if_neg hb] at h
      by_cases hg : positionsEqual ((path.getLast?).getD default) goal
      · rw [if_pos hg] at h
        simp only [Option.some.injEq, Prod.mk.injEq] at h
        rw [← h.2.2]
        exact idaExtOK_rfl goal st
      · rw [if_neg hg] at h
        have hnode : (path.getLast?).getD default ≠ goal := by
          intro hc
          rw [hc] at hg
          exact hg ((positionsEqual_iff goal goal).2 rfl)
        have hfirst : IDAExtOK goal st
            ⟨st.explorationOrder ++ [(path.getLast?).getD default],
              st.count + 1⟩ := by
          refine ⟨[(path.getLast?).getD default], rfl, ?_, rfl⟩
          intro hc
          simp only [List.mem_singleton] at hc
          exact hnode hc.symm
        exact idaExtOK_trans hfirst
          (idaFold_ext (fun p' g' s' t2 r2 s2 hc => ih p' g' bound s' t2 r2 s2 hc)
            _ _ _ _ _ _ _ _ h)

theorem idaOuter_no_goal (grid : Grid) (start goal : Position) :
    ∀ (fuel bound : Nat) (st : IDAState) (r : AlgorithmResult),
      idaOuter grid start goal fuel bound st = some r →
      goal ∉ st.explorationOrder → st.count = st.explorationOrder.length →
      goal ∉ r.explorationOrder ∧ r.nodesExpanded = r.explorationOrder.length := by
  intro fuel
  induction fuel with
  | zero => intro bound st r h; simp [idaOuter] at h
  | succ n ih =>
    intro bound st r h hst hcnt
    rw [idaOuter] at h
    rcases hs : idaSearch grid goal (idaFuel grid) [start] 0 bound st with
      _ | ⟨t, res, st'⟩
    · rw [hs] at h
      simp at h
    · rw [hs] at h
      have hext := idaSearch_ext grid goal _ _ _ _ _ _ _ _ hs
      rcases hext with ⟨ext, hee, heg, hec⟩
      have hst' : goal ∉ st'.explorationOrder := by
        rw [hee]
        intro hc
        rcases List.mem_append.1 hc with h1 | h2
        · exact hst h1
        · exact heg h2
      have hcnt' : st'.count = st'.explorationOrder.length := by
        rw [hee, hec, hcnt, List.length_append]
      rcases res with _ | tr
      · simp only at h
        by_cases hb : t = INFINITY_THRESHOLD
        · rw [if_pos hb] at h
          simp only [Option.some.injEq] at h
          subst h
          exact ⟨hst', hcnt'⟩
        · rw [if_neg hb] at h
          exact ih _ _ r h hst' hcnt'
      · simp only [Option.some.injEq] at h
        subst h
        exact ⟨hst', hcnt'⟩

/-- C10: for DFS, BFS and A*, a `found = true` result lists the goal as the
last entry of `explorationOrder` and counts it in `nodesExpanded`
(`nodesExpanded` always equals `explorationOrder.length`); `executeIDAStar`
never appends the goal to `explorationOrder` and never counts it. -/
theorem C10_goal_expansion (grid : Grid) (start goal : Position) :
    ((executeDFS grid start goal).found = true →
      (executeDFS grid start goal).explorationOrder.getLast? = some goal) ∧
    ((executeBFS grid start goal).found = true →
      (executeBFS grid start goal).explorationOrder.getLast? = some goal) ∧
    ((executeAStar grid start goal).found = true →
      (executeAStar grid start goal).explorationOrder.getLast? = some goal) ∧
    (executeDFS grid start goal).nodesExpanded =
      (executeDFS grid start goal).explorationOrder.length ∧
    (executeBFS grid start goal).nodesExpanded =
      (executeBFS grid start goal).explorationOrder.length ∧
    (executeAStar grid start goal).nodesExpanded =
      (executeAStar grid start goal).explorationOrder.length ∧
    goal ∉ (executeIDAStar grid start goal).explorationOrder ∧
    (executeIDAStar grid start goal).nodesExpanded =
      (executeIDAStar grid start goal).explorationOrder.length := by
  have hd : ((executeDFS grid start goal).found = true →
      (executeDFS grid start goal).explorationOrder.getLast? = some goal) ∧
      (executeDFS grid start goal).nodesExpanded =
        (executeDFS grid start goal).explorationOrder.length := by
    unfold executeDFS
    rcases hr : dfsLoop grid goal (searchFuel grid)
        { stack := [⟨start, none⟩], visited := ∅, nodeMap := [],
          explorationOrder := [], nodesExpanded := 0 } with _ | r
    · exact ⟨fun hf => by simp at hf, rfl⟩
    · simp only [Option.getD_some]
      exact dfsLoop_goal_last grid goal _ _ r rfl hr
  have hb : ((executeBFS grid start goal).found = true →
      (executeBFS grid start goal).explorationOrder.getLast? = some goal) ∧
      (executeBFS grid start goal).nodesExpanded =
        (executeBFS grid start goal).explorationOrder.length := by
    unfold executeBFS
    rcases hr : bfsLoop grid goal (searchFuel grid)
        { queue := [⟨start, none⟩], visited := {start}, nodeMap := [],
          explorationOrder := [], nodesExpanded := 0 } with _ | r
    · exact ⟨fun hf => by simp at hf, rfl⟩
    · simp only [Option.getD_some]
      exact bfsLoop_goal_last grid goal _ _ r rfl hr
  have ha : ((executeAStar grid start goal).found = true →
      (executeAStar grid start goal).explorationOrder.getLast? = some goal) ∧
      (executeAStar grid start goal).nodesExpanded =
        (executeAStar grid start goal).explorationOrder.length := by
    unfold executeAStar astarExec
    simp only
    rcases hr : astarLoop 1 "A*" true grid goal (astarFuel grid)
        { openItems := pqEnqueue [] ⟨start, 0, manhattanDistance start goal,
            0 + 1 * manhattanDistance start goal, none⟩,
          closedSet := ∅,
          nodeMap := mapSet [] start ⟨start, 0, manhattanDistance start goal,
            0 + 1 * manhattanDistance start goal, none⟩,
          explorationOrder := [], nodesExpanded := 0 } with _ | r
    · exact ⟨fun hf => by simp at hf, rfl⟩
    · simp only [Option.getD_some]
      exact astarLoop_goal_last 1 "A*" true grid goal _ _ r rfl hr
  have hi : goal ∉ (executeIDAStar grid start goal).explorationOrder ∧
      (executeIDAStar grid start goal).nodesExpanded =
        (executeIDAStar grid start goal).explorationOrder.length := by
    unfold executeIDAStar
    rcases hr : idaOuter grid start goal idaOuterFuel
        (manhattanDistance start goal) ⟨[], 0⟩ with _ | r
    · exact ⟨List.not_mem_nil goal, rfl⟩
    · simp only [Option.getD_some]
      exact idaOuter_no_goal grid start goal _ _ _ r hr (by simp) rfl
  exact ⟨hd.1, hb.1, ha.1, hd.2, hb.2, ha.2, hi.1, hi.2⟩

/-- Witness for C10 on a concrete solvable grid. -/
theorem C10_goal_expansion_witness :
    (executeBFS detourGrid ⟨0, 0⟩ ⟨2, 0⟩).explorationOrder.getLast? =
      some ⟨2, 0⟩ ∧
    (executeDFS detourGrid ⟨0, 0⟩ ⟨2, 0⟩).explorationOrder.getLast? =
      some ⟨2, 0⟩ ∧
    (executeAStar detourGrid ⟨0, 0⟩ ⟨2, 0⟩).explorationOrder.getLast? =
      some ⟨2, 0⟩ ∧
    (⟨2, 0⟩ : Position) ∉ (executeIDAStar detourGrid ⟨0, 0⟩ ⟨2, 0⟩).explorationOrder := by
  have h := C10_goal_expansion detourGrid ⟨0, 0⟩ ⟨2, 0⟩
  exact ⟨h.2.1 (by decide), h.1 (by decide), h.2.2.1 (by decide), h.2.2.2.2.2.2.1⟩

/-! ## Comparison aggregator monotonicity (C8) -/

theorem mapGet_mapSet_self {α : Type} (m : List (Position × α)) (k : Position)
    (v : α) : mapGet (mapSet m k v) k = some v := by
  simp [mapGet, mapSet, List.find?]

theorem mapGet_mapSet_other {α : Type} (m : List (Position × α))
    (k k' : Position) (v : α) (h : k' ≠ k) :
    mapGet (mapSet m k v) k' = mapGet m k' := by
  simp only [mapGet, mapSet, List.find?]
  rw [decide_eq_false (by simpa using fun hc => h hc.symm)]

/-- The per-position ownership set visible in the aggregator state. -/
def ownedBy (st : ComparisonState) (pos : Position) : Finset String :=
  (mapGet st.exploredBy pos).getD ∅

theorem exploredAdd_mono {m : List (Position × Finset String)} {pos : Position}
    {alg : String} (k : Position) :
    (mapGet m k).getD ∅ ⊆ (mapGet (exploredAdd m pos alg) k).getD ∅ := by
  unfold exploredAdd
  by_cases hk : k = pos
  · subst hk
    rw [mapGet_mapSet_self]
    intro x hx
    exact Finset.mem_insert_of_mem hx
  · rw [mapGet_mapSet_other _ _ _ _ hk]

theorem comparisonTickAlg_mono (alg label : String) (order : List Position)
    (goal : Position) (step : Nat) (st : ComparisonState) (k : Position) :
    ownedBy st k ⊆ ownedBy (comparisonTickAlg alg label order goal step st) k := by
  unfold comparisonTickAlg
  by_cases h : step < order.length
  · rw [dif_pos h]
    exact exploredAdd_mono k
  · rw [dif_neg h]

theorem comparisonTick_mono (dfsOrder bfsOrder astarOrder : List Position)
    (goal : Position) (step : Nat) (st : ComparisonState) (k : Position) :
    ownedBy st k ⊆
      ownedBy (comparisonTick dfsOrder bfsOrder astarOrder goal step st) k := by
  unfold comparisonTick
  refine Finset.Subset.trans ?_ (comparisonTickAlg_mono _ _ _ _ _ _ _)
  refine Finset.Subset.trans ?_ (comparisonTickAlg_mono _ _ _ _ _ _ _)
  exact comparisonTickAlg_mono _ _ _ _ _ _ _

/-- C8: during a comparison replay the per-position ownership sets only
grow: every algorithm identifier present at tick `t` is still present at
every later tick `t'`. -/
theorem C8_ownership_monotone (dfsOrder bfsOrder astarOrder : List Position)
    (goal : Position) (t t' : Nat) (h : t ≤ t') (pos : Position) (alg : String)
    (hmem : alg ∈ ownedBy (comparisonRun dfsOrder bfsOrder astarOrder goal t) pos) :
    alg ∈ ownedBy (comparisonRun dfsOrder bfsOrder astarOrder goal t') pos := by
  induction t' with
  | zero =>
    have : t = 0 := Nat.le_zero.1 h
    subst this
    exact hmem
  | succ n ih =>
    rcases Nat.lt_or_ge t (n + 1) with hlt | hge
    · have hle : t ≤ n := Nat.lt_succ_iff.1 hlt
      have := ih hle
      rw [comparisonRun]
      exact comparisonTick_mono dfsOrder bfsOrder astarOrder goal n _ pos this
    · have : t = n + 1 := Nat.le_antisymm h hge
      subst this
      exact hmem

/-- Witness for C8 on concrete exploration orders. -/
theorem C8_ownership_monotone_witness :
    (1 : Nat) ≤ 3 ∧
    "dfs" ∈ ownedBy (comparisonRun [⟨0, 0⟩, ⟨0, 1⟩] [⟨0, 1⟩] [⟨0, 0⟩]
      ⟨0, 1⟩ 3) ⟨0, 0⟩ := by
  refine ⟨by decide, ?_⟩
  refine C8_ownership_monotone [⟨0, 0⟩, ⟨0, 1⟩] [⟨0, 1⟩] [⟨0, 0⟩] ⟨0, 1⟩ 1 3
    (by decide) ⟨0, 0⟩ "dfs" ?_
  decide

/-! ## Maze editing preserves the start/goal counts (C6) -/

/-- Rectangular grid: every row has the header row's length. -/
def Rectangular (g : Grid) : Prop := ∀ r ∈ g, r.length = gridCols g

instance (g : Grid) : Decidable (Rectangular g) := by
  unfold Rectangular
  exact List.decidableBAll _ g

theorem count_set_add (l : List CellType) (j : Nat) (hj : j < l.length)
    (v c : CellType) :
    (l.set j v).count c + (if l[j] = c then 1 else 0) =
      l.count c + (if v = c then 1 else 0) := by
  have h := List.count_set v c l j hj
  have hle : (if (l[j] == c) = true then 1 else 0) ≤ l.count c := by
    by_cases hc : (l[j] == c) = true
    · rw [if_pos hc]
      have : l[j] ∈ l := List.getElem_mem hj
      have : c ∈ l := by
        rw [← eq_of_beq hc]
        exact this
      exact List.count_pos_iff.2 this
    · rw [if_neg hc]
      exact Nat.zero_le _
  have hbeq : ∀ a b : CellType, (if (a == b) = true then 1 else 0) =
      (if a = b then (1 : Nat) else 0) := by
    intro a b
    by_cases hab : a = b
    · subst hab
      simp
    · rw [if_neg hab, if_neg (by simpa using hab)]
  rw [hbeq, hbeq] at h
  rw [hbeq] at hle
  omega

theorem countCells_set_row (g : Grid) (i : Nat) (hi : i < g.length)
    (rowNew : List CellType) (c : CellType) :
    countCells (g.set i rowNew) c + g[i].count c =
      countCells g c + rowNew.count c := by
  unfold countCells
  rw [List.map_set, List.sum_set]
  have hlen : i < (g.map (fun r => r.count c)).length := by
    simpa using hi
  rw [if_pos hlen]
  have hsplit : (g.map (fun r => r.count c)).sum =
      ((g.map (fun r => r.count c)).take i).sum + g[i].count c +
        ((g.map (fun r => r.count c)).drop (i + 1)).sum := by
    conv_lhs => rw [← List.take_append_drop i (g.map (fun r => r.count c))]
    rw [List.sum_append]
    rw [List.drop_eq_getElem_cons hlen]
    simp only [List.sum_cons, List.getElem_map]
    ring
  omega

theorem gridSet_noop_row (g : Grid) (p : Position) (v : CellType)
    (h : 0 ≤ p.row ∧ 0 ≤ p.col) (hrow : p.row.toNat < g.length)
    (hcol : ¬ p.col.toNat < g[p.row.toNat].length) :
    countCells (gridSet g p v) c = countCells g c := by
  unfold gridSet
  rw [if_pos h]
  rcases hg : g.get? p.row.toNat with _ | rowList
  · rfl
  · have hrl : rowList = g[p.row.toNat] := by
      have := List.get?_eq_getElem? g p.row.toNat
      rw [List.getElem?_eq_getElem hrow] at this
      rw [this] at hg
      exact (Option.some.injEq _ _ ▸ hg).symm
    subst hrl
    show countCells (g.set p.row.toNat (g[p.row.toNat].set p.col.toNat v)) c =
      countCells g c
    rw [List.set_eq_of_length_le (Nat.le_of_not_lt hcol)]
    have := countCells_set_row g p.row.toNat hrow g[p.row.toNat] c
    omega

theorem cellGet_eq_getElem (g : Grid) (p : Position)
    (h0 : 0 ≤ p.row ∧ 0 ≤ p.col) (hrow : p.row.toNat < g.length)
    (hcol : p.col.toNat < g[p.row.toNat].length) :
    cellGet g p = some (g[p.row.toNat][p.col.toNat]) := by
  unfold cellGet
  rw [if_pos h0]
  have hget : g.get? p.row.toNat = some g[p.row.toNat] := by
    rw [List.get?_eq_getElem?, List.getElem?_eq_getElem hrow]
  rw [hget]
  simp only [Option.getD_some]
  rw [List.get?_eq_getElem?, List.getElem?_eq_getElem hcol]

theorem countCells_gridSet (g : Grid) (p : Position) (v c : CellType)
    (h0 : 0 ≤ p.row ∧ 0 ≤ p.col) (hrow : p.row.toNat < g.length)
    (hcol : p.col.toNat < g[p.row.toNat].length) :
    countCells (gridSet g p v) c + (if cellGet g p = some c then 1 else 0) =
      countCells g c + (if v = c then 1 else 0) := by
  unfold gridSet
  rw [if_pos h0]
  have hget : g.get? p.row.toNat = some g[p.row.toNat] := by
    rw [List.get?_eq_getElem?, List.getElem?_eq_getElem hrow]
  rw [hget]
  show countCells (g.set p.row.toNat (g[p.row.toNat].set p.col.toNat v)) c + _ = _
  have hcount := countCells_set_row g p.row.toNat hrow
    (g[p.row.toNat].set p.col.toNat v) c
  have hrowc := count_set_add g[p.row.toNat] p.col.toNat hcol v c
  rw [cellGet_eq_getElem g p h0 hrow hcol]
  simp only [Option.some.injEq]
  have hif : ∀ x : CellType, (if some x = some c then 1 else 0) =
      (if x = c then (1 : Nat) else 0) := by
    intro x
    by_cases hx : x = c
    · subst hx
      simp
    · rw [if_neg (by simpa using hx), if_neg hx]
  omega

/-- The cell rewrite applied by the clearing loops. -/
def replaceCell (old c : CellType) : CellType :=
  if c = old then CellType.FREE else c

theorem clearCellsOf_eq_map {g : Grid} (old : CellType) (hrect : Rectangular g) :
    clearCellsOf old g = g.map (fun r => r.map (replaceCell old)) := by
  unfold clearCellsOf
  refine List.map_congr_left ?_
  intro r hr
  have hlen : r.length = gridCols g := hrect r hr
  rw [← hlen, List.take_length, List.drop_length, List.append_nil]
  rfl

theorem count_map_of_iff {f : CellType → CellType} {b : CellType}
    (hf : ∀ x, f x = b ↔ x = b) :
    ∀ l : List CellType, (l.map f).count b = l.count b := by
  intro l
  induction l with
  | nil => rfl
  | cons head tail ih =>
    simp only [List.map_cons, List.count_cons, ih]
    by_cases hh : head = b
    · rw [if_pos (by simpa using (hf head).2 hh), if_pos (by simpa using hh)]
    · rw [if_neg (by simpa using fun hc => hh ((hf head).1 hc)),
        if_neg (by simpa using hh)]

theorem replaceCell_eq_iff {old : CellType} (hold : old ≠ CellType.FREE)
    (b : CellType) (hb : b ≠ old) (hbf : b ≠ CellType.FREE) :
    ∀ x, replaceCell old x = b ↔ x = b := by
  intro x
  cases old <;> cases b <;> cases x <;> simp_all [replaceCell]

theorem replaceCell_ne_self {old : CellType} (hold : old ≠ CellType.FREE) :
    ∀ x, replaceCell old x ≠ old := by
  intro x
  unfold replaceCell
  by_cases hx : x = old
  · rw [if_pos hx]
    exact fun hc => hold hc.symm
  · rw [if_neg hx]
    exact hx

theorem countCells_clear_self {g : Grid} {old : CellType}
    (hrect : Rectangular g) (hold : old ≠ CellType.FREE) :
    countCells (clearCellsOf old g) old = 0 := by
  rw [clearCellsOf_eq_map old hrect]
  unfold countCells
  rw [List.map_map]
  refine List.sum_eq_zero ?_
  intro x hx
  rcases List.mem_map.1 hx with ⟨r, _, rfl⟩
  simp only [Function.comp]
  rw [List.count_eq_zero]
  intro hc
  rcases List.mem_map.1 hc with ⟨y, _, hy⟩
  exact replaceCell_ne_self hold y hy

theorem countCells_clear_other {g : Grid} {old b : CellType}
    (hrect : Rectangular g) (hold : old ≠ CellType.FREE) (hb : b ≠ old)
    (hbf : b ≠ CellType.FREE) :
    countCells (clearCellsOf old g) b = countCells g b := by
  rw [clearCellsOf_eq_map old hrect]
  unfold countCells
  rw [List.map_map]
  congr 1
  refine List.map_congr_left ?_
  intro r _
  simp only [Function.comp]
  exact count_map_of_iff (replaceCell_eq_iff hold b hb hbf) r

theorem cellGet_clear {g : Grid} {old : CellType} (hrect : Rectangular g)
    (p : Position) (h0 : 0 ≤ p.row ∧ 0 ≤ p.col) (hrow : p.row.toNat < g.length)
    (hcol : p.col.toNat < g[p.row.toNat].length) :
    cellGet (clearCellsOf old g) p =
      some (replaceCell old (g[p.row.toNat][p.col.toNat])) := by
  rw [clearCellsOf_eq_map old hrect]
  have hrow' : p.row.toNat <
      (g.map (fun r : List CellType => r.map (replaceCell old))).length := by
    simpa using hrow
  have hcol' : p.col.toNat <
      (g.map (fun r : List CellType =>
        r.map (replaceCell old)))[p.row.toNat].length := by
    rw [List.getElem_map]
    simpa using hcol
  rw [cellGet_eq_getElem _ p h0 hrow' hcol']
  simp

theorem clear_length {g : Grid} {old : CellType} :
    (clearCellsOf old g).length = g.length := by
  unfold clearCellsOf
  simp

theorem clear_row_length {g : Grid} {old : CellType} {i : Nat}
    (hrect : Rectangular g) (hi : i < g.length) :
    ((clearCellsOf old g).get
      ⟨i, by rw [clear_length]; exact hi⟩).length = g[i].length := by
  simp [List.get_eq_getElem, clearCellsOf_eq_map old hrect]

/-- C6 counterexample: on the valid 1×2 grid `[[START, GOAL]]` (one start,
one goal), clicking the goal cell in set-start mode erases the goal: the
resulting grid has zero `GOAL` cells, so set-start does not preserve the
one-goal invariant. -/
theorem C6_counterexample :
    countCells [[CellType.START, CellType.GOAL]] CellType.START = 1 ∧
    countCells [[CellType.START, CellType.GOAL]] CellType.GOAL = 1 ∧
    countCells (handleSetStart [[CellType.START, CellType.GOAL]] 0 1)
      CellType.GOAL = 0 := by
  decide

/-- Shared counting argument for the set-start/set-goal branches:
clear every `mark` cell, then write `mark` at the clicked in-bounds cell. -/
theorem setMark_counts (grid : Grid) (row col : Nat) (mark other : CellType)
    (hrect : Rectangular grid) (hrow : row < gridRows grid)
    (hcol : col < gridCols grid)
    (hmf : mark ≠ CellType.FREE) (hof : other ≠ CellType.FREE)
    (hom : other ≠ mark)
    (hne : cellGet grid ⟨(row : Int), (col : Int)⟩ ≠ some other) :
    countCells (gridSet (clearCellsOf mark grid)
      ⟨(row : Int), (col : Int)⟩ mark) mark = 1 ∧
    countCells (gridSet (clearCellsOf mark grid)
      ⟨(row : Int), (col : Int)⟩ mark) other = countCells grid other := by
  have h0 : (0 : Int) ≤ (row : Int) ∧ (0 : Int) ≤ (col : Int) :=
    ⟨Int.natCast_nonneg row, Int.natCast_nonneg col⟩
  have hrowN : (Position.mk (row : Int) (col : Int)).row.toNat < grid.length := by
    simpa using hrow
  have hcolN : (Position.mk (row : Int) (col : Int)).col.toNat <
      grid[(Position.mk (row : Int) (col : Int)).row.toNat].length := by
    have := hrect _ (List.getElem_mem hrowN)
    rw [this]
    simpa using hcol
  have hcellEq := cellGet_eq_getElem grid ⟨(row : Int), (col : Int)⟩ h0 hrowN hcolN
  have hrowCG : (Position.mk (row : Int) (col : Int)).row.toNat <
      (clearCellsOf mark grid).length := by
    rw [clear_length]
    exact hrowN
  have hcolCG : (Position.mk (row : Int) (col : Int)).col.toNat <
      (clearCellsOf mark grid)[
        (Position.mk (row : Int) (col : Int)).row.toNat].length := by
    have := @clear_row_length grid mark
      ((Position.mk (row : Int) (col : Int)).row.toNat) hrect hrowN
    rw [List.get_eq_getElem] at this
    rw [this]
    exact hcolN
  have hclr := @cellGet_clear grid mark hrect
    ⟨(row : Int), (col : Int)⟩ h0 hrowN hcolN
  have hold_ne : grid[(Position.mk (row : Int) (col : Int)).row.toNat][
      (Position.mk (row : Int) (col : Int)).col.toNat] ≠ other := by
    intro hc
    rw [hcellEq, hc] at hne
    exact hne rfl
  constructor
  · have hcg := countCells_gridSet (clearCellsOf mark grid)
      ⟨(row : Int), (col : Int)⟩ mark mark h0 hrowCG hcolCG
    have hind : cellGet (clearCellsOf mark grid)
        ⟨(row : Int), (col : Int)⟩ ≠ some mark := by
      rw [hclr]
      intro hc
      exact replaceCell_ne_self hmf _ (Option.some.injEq _ _ ▸ hc)
    rw [if_neg hind] at hcg
    rw [if_pos rfl] at hcg
    rw [countCells_clear_self hrect hmf] at hcg
    omega
  · have hcg := countCells_gridSet (clearCellsOf mark grid)
      ⟨(row : Int), (col : Int)⟩ mark other h0 hrowCG hcolCG
    have hind : cellGet (clearCellsOf mark grid)
        ⟨(row : Int), (col : Int)⟩ ≠ some other := by
      rw [hclr]
      intro hc
      exact hold_ne ((replaceCell_eq_iff hmf other hom hof _).1
        (Option.some.injEq _ _ ▸ hc))
    rw [if_neg hind] at hcg
    rw [if_neg (fun hc => hom hc.symm)] at hcg
    rw [countCells_clear_other hrect hmf hom hof] at hcg
    omega

/-- C6 (amended): on a rectangular grid with exactly one Start and one Goal,
toggling a wall always preserves both counts; set-start preserves them
provided the clicked cell is not the Goal cell (clicking the Goal erases
it); symmetrically for set-goal. -/
theorem C6_edit_invariant (grid : Grid) (row col : Nat)
    (hrect : Rectangular grid) (hrow : row < gridRows grid)
    (hcol : col < gridCols grid)
    (hs : countCells grid CellType.START = 1)
    (hg : countCells grid CellType.GOAL = 1) :
    (countCells (handleToggleWall grid row col) CellType.START = 1 ∧
     countCells (handleToggleWall grid row col) CellType.GOAL = 1) ∧
    (cellGet grid ⟨(row : Int), (col : Int)⟩ ≠ some CellType.GOAL →
     countCells (handleSetStart grid row col) CellType.START = 1 ∧
     countCells (handleSetStart grid row col) CellType.GOAL = 1) ∧
    (cellGet grid ⟨(row : Int), (col : Int)⟩ ≠ some CellType.START →
     countCells (handleSetGoal grid row col) CellType.START = 1 ∧
     countCells (handleSetGoal grid row col) CellType.GOAL = 1) := by
  have h0 : (0 : Int) ≤ (row : Int) ∧ (0 : Int) ≤ (col : Int) :=
    ⟨Int.natCast_nonneg row, Int.natCast_nonneg col⟩
  have hrowN : (Position.mk (row : Int) (col : Int)).row.toNat < grid.length := by
    simpa using hrow
  have hcolN : (Position.mk (row : Int) (col : Int)).col.toNat <
      grid[(Position.mk (row : Int) (col : Int)).row.toNat].length := by
    have := hrect _ (List.getElem_mem hrowN)
    rw [this]
    simpa using hcol
  refine ⟨?_, ?_, ?_⟩
  · unfold handleToggleWall
    by_cases hguard : cellGet grid ⟨(row : Int), (col : Int)⟩ ≠ some CellType.START ∧
        cellGet grid ⟨(row : Int), (col : Int)⟩ ≠ some CellType.GOAL
    · rw [if_pos hguard]
      have hvS : (if cellGet grid ⟨(row : Int), (col : Int)⟩ = some CellType.WALL
          then CellType.FREE else CellType.WALL) ≠ CellType.START := by
        by_cases hw : cellGet grid ⟨(row : Int), (col : Int)⟩ = some CellType.WALL
        · rw [if_pos hw]; intro hc; cases hc
        · rw [if_neg hw]; intro hc; cases hc
      have hvG : (if cellGet grid ⟨(row : Int), (col : Int)⟩ = some CellType.WALL
          then CellType.FREE else CellType.WALL) ≠ CellType.GOAL := by
        by_cases hw : cellGet grid ⟨(row : Int), (col : Int)⟩ = some CellType.WALL
        · rw [if_pos hw]; intro hc; cases hc
        · rw [if_neg hw]; intro hc; cases hc
      constructor
      · have hcg := countCells_gridSet grid ⟨(row : Int), (col : Int)⟩
          (if cellGet grid ⟨(row : Int), (col : Int)⟩ = some CellType.WALL
            then CellType.FREE else CellType.WALL)
          CellType.START h0 hrowN hcolN
        rw [if_neg hguard.1] at hcg
        rw [if_neg hvS] at hcg
        omega
      · have hcg := countCells_gridSet grid ⟨(row : Int), (col : Int)⟩
          (if cellGet grid ⟨(row : Int), (col : Int)⟩ = some CellType.WALL
            then CellType.FREE else CellType.WALL)
          CellType.GOAL h0 hrowN hcolN
        rw [if_neg hguard.2] at hcg
        rw [if_neg hvG] at hcg
        omega
    · rw [if_neg hguard]
      exact ⟨hs, hg⟩
  · intro hne
    unfold handleSetStart
    have h := setMark_counts grid row col CellType.START CellType.GOAL hrect
      hrow hcol (by intro hc; cases hc) (by intro hc; cases hc)
      (by intro hc; cases hc) hne
    exact ⟨h.1, h.2 ▸ hg ▸ rfl⟩
  · intro hne
    unfold handleSetGoal
    have h := setMark_counts grid row col CellType.GOAL CellType.START hrect
      hrow hcol (by intro hc; cases hc) (by intro hc; cases hc)
      (by intro hc; cases hc) hne
    exact ⟨h.2 ▸ hs ▸ rfl, h.1⟩

/-- Witness for C6 on a concrete valid 2×2 grid. -/
theorem C6_edit_invariant_witness :
    countCells (handleToggleWall
      [[CellType.START, CellType.FREE], [CellType.FREE, CellType.GOAL]] 0 1)
      CellType.START = 1 ∧
    countCells (handleSetStart
      [[CellType.START, CellType.FREE], [CellType.FREE, CellType.GOAL]] 0 1)
      CellType.GOAL = 1 ∧
    countCells (handleSetGoal
      [[CellType.START, CellType.FREE], [CellType.FREE, CellType.GOAL]] 1 0)
      CellType.START = 1 := by
  have h := C6_edit_invariant
    [[CellType.START, CellType.FREE], [CellType.FREE, CellType.GOAL]] 0 1
    (by decide) (by decide) (by decide) (by decide) (by decide)
  have h2 := C6_edit_invariant
    [[CellType.START, CellType.FREE], [CellType.FREE, CellType.GOAL]] 1 0
    (by decide) (by decide) (by decide) (by decide) (by decide)
  exact ⟨h.1.1, (h.2.1 (by decide)).2, (h2.2.2 (by decide)).1⟩

/-! ## Seeded maze generation is deterministic (C5) -/

theorem shuffleArray_seeded {α : Type} (array : List α) (s draw : Nat) :
    shuffleArray array (some s) draw =
      (shuffleGo (array.length - 1) array s).1 := rfl

theorem carvePath_seeded (s : Nat) :
    ∀ (fuel : Nat) (e1 e2 : Nat → Nat) (grid : Grid) (cur : Position)
      (vis : Finset Position) (ctr : Nat),
      carvePath (some s) e1 fuel grid cur vis ctr =
        carvePath (some s) e2 fuel grid cur vis ctr := by
  intro fuel
  induction fuel with
  | zero => intro e1 e2 grid cur vis ctr; rfl
  | succ n ih =>
    intro e1 e2 grid cur vis ctr
    rw [carvePath, carvePath]
    have hchild : (fun g n2 v c => carvePath (some s) e1 n g n2 v c) =
        (fun g n2 v c => carvePath (some s) e2 n g n2 v c) := by
      funext g n2 v c
      exact ih e1 e2 g n2 v c
    rw [hchild]
    simp only [shuffleArray_seeded]

/-- C5: with a supplied seed, `generateMaze` is a function of
`(rows, cols, seed)` alone — two invocations with identical arguments
produce identical grids regardless of the ambient `Math.random` stream. -/
theorem C5_generateMaze_deterministic (rows cols s : Nat) (e1 e2 : Nat → Nat) :
    generateMaze rows cols (some s) e1 = generateMaze rows cols (some s) e2 := by
  unfold generateMaze
  have hrw := fun fuel grid cur vis ctr =>
    carvePath_seeded s fuel e1 e2 grid cur vis ctr
  simp only [hrw]

/-! ## Maze generation is total (C9) -/

/-- The dimension adjustment of `generateMaze` (decrement even to odd). -/
def actualDim (n : Nat) : Nat := if n % 2 = 0 then n - 1 else n

/-- The in-bounds positions of an `rows × cols` grid. -/
def boundsFinset (rows cols : Nat) : Finset Position :=
  (Finset.range rows ×ˢ Finset.range cols).image
    (fun rc => ⟨(rc.1 : Int), (rc.2 : Int)⟩)

theorem mem_boundsFinset {rows cols : Nat} {p : Position} :
    p ∈ boundsFinset rows cols ↔
      0 ≤ p.row ∧ p.row < (rows : Int) ∧ 0 ≤ p.col ∧ p.col < (cols : Int) := by
  unfold boundsFinset
  rw [Finset.mem_image]
  cases p with
  | mk prow pcol =>
    constructor
    · rintro ⟨⟨a, b⟩, hab, heq⟩
      rw [Finset.mem_product, Finset.mem_range, Finset.mem_range] at hab
      injection heq with h1 h2
      simp only
      omega
    · rintro ⟨h1, h2, h3, h4⟩
      simp only at h1 h2 h3 h4
      refine ⟨⟨prow.toNat, pcol.toNat⟩, ?_, ?_⟩
      · rw [Finset.mem_product, Finset.mem_range, Finset.mem_range]
        constructor <;> omega
      · simp only [Position.mk.injEq]
        constructor <;> omega

theorem isInBounds_iff {p : Position} {rows cols : Nat} :
    isInBounds p rows cols = true ↔ p ∈ boundsFinset rows cols := by
  rw [mem_boundsFinset]
  unfold isInBounds
  rw [decide_eq_true_eq]

theorem boundsFinset_card (rows cols : Nat) :
    (boundsFinset rows cols).card = rows * cols := by
  unfold boundsFinset
  rw [Finset.card_image_of_injective _ ?_, Finset.card_product,
    Finset.card_range, Finset.card_range]
  intro a b hab
  simp only [Position.mk.injEq] at hab
  have h1 : a.1 = b.1 := by exact_mod_cast hab.1
  have h2 : a.2 = b.2 := by exact_mod_cast hab.2
  exact Prod.ext h1 h2

/-- Row-length invariant used through maze generation. -/
def RowsLen (g : Grid) (c : Nat) : Prop := ∀ r ∈ g, r.length = c

theorem gridSet_rows (g : Grid) (p : Position) (c : CellType) :
    gridRows (gridSet g p c) = gridRows g := by
  unfold gridSet gridRows
  split
  · split
    · simp
    · rfl
  · rfl

theorem gridSet_rowsLen {g : Grid} {n : Nat} (p : Position) (c : CellType)
    (h : RowsLen g n) : RowsLen (gridSet g p c) n := by
  unfold gridSet
  split
  · rcases hg : g.get? p.row.toNat with _ | rowList
    · exact h
    · intro r hr
      rcases List.mem_or_eq_of_mem_set hr with h1 | h2
      · exact h r h1
      · subst h2
        rw [List.length_set]
        exact h rowList (List.get?_mem hg)
  · exact h

theorem gridSet_cols (g : Grid) (p : Position) (c : CellType) :
    gridCols (gridSet g p c) = gridCols g := by
  unfold gridSet gridCols
  split
  · rcases hg : g.get? p.row.toNat with _ | rowList
    · rfl
    · rcases g with _ | ⟨r0, grest⟩
      · simp at hg
      · rcases hn : p.row.toNat with _ | n
        · rw [hn] at hg
          simp only [List.get?] at hg
          injection hg with hg
          subst hg
          simp [List.set]
        · rw [hn] at hg
          simp [List.set]
  · rfl

theorem carveFold_suff {R C : Nat}
    {child : Grid → Position → Finset Position → Nat →
      Option (Grid × Finset Position × Nat)}
    {fuel : Nat}
    (hchild : ∀ (g : Grid) (cur2 : Position) (vis : Finset Position) (ctr : Nat),
      gridRows g = R → gridCols g = C → RowsLen g C →
      cur2 ∉ vis → cur2 ∈ boundsFinset R C →
      (boundsFinset R C \ vis).card < fuel →
      ∃ g' v' c', child g cur2 vis ctr = some (g', v', c') ∧
        gridRows g' = R ∧ gridCols g' = C ∧ RowsLen g' C ∧ vis ⊆ v') :
    ∀ (dirs : List Position) (cur : Position) (g : Grid)
      (vis : Finset Position) (ctr : Nat),
      gridRows g = R → gridCols g = C → RowsLen g C →
      (boundsFinset R C \ vis).card < fuel →
      ∃ g' v' c', carveFold child cur dirs g vis ctr = some (g', v', c') ∧
        gridRows g' = R ∧ gridCols g' = C ∧ RowsLen g' C ∧ vis ⊆ v' := by
  intro dirs
  induction dirs with
  | nil =>
    intro cur g vis ctr hR hC hL _
    exact ⟨g, vis, ctr, rfl, hR, hC, hL, Finset.Subset.refl vis⟩
  | cons dir rest ih =>
    intro cur g vis ctr hR hC hL hcard
    rw [carveFold]
    by_cases hcond : isInBounds ⟨cur.row + dir.row, cur.col + dir.col⟩
        (gridRows g) (gridCols g) = true ∧
        (⟨cur.row + dir.row, cur.col + dir.col⟩ : Position) ∉ vis
    · rw [if_pos hcond]
      have hg2R : gridRows (gridSet g
          ⟨cur.row + dir.row / 2, cur.col + dir.col / 2⟩ CellType.FREE) = R := by
        rw [gridSet_rows]
        exact hR
      have hg2C : gridCols (gridSet g
          ⟨cur.row + dir.row / 2, cur.col + dir.col / 2⟩ CellType.FREE) = C := by
        rw [gridSet_cols]
        exact hC
      have hg2L : RowsLen (gridSet g
          ⟨cur.row + dir.row / 2, cur.col + dir.col / 2⟩ CellType.FREE) C :=
        gridSet_rowsLen _ _ hL
      have hmem : (⟨cur.row + dir.row, cur.col + dir.col⟩ : Position) ∈
          boundsFinset R C := by
        rw [← isInBounds_iff]
        rw [hR, hC] at hcond
        exact hcond.1
      obtain ⟨g3, v3, c3, hchildEq, h3R, h3C, h3L, h3sub⟩ :=
        hchild _ _ vis ctr hg2R hg2C hg2L hcond.2 hmem hcard
      simp only [hchildEq]
      have hcard3 : (boundsFinset R C \ v3).card < fuel :=
        Nat.lt_of_le_of_lt
          (Finset.card_le_card (Finset.sdiff_subset_sdiff
            (Finset.Subset.refl _) h3sub)) hcard
      obtain ⟨g', v', c', hfold, h'R, h'C, h'L, h'sub⟩ :=
        ih cur g3 v3 c3 h3R h3C h3L hcard3
      exact ⟨g', v', c', hfold, h'R, h'C, h'L, Finset.Subset.trans h3sub h'sub⟩
    · rw [if_neg hcond]
      exact ih cur g vis ctr hR hC hL hcard

theorem carvePath_suff (seed : Option Nat) (entropy : Nat → Nat) (R C : Nat) :
    ∀ (fuel : Nat) (grid : Grid) (cur : Position) (vis : Finset Position)
      (ctr : Nat),
      gridRows grid = R → gridCols grid = C → RowsLen grid C →
      cur ∉ vis → cur ∈ boundsFinset R C →
      (boundsFinset R C \ vis).card < fuel →
      ∃ g' v' c', carvePath seed entropy fuel grid cur vis ctr =
        some (g', v', c') ∧
        gridRows g' = R ∧ gridCols g' = C ∧ RowsLen g' C ∧ vis ⊆ v' := by
  intro fuel
  induction fuel with
  | zero =>
    intro grid cur vis ctr _ _ _ _ _ hcard
    exact absurd hcard (by omega)
  | succ n ih =>
    intro grid cur vis ctr hR hC hL hcur hmem hcard
    have hg1R : gridRows (gridSet grid cur CellType.FREE) = R := by
      rw [gridSet_rows]; exact hR
    have hg1C : gridCols (gridSet grid cur CellType.FREE) = C := by
      rw [gridSet_cols]; exact hC
    have hg1L : RowsLen (gridSet grid cur CellType.FREE) C :=
      gridSet_rowsLen _ _ hL
    have hcard2 : (boundsFinset R C \ insert cur vis).card < n := by
      have hsub : boundsFinset R C \ insert cur vis =
          (boundsFinset R C \ vis).erase cur := by
        ext x
        simp only [Finset.mem_sdiff, Finset.mem_insert, Finset.mem_erase]
        tauto
      rw [hsub]
      have hcur2 : cur ∈ boundsFinset R C \ vis := by
        rw [Finset.mem_sdiff]
        exact ⟨hmem, hcur⟩
      have := Finset.card_erase_of_mem hcur2
      have hpos : 0 < (boundsFinset R C \ vis).card :=
        Finset.card_pos.2 ⟨cur, hcur2⟩
      omega
    have hcont : ∀ (dirs : List Position) (ctr2 : Nat),
        ∃ g' v' c',
          carveFold (fun g n2 v c => carvePath seed entropy n g n2 v c) cur
            dirs (gridSet grid cur CellType.FREE) (insert cur vis) ctr2 =
            some (g', v', c') ∧
          gridRows g' = R ∧ gridCols g' = C ∧ RowsLen g' C ∧
          insert cur vis ⊆ v' := by
      intro dirs ctr2
      exact carveFold_suff (fun g cur2 vis2 ctr3 => ih g cur2 vis2 ctr3)
        dirs cur (gridSet grid cur CellType.FREE) (insert cur vis) ctr2
        hg1R hg1C hg1L hcard2
    rcases seed with _ | sval
    · have hstep : carvePath none entropy (n + 1) grid cur vis ctr =
          carveFold (fun g n2 v c => carvePath none entropy n g n2 v c) cur
            (shuffleArray MAZE_DIRECTIONS none (entropy ctr))
            (gridSet grid cur CellType.FREE) (insert cur vis) (ctr + 1) := rfl
      rw [hstep]
      obtain ⟨g', v', c', hfold, h'R, h'C, h'L, h'sub⟩ := hcont _ (ctr + 1)
      exact ⟨g', v', c', hfold, h'R, h'C, h'L,
        Finset.Subset.trans (Finset.subset_insert cur vis) h'sub⟩
    · have hstep : carvePath (some sval) entropy (n + 1) grid cur vis ctr =
          carveFold (fun g n2 v c => carvePath (some sval) entropy n g n2 v c)
            cur (shuffleArray MAZE_DIRECTIONS (some sval) (entropy ctr))
            (gridSet grid cur CellType.FREE) (insert cur vis) ctr := rfl
      rw [hstep]
      obtain ⟨g', v', c', hfold, h'R, h'C, h'L, h'sub⟩ := hcont _ ctr
      exact ⟨g', v', c', hfold, h'R, h'C, h'L,
        Finset.Subset.trans (Finset.subset_insert cur vis) h'sub⟩

theorem openWallsLoop_iter (aR aC w : Nat) :
    ∀ (remaining : Nat) (grid : Grid) (opened state : Nat),
      (openWallsLoop aR aC w remaining grid opened state).2.2 ≤ remaining := by
  intro remaining
  induction remaining with
  | zero => intro grid opened state; simp [openWallsLoop]
  | succ n ih =>
    intro grid opened state
    rw [openWallsLoop]
    by_cases ho : opened < w
    · rw [if_pos ho]
      exact Nat.succ_le_succ (ih _ _ _)
    · rw [if_neg ho]
      exact Nat.zero_le _

theorem openWallsLoop_dims {R C : Nat} (aR aC w : Nat) :
    ∀ (remaining : Nat) (grid : Grid) (opened state : Nat),
      gridRows grid = R → gridCols grid = C → RowsLen grid C →
      gridRows (openWallsLoop aR aC w remaining grid opened state).1 = R ∧
      gridCols (openWallsLoop aR aC w remaining grid opened state).1 = C ∧
      RowsLen (openWallsLoop aR aC w remaining grid opened state).1 C := by
  intro remaining
  induction remaining with
  | zero => intro grid opened state hR hC hL; exact ⟨hR, hC, hL⟩
  | succ n ih =>
    intro grid opened state hR hC hL
    rw [openWallsLoop]
    by_cases ho : opened < w
    · rw [if_pos ho]
      simp only
      split
      · split
        · refine ih _ _ _ ?_ ?_ ?_
          · rw [gridSet_rows]; exact hR
          · rw [gridSet_cols]; exact hC
          · exact gridSet_rowsLen _ _ hL
        · exact ih _ _ _ hR hC hL
      · exact ih _ _ _ hR hC hL
    · rw [if_neg ho]
      exact ⟨hR, hC, hL⟩

theorem carve_initial_some (rows cols : Nat) (seed : Option Nat)
    (entropy : Nat → Nat) (hr : 3 ≤ rows) (hc : 3 ≤ cols) :
    ∃ g' v' c', carvePath seed entropy
        (actualDim rows * actualDim cols + 1)
        (List.replicate (actualDim rows)
          (List.replicate (actualDim cols) CellType.WALL)) ⟨1, 1⟩ ∅ 0 =
        some (g', v', c') ∧
      gridRows g' = actualDim rows ∧ gridCols g' = actualDim cols ∧
      RowsLen g' (actualDim cols) := by
  have haR : 3 ≤ actualDim rows := by
    unfold actualDim
    split <;> omega
  have haC : 3 ≤ actualDim cols := by
    unfold actualDim
    split <;> omega
  have hg0R : gridRows (List.replicate (actualDim rows)
      (List.replicate (actualDim cols) CellType.WALL)) = actualDim rows := by
    simp [gridRows]
  have hg0C : gridCols (List.replicate (actualDim rows)
      (List.replicate (actualDim cols) CellType.WALL)) = actualDim cols := by
    unfold gridCols
    rcases haRn : actualDim rows with _ | m
    · omega
    · simp [List.replicate_succ]
  have hg0L : RowsLen (List.replicate (actualDim rows)
      (List.replicate (actualDim cols) CellType.WALL)) (actualDim cols) := by
    intro r hr2
    rw [List.eq_of_mem_replicate hr2]
    simp
  have hstart : (⟨1, 1⟩ : Position) ∈
      boundsFinset (actualDim rows) (actualDim cols) := by
    rw [mem_boundsFinset]
    simp only
    refine ⟨by omega, ?_, by omega, ?_⟩ <;> exact_mod_cast (by omega : 1 < _)
  have hcard : (boundsFinset (actualDim rows) (actualDim cols) \ ∅).card <
      actualDim rows * actualDim cols + 1 := by
    rw [Finset.sdiff_empty, boundsFinset_card]
    omega
  obtain ⟨g1, v1, c1, hcarve, h1R, h1C, h1L, _⟩ :=
    carvePath_suff seed entropy (actualDim rows) (actualDim cols)
      (actualDim rows * actualDim cols + 1)
      (List.replicate (actualDim rows)
        (List.replicate (actualDim cols) CellType.WALL)) ⟨1, 1⟩ ∅ 0
      hg0R hg0C hg0L (Finset.not_mem_empty _) hstart hcard
  exact ⟨g1, v1, c1, hcarve, h1R, h1C, h1L⟩

theorem generateMaze_dims (rows cols : Nat) (seed : Option Nat)
    (entropy : Nat → Nat) (hr : 3 ≤ rows) (hc : 3 ≤ cols) :
    (generateMaze rows cols seed entropy).length = actualDim rows ∧
    (∀ r ∈ generateMaze rows cols seed entropy, r.length = actualDim cols) := by
  obtain ⟨g1, v1, c1, hcarve, h1R, h1C, h1L⟩ :=
    carve_initial_some rows cols seed entropy hr hc
  have hlenSet : ∀ (g : Grid) (p : Position) (c : CellType),
      (gridSet g p c).length = g.length := fun g p c => gridSet_rows g p c
  unfold generateMaze
  rw [show (if rows % 2 = 0 then rows - 1 else rows) = actualDim rows from rfl]
  rw [show (if cols % 2 = 0 then cols - 1 else cols) = actualDim cols from rfl]
  simp only [hcarve]
  constructor
  · rw [hlenSet, hlenSet]
    exact (openWallsLoop_dims (R := actualDim rows) (C := actualDim cols)
      _ _ _ _ _ _ _ h1R h1C h1L).1
  · intro r hmem
    exact gridSet_rowsLen _ _ (gridSet_rowsLen _ _
      (openWallsLoop_dims (R := actualDim rows) (C := actualDim cols)
        _ _ _ _ _ _ _ h1R h1C h1L).2.2) r hmem

/-- C9: maze generation is total for `rows, cols ≥ 3`: the recursive carving
completes within fuel `actualRows · actualCols + 1` (each room is visited at
most once), the generated grid has the adjusted (odd) dimensions, and the
loop-opening phase performs at most `5 × wallsToOpen` iterations. -/
theorem C9_generation_total (rows cols : Nat) (seed : Option Nat)
    (entropy : Nat → Nat) (hr : 3 ≤ rows) (hc : 3 ≤ cols) :
    (∃ g' v' c', carvePath seed entropy
        (actualDim rows * actualDim cols + 1)
        (List.replicate (actualDim rows)
          (List.replicate (actualDim cols) CellType.WALL)) ⟨1, 1⟩ ∅ 0 =
        some (g', v', c')) ∧
    (generateMaze rows cols seed entropy).length = actualDim rows ∧
    (∀ r ∈ generateMaze rows cols seed entropy, r.length = actualDim cols) ∧
    (∀ (g : Grid) (st : Nat),
      (openWallsLoop (actualDim rows) (actualDim cols)
        (actualDim rows * actualDim cols * 2 / 25)
        (actualDim rows * actualDim cols * 2 / 25 * 5) g 0 st).2.2 ≤
        5 * (actualDim rows * actualDim cols * 2 / 25)) := by
  obtain ⟨g1, v1, c1, hcarve, _, _, _⟩ :=
    carve_initial_some rows cols seed entropy hr hc
  obtain ⟨hlen, hrows⟩ := generateMaze_dims rows cols seed entropy hr hc
  refine ⟨⟨g1, v1, c1, hcarve⟩, hlen, hrows, ?_⟩
  intro g st
  exact Nat.le_trans (openWallsLoop_iter _ _ _ _ _ _ _) (by omega)

/-- Witness for C9 at concrete dimensions and seed. -/
theorem C9_generation_total_witness :
    (3 : Nat) ≤ 5 ∧
    (generateMaze 5 5 (some 7) (fun _ => 0)).length = actualDim 5 ∧
    (∀ r ∈ generateMaze 5 5 (some 7) (fun _ => 0), r.length = actualDim 5) := by
  have h := C9_generation_total 5 5 (some 7) (fun _ => 0)
    (by decide) (by decide)
  exact ⟨by decide, h.2.1, h.2.2.1⟩

/-! ## Path validity of `found = true` results (C2) -/

/-- The edge relation of the grid graph: `b` is an in-bounds, non-wall
4-neighbor of `a`. -/
def GridEdge (grid : Grid) (a b : Position) : Prop := b ∈ getNeighbors a grid

/-- Chain discipline of a DFS/BFS parent map: every entry's parent chain
stays in the map with strictly decreasing rank, parentless entries are the
start, and every link is a grid edge. -/
def MapChain (grid : Grid) (start : Position)
    (m : List (Position × SearchNode)) (ρ : Position → Nat) : Prop :=
  ∀ p nd, mapGet m p = some nd →
    ρ p < m.length ∧ (nd.parent = none → p = start) ∧
    ∀ q, nd.parent = some q → (mapGet m q).isSome ∧ ρ q < ρ p ∧
      p ∈ getNeighbors q grid

theorem reconstructGo_step (m : List (Position × SearchNode)) (f : Nat)
    (p : Position) (acc : List Position) :
    reconstructPathGo m (f + 1) (some p) acc =
      reconstructPathGo m f
        (match mapGet m p with
         | some node => node.parent
         | none => none) (p :: acc) := rfl

theorem reconstructGo_none (m : List (Position × SearchNode)) (f : Nat)
    (acc : List Position) : reconstructPathGo m f none acc = acc := by
  rcases f with _ | f <;> rfl

theorem reconstructGo_spec {grid : Grid} {start : Position}
    {m : List (Position × SearchNode)} {ρ : Position → Nat}
    (hinv : MapChain grid start m ρ) :
    ∀ (n : Nat) (p0 : Position) (nd0 : SearchNode) (acc : List Position)
      (fuel : Nat),
      ρ p0 ≤ n → mapGet m p0 = some nd0 → ρ p0 < fuel →
      ∃ pre, reconstructPathGo m fuel (some p0) acc = pre ++ p0 :: acc ∧
        (pre ++ [p0]).head? = some start ∧
        List.Chain' (GridEdge grid) (pre ++ [p0]) ∧
        (∀ x ∈ pre ++ [p0], x = start ∨
          cellGet grid x ≠ some CellType.WALL) := by
  intro n
  induction n with
  | zero =>
    intro p0 nd0 acc fuel hn hget hfuel
    rcases fuel with _ | f
    · omega
    · rw [reconstructGo_step]
      simp only [hget]
      obtain ⟨-, hnone, hsome⟩ := hinv p0 nd0 hget
      rcases hp : nd0.parent with _ | q
      · rw [reconstructGo_none]
        refine ⟨[], rfl, ?_, ?_, ?_⟩
        · rw [hnone hp]
          rfl
        · simp
        · intro x hx
          simp only [List.nil_append, List.mem_singleton] at hx
          subst hx
          exact Or.inl (hnone hp)
      · exact absurd ((hsome q hp).2.1) (by omega)
  | succ k ih =>
    intro p0 nd0 acc fuel hn hget hfuel
    rcases fuel with _ | f
    · omega
    · rw [reconstructGo_step]
      simp only [hget]
      obtain ⟨hlt, hnone, hsome⟩ := hinv p0 nd0 hget
      rcases hp : nd0.parent with _ | q
      · rw [reconstructGo_none]
        refine ⟨[], rfl, ?_, ?_, ?_⟩
        · rw [hnone hp]
          rfl
        · simp
        · intro x hx
          simp only [List.nil_append, List.mem_singleton] at hx
          subst hx
          exact Or.inl (hnone hp)
      · obtain ⟨hqsome, hqlt, hedge⟩ := hsome q hp
        rcases hq : mapGet m q with _ | ndq
        · rw [hq] at hqsome
          exact absurd hqsome (by simp)
        · obtain ⟨pre, heq, hhead, hchain, hnw⟩ :=
            ih q ndq (p0 :: acc) f (by omega) hq (by omega)
          refine ⟨pre ++ [q], ?_, ?_, ?_, ?_⟩
          · rw [heq, List.append_assoc]
            rfl
          · rcases pre with _ | ⟨a, rest⟩
            · simpa using hhead
            · simpa using hhead
          · rw [List.chain'_append]
            refine ⟨hchain, List.chain'_singleton p0, ?_⟩
            intro x hx y hy
            rw [List.getLast?_concat] at hx
            simp only [List.head?_cons, Option.mem_def, Option.some.injEq]
              at hx hy
            subst hx
            subst hy
            exact hedge
          · intro x hx
            rcases List.mem_append.1 hx with h1 | h2
            · exact hnw x h1
            · rw [List.mem_singleton] at h2
              subst h2
              exact Or.inr (getNeighbors_nonwall hedge)

theorem mapGet_isSome_mono {α : Type} {m : List (Position × α)} {p k : Position}
    {v : α} (h : (mapGet m p).isSome = true) :
    (mapGet (mapSet m k v) p).isSome = true := by
  by_cases hk : p = k
  · subst hk
    rw [mapGet_mapSet_self]
    rfl
  · rw [mapGet_mapSet_other m k p v hk]
    exact h

theorem getNeighbors_ne {grid : Grid} {pos p : Position}
    (h : p ∈ getNeighbors pos grid) : p ≠ pos := by
  intro hc
  subst hc
  have hadj := getNeighbors_adj h
  unfold manhattanDistance at hadj
  omega

/-- Inserting a freshly popped node whose position is not yet a key and whose
parent is already in the map extends the chain discipline; the new entry gets
the largest rank. -/
theorem mapChain_insert {grid : Grid} {start : Position}
    {m : List (Position × SearchNode)} {ρ : Position → Nat}
    {current : SearchNode}
    (hchain : MapChain grid start m ρ)
    (hnotin : mapGet m current.position = none)
    (hnone : current.parent = none → current.position = start)
    (hsome : ∀ q, current.parent = some q → (mapGet m q).isSome = true ∧
      current.position ∈ getNeighbors q grid) :
    MapChain grid start (mapSet m current.position current)
      (fun p => if p = current.position then m.length else ρ p) := by
  intro p nd hget
  by_cases hp : p = current.position
  · subst hp
    rw [mapGet_mapSet_self] at hget
    injection hget with hnd
    subst hnd
    refine ⟨?_, fun hpar => hnone hpar, ?_⟩
    · simp only [if_pos rfl, if_true, mapSet, List.length_cons]
      omega
    · intro q hq
      obtain ⟨hqs, hedge⟩ := hsome q hq
      have hqne : q ≠ current.position := by
        intro hc
        rw [hc, hnotin] at hqs
        exact absurd hqs (by simp)
      refine ⟨mapGet_isSome_mono hqs, ?_, hedge⟩
      simp only [if_neg hqne, if_pos rfl]
      rcases Option.isSome_iff_exists.1 hqs with ⟨ndq, hndq⟩
      exact (hchain q ndq hndq).1
  · rw [mapGet_mapSet_other m current.position p current hp] at hget
    obtain ⟨h1, h2, h3⟩ := hchain p nd hget
    refine ⟨?_, h2, ?_⟩
    · simp only [if_neg hp, mapSet, List.length_cons]
      omega
    · intro q hq
      obtain ⟨hqs, hql, hedge⟩ := h3 q hq
      have hqne : q ≠ current.position := by
        intro hc
        rw [hc, hnotin] at hqs
        exact absurd hqs (by simp)
      refine ⟨mapGet_isSome_mono hqs, ?_, hedge⟩
      simp only [if_neg hqne, if_neg hp]
      exact hql

/-- The path-validity facts that `found = true` results must satisfy. -/
def FoundPathOK (grid : Grid) (start goal : Position)
    (r : AlgorithmResult) : Prop :=
  r.path.head? = some start ∧ r.path.getLast? = some goal ∧
  List.Chain' (GridEdge grid) r.path ∧
  ∀ x ∈ r.path, x = start ∨ cellGet grid x ≠ some CellType.WALL

theorem reconstructPath_spec {grid : Grid} {start : Position}
    {m : List (Position × SearchNode)} {ρ : Position → Nat} {goal : Position}
    {nd : SearchNode}
    (hchain : MapChain grid start m ρ)
    (hget : mapGet m goal = some nd) :
    (reconstructPath m goal).head? = some start ∧
    (reconstructPath m goal).getLast? = some goal ∧
    List.Chain' (GridEdge grid) (reconstructPath m goal) ∧
    ∀ x ∈ reconstructPath m goal, x = start ∨
      cellGet grid x ≠ some CellType.WALL := by
  have hρ : ρ goal < m.length := (hchain goal nd hget).1
  obtain ⟨pre, heq, hhead, hch, hnw⟩ :=
    reconstructGo_spec hchain (ρ goal) goal nd [] (m.length + 1) le_rfl hget
      (by omega)
  unfold reconstructPath
  rw [heq]
  exact ⟨hhead, by rw [List.getLast?_concat], hch, hnw⟩

/-- Queue/stack entries whose parent link is compatible with the map. -/
def ParentOK (grid : Grid) (start : Position)
    (m : List (Position × SearchNode)) (nd : SearchNode) : Prop :=
  (nd.parent = none → nd.position = start) ∧
  ∀ q, nd.parent = some q → (mapGet m q).isSome = true ∧
    nd.position ∈ getNeighbors q grid

theorem parentOK_mono {grid : Grid} {start : Position}
    {m : List (Position × SearchNode)} {k : Position} {v nd : SearchNode}
    (h : ParentOK grid start m nd) :
    ParentOK grid start (mapSet m k v) nd := by
  refine ⟨h.1, fun q hq => ?_⟩
  obtain ⟨h1, h2⟩ := h.2 q hq
  exact ⟨mapGet_isSome_mono h1, h2⟩

/-- The BFS neighbor push keeps all queue entries un-mapped and
parent-compatible, and the grown visited set still covers the map keys. -/
theorem bfsPush_inv {grid : Grid} {start : Position}
    {m : List (Position × SearchNode)} {current : SearchNode}
    (hcur : (mapGet m current.position).isSome = true) :
    ∀ (nbrs : List Position) (queue : List SearchNode)
      (visited : Finset Position),
      (∀ x ∈ nbrs, x ∈ getNeighbors current.position grid) →
      (∀ p, (mapGet m p).isSome = true → p ∈ visited) →
      (∀ nd ∈ queue, mapGet m nd.position = none) →
      (∀ nd ∈ queue, ParentOK grid start m nd) →
      (∀ nd ∈ (bfsPush current nbrs queue visited).1,
        mapGet m nd.position = none) ∧
      (∀ nd ∈ (bfsPush current nbrs queue visited).1,
        ParentOK grid start m nd) ∧
      (∀ p, (mapGet m p).isSome = true →
        p ∈ (bfsPush current nbrs queue visited).2) := by
  intro nbrs
  induction nbrs with
  | nil =>
    intro queue visited hn hk hq1 hq2
    exact ⟨hq1, hq2, hk⟩
  | cons nb rest ih =>
    intro queue visited hn hk hq1 hq2
    rw [bfsPush]
    by_cases hv : nb ∈ visited
    · rw [if_pos hv]
      exact ih queue visited (fun x hx => hn x (List.mem_cons_of_mem _ hx))
        hk hq1 hq2
    · rw [if_neg hv]
      have hnbnone : mapGet m nb = none := by
        rcases hgn : mapGet m nb with _ | v
        · rfl
        · exact absurd (hk nb (by rw [hgn]; rfl)) hv
      refine ih _ _ (fun x hx => hn x (List.mem_cons_of_mem _ hx))
        (fun p hp => Finset.mem_insert_of_mem (hk p hp)) ?_ ?_
      · intro nd hnd
        rcases List.mem_append.1 hnd with h1 | h2
        · exact hq1 nd h1
        · rw [List.mem_singleton] at h2
          subst h2
          exact hnbnone
      · intro nd hnd
        rcases List.mem_append.1 hnd with h1 | h2
        · exact hq2 nd h1
        · rw [List.mem_singleton] at h2
          subst h2
          refine ⟨fun hc => by simp at hc, fun q hq => ?_⟩
          simp only [Option.some.injEq] at hq
          subst hq
          exact ⟨hcur, hn nb (List.mem_cons_self _ _)⟩

/-- On every `found = true` return, the BFS loop yields a start-to-goal
grid path, given the queue/map chain invariants. -/
theorem bfsLoop_path (grid : Grid) (start goal : Position) :
    ∀ (fuel : Nat) (s : BFSState) (r : AlgorithmResult),
      (∃ ρ, MapChain grid start s.nodeMap ρ) →
      (∀ nd ∈ s.queue, mapGet s.nodeMap nd.position = none) →
      (∀ nd ∈ s.queue, ParentOK grid start s.nodeMap nd) →
      (s.queue.map SearchNode.position).Nodup →
      (∀ p, (mapGet s.nodeMap p).isSome = true → p ∈ s.visited) →
      (∀ p ∈ s.queue.map SearchNode.position, p ∈ s.visited) →
      bfsLoop grid goal fuel s = some r → r.found = true →
      FoundPathOK grid start goal r := by
  intro fuel
  induction fuel with
  | zero => intro s r _ _ _ _ _ _ h; simp [bfsLoop] at h
  | succ n ih =>
    intro s r hchain hqnone hqok hnodup hkeys hqvis h hfound
    rw [bfsLoop] at h
    rcases hq : s.queue with _ | ⟨current, rest⟩
    · rw [hq] at h
      simp only [Option.some.injEq] at h
      subst h
      simp [bfsNotFound] at hfound
    · rw [hq] at h
      simp only at h
      rw [hq] at hqnone hqok hnodup hqvis
      simp only [List.map_cons] at hnodup hqvis
      obtain ⟨ρ, hρ⟩ := hchain
      have hcurnone := hqnone current (List.mem_cons_self _ _)
      have hcurok := hqok current (List.mem_cons_self _ _)
      have hchain' := mapChain_insert hρ hcurnone hcurok.1 hcurok.2
      have hcurget : mapGet (mapSet s.nodeMap current.position current)
          current.position = some current := mapGet_mapSet_self _ _ _
      by_cases hg : positionsEqual current.position goal
      · rw [if_pos hg] at h
        simp only [Option.some.injEq] at h
        subst h
        have hgoal : current.position = goal := (positionsEqual_iff _ _).1 hg
        have hgg : mapGet (mapSet s.nodeMap current.position current) goal =
            some current := by
          rw [← hgoal]
          exact hcurget
        obtain ⟨hh, hl, hc, hw⟩ := reconstructPath_spec hchain' hgg
        exact ⟨hh, hl, hc, hw⟩
      · rw [if_neg hg] at h
        have hkeys' : ∀ p,
            (mapGet (mapSet s.nodeMap current.position current) p).isSome =
              true → p ∈ s.visited := by
          intro p hp
          by_cases hpc : p = current.position
          · subst hpc
            exact hqvis _ (List.mem_cons_self _ _)
          · rw [mapGet_mapSet_other _ _ _ _ hpc] at hp
            exact hkeys p hp
        have hrestnone : ∀ nd ∈ rest,
            mapGet (mapSet s.nodeMap current.position current) nd.position =
              none := by
          intro nd hnd
          have hne : nd.position ≠ current.position := by
            intro hc
            have : nd.position ∈ rest.map SearchNode.position :=
              List.mem_map_of_mem _ hnd
            rw [hc] at this
            exact (List.nodup_cons.1 hnodup).1 this
          rw [mapGet_mapSet_other _ _ _ _ hne]
          exact hqnone nd (List.mem_cons_of_mem _ hnd)
        have hrestok : ∀ nd ∈ rest,
            ParentOK grid start
              (mapSet s.nodeMap current.position current) nd := by
          intro nd hnd
          exact parentOK_mono (hqok nd (List.mem_cons_of_mem _ hnd))
        obtain ⟨push1, push2, push3⟩ :=
          bfsPush_inv (by rw [hcurget]; rfl)
            (getNeighbors current.position grid) rest s.visited
            (fun x hx => hx) hkeys' hrestnone hrestok
        have hpushnd := bfsPush_nodup current
          (getNeighbors current.position grid) rest s.visited []
          (by simpa using (List.nodup_cons.1 hnodup).2)
          (by
            intro p hp
            simp only [List.nil_append] at hp
            exact hqvis p (List.mem_cons_of_mem _ hp))
        refine ih _ r ⟨_, hchain'⟩ push1 push2 ?_ push3 ?_ h hfound
        · simpa using hpushnd.1
        · intro p hp
          refine hpushnd.2 p ?_
          simpa using hp

/-- The DFS reverse-order neighbor push only adds parent-compatible
entries. -/
theorem dfsPush_inv {grid : Grid} {start : Position}
    {m : List (Position × SearchNode)} {current : SearchNode}
    (hcur : (mapGet m current.position).isSome = true) :
    ∀ (nbrs : List Position) (visited : Finset Position)
      (stack : List SearchNode),
      (∀ x ∈ nbrs, x ∈ getNeighbors current.position grid) →
      (∀ nd ∈ stack, ParentOK grid start m nd) →
      ∀ nd ∈ dfsPush current nbrs visited stack, ParentOK grid start m nd := by
  intro nbrs
  induction nbrs with
  | nil =>
    intro visited stack hn hs nd hnd
    exact hs nd hnd
  | cons nb rest ih =>
    intro visited stack hn hs nd hnd
    rw [dfsPush] at hnd
    by_cases hv : nb ∈ visited
    · rw [if_pos hv] at hnd
      exact ih visited stack (fun x hx => hn x (List.mem_cons_of_mem _ hx))
        hs nd hnd
    · rw [if_neg hv] at hnd
      rcases List.mem_cons.1 hnd with h1 | h2
      · subst h1
        refine ⟨fun hc => by simp at hc, fun q hq => ?_⟩
        simp only [Option.some.injEq] at hq
        subst hq
        exact ⟨hcur, hn nb (List.mem_cons_self _ _)⟩
      · exact ih visited stack (fun x hx => hn x (List.mem_cons_of_mem _ hx))
          hs nd h2

/-- On every `found = true` return, the DFS loop yields a start-to-goal
grid path, given the stack/map chain invariants. -/
theorem dfsLoop_path (grid : Grid) (start goal : Position) :
    ∀ (fuel : Nat) (s : DFSState) (r : AlgorithmResult),
      (∃ ρ, MapChain grid start s.nodeMap ρ) →
      (∀ nd ∈ s.stack, ParentOK grid start s.nodeMap nd) →
      (∀ p, (mapGet s.nodeMap p).isSome = true → p ∈ s.visited) →
      dfsLoop grid goal fuel s = some r → r.found = true →
      FoundPathOK grid start goal r := by
  intro fuel
  induction fuel with
  | zero => intro s r _ _ _ h; simp [dfsLoop] at h
  | succ n ih =>
    intro s r hchain hqok hkeys h hfound
    rw [dfsLoop] at h
    rcases hq : s.stack with _ | ⟨current, rest⟩
    · rw [hq] at h
      simp only [Option.some.injEq] at h
      subst h
      simp [dfsNotFound] at hfound
    · rw [hq] at h
      simp only at h
      rw [hq] at hqok
      by_cases hv : current.position ∈ s.visited
      · rw [if_pos hv] at h
        exact ih { s with stack := rest } r hchain
          (fun nd hnd => hqok nd (List.mem_cons_of_mem _ hnd)) hkeys h hfound
      · rw [if_neg hv] at h
        obtain ⟨ρ, hρ⟩ := hchain
        have hcurnone : mapGet s.nodeMap current.position = none := by
          rcases hgn : mapGet s.nodeMap current.position with _ | v
          · rfl
          · exact absurd (hkeys _ (by rw [hgn]; rfl)) hv
        have hcurok := hqok current (List.mem_cons_self _ _)
        have hchain' := mapChain_insert hρ hcurnone hcurok.1 hcurok.2
        have hcurget : mapGet (mapSet s.nodeMap current.position current)
            current.position = some current := mapGet_mapSet_self _ _ _
        by_cases hg : positionsEqual current.position goal
        · rw [if_pos hg] at h
          simp only [Option.some.injEq] at h
          subst h
          have hgoal : current.position = goal := (positionsEqual_iff _ _).1 hg
          have hgg : mapGet (mapSet s.nodeMap current.position current) goal =
              some current := by
            rw [← hgoal]
            exact hcurget
          obtain ⟨hh, hl, hc, hw⟩ := reconstructPath_spec hchain' hgg
          exact ⟨hh, hl, hc, hw⟩
        · rw [if_neg hg] at h
          refine ih _ r ⟨_, hchain'⟩ ?_ ?_ h hfound
          · intro nd hnd
            refine dfsPush_inv (by rw [hcurget]; rfl) _ _ _ (fun x hx => hx)
              ?_ nd hnd
            intro nd' hnd'
            exact parentOK_mono (hqok nd' (List.mem_cons_of_mem _ hnd'))
          · intro p hp
            by_cases hpc : p = current.position
            · subst hpc
              exact Finset.mem_insert_self _ _
            · rw [mapGet_mapSet_other _ _ _ _ hpc] at hp
              exact Finset.mem_insert_of_mem (hkeys p hp)

theorem executeBFS_path {grid : Grid} {start goal : Position}
    (h : (executeBFS grid start goal).found = true) :
    FoundPathOK grid start goal (executeBFS grid start goal) := by
  unfold executeBFS at *
  rcases hr : bfsLoop grid goal (searchFuel grid)
      { queue := [⟨start, none⟩], visited := {start}, nodeMap := [],
        explorationOrder := [], nodesExpanded := 0 } with _ | r
  · rw [hr] at h
    simp only [Option.getD_none] at h
    rw [default_result_shape.1] at h
    exact absurd h (by simp)
  · rw [hr] at h
    simp only [Option.getD_some] at h ⊢
    refine bfsLoop_path grid start goal _ _ r ⟨fun _ => 0, ?_⟩ ?_ ?_ ?_ ?_ ?_
      hr h
    · intro p nd hget
      simp [mapGet] at hget
    · intro nd hnd
      simp only [List.mem_singleton] at hnd
      subst hnd
      rfl
    · intro nd hnd
      simp only [List.mem_singleton] at hnd
      subst hnd
      exact ⟨fun _ => rfl, fun q hq => by simp at hq⟩
    · simp
    · intro p hp
      simp [mapGet] at hp
    · intro p hp
      simp only [List.map_cons, List.map_nil, List.mem_singleton] at hp
      subst hp
      exact Finset.mem_singleton_self _

theorem executeDFS_path {grid : Grid} {start goal : Position}
    (h : (executeDFS grid start goal).found = true) :
    FoundPathOK grid start goal (executeDFS grid start goal) := by
  unfold executeDFS at *
  rcases hr : dfsLoop grid goal (searchFuel grid)
      { stack := [⟨start, none⟩], visited := ∅, nodeMap := [],
        explorationOrder := [], nodesExpanded := 0 } with _ | r
  · rw [hr] at h
    simp only [Option.getD_none] at h
    rw [default_result_shape.1] at h
    exact absurd h (by simp)
  · rw [hr] at h
    simp only [Option.getD_some] at h ⊢
    refine dfsLoop_path grid start goal _ _ r ⟨fun _ => 0, ?_⟩ ?_ ?_ hr h
    · intro p nd hget
      simp [mapGet] at hget
    · intro nd hnd
      simp only [List.mem_singleton] at hnd
      subst hnd
      exact ⟨fun _ => rfl, fun q hq => by simp at hq⟩
    · intro p hp
      simp [mapGet] at hp

/-- Chain discipline of the A* node map: parents are in the map with
strictly smaller `g`, parentless entries are the start, every link is a grid
edge, and every `g` is below the map size (so parent chains terminate). -/
def AMapChain (grid : Grid) (start : Position)
    (m : List (Position × AStarNode)) : Prop :=
  ∀ p nd, mapGet m p = some nd →
    nd.g < m.length ∧ (nd.parent = none → p = start) ∧
    ∀ q, nd.parent = some q → ∃ ndq, mapGet m q = some ndq ∧
      ndq.g < nd.g ∧ p ∈ getNeighbors q grid

theorem astarReconstructGo_step (m : List (Position × AStarNode)) (f : Nat)
    (p : Position) (acc : List Position) :
    astarReconstructGo m (f + 1) (some p) acc =
      astarReconstructGo m f
        (match mapGet m p with
         | some node => node.parent
         | none => none) (p :: acc) := rfl

theorem astarReconstructGo_none (m : List (Position × AStarNode)) (f : Nat)
    (acc : List Position) : astarReconstructGo m f none acc = acc := by
  rcases f with _ | f <;> rfl

theorem astarReconstructGo_spec {grid : Grid} {start : Position}
    {m : List (Position × AStarNode)}
    (hinv : AMapChain grid start m) :
    ∀ (n : Nat) (p0 : Position) (nd0 : AStarNode) (acc : List Position)
      (fuel : Nat),
      nd0.g ≤ n → mapGet m p0 = some nd0 → nd0.g < fuel →
      ∃ pre, astarReconstructGo m fuel (some p0) acc = pre ++ p0 :: acc ∧
        (pre ++ [p0]).head? = some start ∧
        List.Chain' (GridEdge grid) (pre ++ [p0]) ∧
        (∀ x ∈ pre ++ [p0], x = start ∨
          cellGet grid x ≠ some CellType.WALL) := by
  intro n
  induction n with
  | zero =>
    intro p0 nd0 acc fuel hn hget hfuel
    rcases fuel with _ | f
    · omega
    · rw [astarReconstructGo_step]
      simp only [hget]
      obtain ⟨-, hnone, hsome⟩ := hinv p0 nd0 hget
      rcases hp : nd0.parent with _ | q
      · rw [astarReconstructGo_none]
        refine ⟨[], rfl, ?_, ?_, ?_⟩
        · rw [hnone hp]
          rfl
        · simp
        · intro x hx
          simp only [List.nil_append, List.mem_singleton] at hx
          subst hx
          exact Or.inl (hnone hp)
      · obtain ⟨ndq, -, hql, -⟩ := hsome q hp
        omega
  | succ k ih =>
    intro p0 nd0 acc fuel hn hget hfuel
    rcases fuel with _ | f
    · omega
    · rw [astarReconstructGo_step]
      simp only [hget]
      obtain ⟨hlt, hnone, hsome⟩ := hinv p0 nd0 hget
      rcases hp : nd0.parent with _ | q
      · rw [astarReconstructGo_none]
        refine ⟨[], rfl, ?_, ?_, ?_⟩
        · rw [hnone hp]
          rfl
        · simp
        · intro x hx
          simp only [List.nil_append, List.mem_singleton] at hx
          subst hx
          exact Or.inl (hnone hp)
      · obtain ⟨ndq, hq, hql, hedge⟩ := hsome q hp
        obtain ⟨pre, heq, hhead, hchain, hnw⟩ :=
          ih q ndq (p0 :: acc) f (by omega) hq (by omega)
        refine ⟨pre ++ [q], ?_, ?_, ?_, ?_⟩
        · rw [heq, List.append_assoc]
          rfl
        · rcases pre with _ | ⟨a, rest⟩
          · simpa using hhead
          · simpa using hhead
        · rw [List.chain'_append]
          refine ⟨hchain, List.chain'_singleton p0, ?_⟩
          intro x hx y hy
          rw [List.getLast?_concat] at hx
          simp only [List.head?_cons, Option.mem_def, Option.some.injEq]
            at hx hy
          subst hx
          subst hy
          exact hedge
        · intro x hx
          rcases List.mem_append.1 hx with h1 | h2
          · exact hnw x h1
          · rw [List.mem_singleton] at h2
            subst h2
            exact Or.inr (getNeighbors_nonwall hedge)

theorem astarReconstructPath_spec {grid : Grid} {start : Position}
    {m : List (Position × AStarNode)} {goal : Position} {nd : AStarNode}
    (hchain : AMapChain grid start m)
    (hget : mapGet m goal = some nd) :
    (astarReconstructPath m goal).head? = some start ∧
    (astarReconstructPath m goal).getLast? = some goal ∧
    List.Chain' (GridEdge grid) (astarReconstructPath m goal) ∧
    ∀ x ∈ astarReconstructPath m goal, x = start ∨
      cellGet grid x ≠ some CellType.WALL := by
  have hg : nd.g < m.length := (hchain goal nd hget).1
  obtain ⟨pre, heq, hhead, hch, hnw⟩ :=
    astarReconstructGo_spec hchain nd.g goal nd [] (m.length + 1) le_rfl hget
      (by omega)
  unfold astarReconstructPath
  rw [heq]
  exact ⟨hhead, by rw [List.getLast?_concat], hch, hnw⟩

theorem pqEnqueue_mem {items : List AStarNode} {node nd : AStarNode}
    (h : nd ∈ pqEnqueue items node) : nd = node ∨ nd ∈ items :=
  List.mem_cons.1 ((pqEnqueue_perm items node).mem_iff.1 h)

theorem pqEnqueue_nodup {items : List AStarNode} {node : AStarNode}
    (hnodup : (items.map AStarNode.position).Nodup)
    (hfresh : ∀ nd ∈ items, nd.position ≠ node.position) :
    ((pqEnqueue items node).map AStarNode.position).Nodup := by
  refine (((pqEnqueue_perm items node).map AStarNode.position).nodup_iff).2 ?_
  simp only [List.map_cons, List.nodup_cons]
  refine ⟨?_, hnodup⟩
  intro hc
  rcases List.mem_map.1 hc with ⟨nd, hnd, hpos⟩
  exact hfresh nd hnd hpos

theorem pqContains_false {items : List AStarNode} {pos : Position}
    (h : pqContains items pos = false) :
    ∀ nd ∈ items, nd.position ≠ pos := by
  intro nd hnd hc
  rw [pqContains, List.any_eq_false] at h
  have hfalse := h nd hnd
  rw [(positionsEqual_iff nd.position pos).2 hc] at hfalse
  exact absurd hfalse (by simp)

theorem set_getElem_self {α : Type} {l : List α} {i : Nat} {v : α}
    (hi : i < l.length) (hv : l[i] = v) : l.set i v = l := by
  refine List.ext_getElem (by simp) ?_
  intro n h1 h2
  rw [List.getElem_set]
  split
  · rename_i hin
    subst hin
    exact hv.symm
  · rfl

theorem mem_set_cases {l : List AStarNode} {i : Nat} {new nd : AStarNode}
    (hi : i < l.length)
    (hnodup : (l.map AStarNode.position).Nodup)
    (hpos : l[i].position = new.position)
    (hnd : nd ∈ l.set i new) :
    nd = new ∨ (nd ∈ l ∧ nd.position ≠ new.position) := by
  obtain ⟨j, hj, hjv⟩ := List.mem_iff_getElem.1 hnd
  rw [List.length_set] at hj
  rw [List.getElem_set] at hjv
  by_cases hij : i = j
  · rw [if_pos hij] at hjv
    exact Or.inl hjv.symm
  · rw [if_neg hij] at hjv
    refine Or.inr ⟨hjv ▸ List.getElem_mem hj, ?_⟩
    intro hc
    rw [← hjv, ← hpos] at hc
    have hj2 : j < (l.map AStarNode.position).length := by simpa using hj
    have hi2 : i < (l.map AStarNode.position).length := by simpa using hi
    have hmapeq : (l.map AStarNode.position)[j] =
        (l.map AStarNode.position)[i] := by
      rw [List.getElem_map, List.getElem_map]
      exact hc
    exact hij ((hnodup.getElem_inj_iff.1 hmapeq).symm)

/-- What `pqUpdateNode` produces: the first (unique) entry at the position is
rewritten to the new `g`/`f`/parent, everything else is untouched, up to the
stable re-sort; position multiset and nodup-ness are preserved. -/
theorem pqUpdateNode_spec {items : List AStarNode} (pos : Position)
    (newG newF : Nat) (par : Position)
    (hnodup : (items.map AStarNode.position).Nodup) :
    ((pqUpdateNode items pos newG newF par).map AStarNode.position).Nodup ∧
    ∀ nd ∈ pqUpdateNode items pos newG newF par,
      (nd ∈ items ∧ nd.position ≠ pos) ∨
      (∃ old, old ∈ items ∧ old.position = pos ∧
        nd = { old with g := newG, f := newF, parent := some par }) := by
  unfold pqUpdateNode
  rcases hfind : items.findIdx?
      (fun node => positionsEqual node.position pos) with _ | idx
  · simp only [hfind]
    refine ⟨hnodup, fun nd hnd => Or.inl ⟨hnd, ?_⟩⟩
    rw [List.findIdx?_eq_none_iff] at hfind
    have hfalse := hfind nd hnd
    intro hc
    rw [(positionsEqual_iff nd.position pos).2 hc] at hfalse
    exact absurd hfalse (by simp)
  · simp only [hfind]
    rw [List.findIdx?_eq_some_iff_findIdx_eq] at hfind
    obtain ⟨hlt, hidx⟩ := hfind
    rcases hget : items.get? idx with _ | node
    · rw [List.get?_eq_none] at hget
      omega
    · simp only [hget]
      have hnodeq : items[idx] = node := by
        rw [List.get?_eq_some] at hget
        obtain ⟨h1, h2⟩ := hget
        rw [← h2]
        simp [List.get_eq_getElem]
      have hnodepos : node.position = pos := by
        have hpred := @List.findIdx_getElem _
          (fun node => positionsEqual node.position pos) items
          (by rw [hidx]; exact hlt)
        simp only [hidx, hnodeq] at hpred
        exact (positionsEqual_iff _ _).1 hpred
      have hperm := pqSort_perm (items.set idx
        { node with g := newG, f := newF, parent := some par })
      have hidx2 : idx < (List.map AStarNode.position items).length := by
        simpa using hlt
      constructor
      · refine ((hperm.map AStarNode.position).nodup_iff).2 ?_
        rw [List.map_set]
        have : (items.map AStarNode.position)[idx] =
            ({ node with g := newG, f := newF, parent := some par } :
              AStarNode).position := by
          rw [List.getElem_map]
          rw [hnodeq]
        rw [set_getElem_self hidx2 this]
        exact hnodup
      · intro nd hnd
        have hnd' := hperm.mem_iff.1 hnd
        rcases mem_set_cases hlt hnodup (by rw [hnodeq]) hnd' with h1 | h2
        · exact Or.inr ⟨node, List.get?_mem hget, hnodepos, h1⟩
        · refine Or.inl ⟨h2.1, ?_⟩
          have := h2.2
          simpa [hnodepos] using this

/-- Discovering a fresh neighbor keeps the A* chain discipline. -/
theorem amapChain_ins_new {grid : Grid} {start : Position}
    {m : List (Position × AStarNode)} {current : AStarNode} {nb : Position}
    {hh ff : Nat}
    (hchain : AMapChain grid start m)
    (hcur : mapGet m current.position = some current)
    (hnone : mapGet m nb = none)
    (hnb : nb ∈ getNeighbors current.position grid) :
    AMapChain grid start
      (mapSet m nb ⟨nb, current.g + 1, hh, ff, some current.position⟩) := by
  have hne : current.position ≠ nb := (getNeighbors_ne hnb).symm
  intro p nd hget
  by_cases hp : p = nb
  · subst hp
    rw [mapGet_mapSet_self] at hget
    injection hget with hnd
    subst hnd
    refine ⟨?_, fun hc => by simp at hc, ?_⟩
    · have := (hchain current.position current hcur).1
      simp only [mapSet, List.length_cons]
      show current.g + 1 < m.length + 1
      omega
    · intro q hq
      simp only [Option.some.injEq] at hq
      subst hq
      refine ⟨current, ?_, ?_, hnb⟩
      · rw [mapGet_mapSet_other m _ current.position _ hne]
        exact hcur
      · show current.g < current.g + 1
        omega
  · rw [mapGet_mapSet_other m nb p _ hp] at hget
    obtain ⟨h1, h2, h3⟩ := hchain p nd hget
    refine ⟨by simp only [mapSet, List.length_cons]; omega, h2, ?_⟩
    intro q hq
    obtain ⟨ndq, hndq, hg, hedge⟩ := h3 q hq
    have hqne : q ≠ nb := by
      intro hc
      rw [hc, hnone] at hndq
      exact absurd hndq (by simp)
    refine ⟨ndq, ?_, hg, hedge⟩
    rw [mapGet_mapSet_other m nb q _ hqne]
    exact hndq

/-- The decrease-key update keeps the A* chain discipline: the rewritten
entry's `g` only shrinks, so every inequality through it survives. -/
theorem amapChain_update {grid : Grid} {start : Position}
    {m : List (Position × AStarNode)} {current existing : AStarNode}
    {nb : Position} {ff : Nat}
    (hchain : AMapChain grid start m)
    (hcur : mapGet m current.position = some current)
    (hex : mapGet m nb = some existing)
    (hlt : current.g + 1 < existing.g)
    (hnb : nb ∈ getNeighbors current.position grid) :
    AMapChain grid start (mapSet m nb
      { existing with
        g := current.g + 1, f := ff, parent := some current.position }) := by
  have hne : current.position ≠ nb := (getNeighbors_ne hnb).symm
  intro p nd hget
  by_cases hp : p = nb
  · subst hp
    rw [mapGet_mapSet_self] at hget
    injection hget with hnd
    subst hnd
    refine ⟨?_, fun hc => by simp at hc, ?_⟩
    · have := (hchain _ existing hex).1
      simp only [mapSet, List.length_cons]
      show current.g + 1 < m.length + 1
      omega
    · intro q hq
      simp only [Option.some.injEq] at hq
      subst hq
      refine ⟨current, ?_, ?_, hnb⟩
      · rw [mapGet_mapSet_other m _ current.position _ hne]
        exact hcur
      · show current.g < current.g + 1
        omega
  · rw [mapGet_mapSet_other m nb p _ hp] at hget
    obtain ⟨h1, h2, h3⟩ := hchain p nd hget
    refine ⟨by simp only [mapSet, List.length_cons]; omega, h2, ?_⟩
    intro q hq
    obtain ⟨ndq, hndq, hg, hedge⟩ := h3 q hq
    by_cases hqnb : q = nb
    · subst hqnb
      rw [hex] at hndq
      injection hndq with hndq
      subst hndq
      refine ⟨_, mapGet_mapSet_self _ _ _, ?_, hedge⟩
      simp only
      omega
    · refine ⟨ndq, ?_, hg, hedge⟩
      rw [mapGet_mapSet_other m nb q _ hqnb]
      exact hndq

/-- The A* neighbor relaxation preserves the chain discipline, the
queue/map synchronisation and the queue position nodup-ness, and never
touches the expanding node's own entry. -/
theorem astarRelax_inv {grid : Grid} {start : Position} (weight : Nat)
    (goal : Position) (current : AStarNode) :
    ∀ (nbrs : List Position) (openItems : List AStarNode)
      (closedSet : Finset Position) (m : List (Position × AStarNode)),
      (∀ x ∈ nbrs, x ∈ getNeighbors current.position grid) →
      mapGet m current.position = some current →
      AMapChain grid start m →
      (∀ nd ∈ openItems, mapGet m nd.position = some nd) →
      (openItems.map AStarNode.position).Nodup →
      mapGet (astarRelax weight goal current nbrs openItems closedSet m).2
          current.position = some current ∧
      AMapChain grid start
        (astarRelax weight goal current nbrs openItems closedSet m).2 ∧
      (∀ nd ∈ (astarRelax weight goal current nbrs openItems closedSet m).1,
        mapGet (astarRelax weight goal current nbrs openItems closedSet m).2
          nd.position = some nd) ∧
      ((astarRelax weight goal current nbrs openItems closedSet m).1.map
        AStarNode.position).Nodup := by
  intro nbrs
  induction nbrs with
  | nil =>
    intro openItems closedSet m hn hcur hchain hsync hnodup
    exact ⟨hcur, hchain, hsync, hnodup⟩
  | cons nb rest ih =>
    intro openItems closedSet m hn hcur hchain hsync hnodup
    rw [astarRelax]
    by_cases hc : nb ∈ closedSet
    · rw [if_pos hc]
      exact ih _ _ _ (fun x hx => hn x (List.mem_cons_of_mem _ hx)) hcur
        hchain hsync hnodup
    · rw [if_neg hc]
      have hnb : nb ∈ getNeighbors current.position grid :=
        hn nb (List.mem_cons_self _ _)
      have hne : current.position ≠ nb := (getNeighbors_ne hnb).symm
      rcases hmg : mapGet m nb with _ | existing
      · simp only [hmg]
        have hfresh : ∀ nd ∈ openItems, nd.position ≠ nb := by
          intro nd hnd hcq
          have hs := hsync nd hnd
          rw [hcq, hmg] at hs
          exact absurd hs (by simp)
        refine ih _ _ _ (fun x hx => hn x (List.mem_cons_of_mem _ hx)) ?_
          (amapChain_ins_new hchain hcur hmg hnb) ?_ ?_
        · rw [mapGet_mapSet_other m nb current.position _ hne]
          exact hcur
        · intro nd hnd
          rcases pqEnqueue_mem hnd with h1 | h2
          · subst h1
            exact mapGet_mapSet_self _ _ _
          · rw [mapGet_mapSet_other m nb nd.position _ (hfresh nd h2)]
            exact hsync nd h2
        · exact pqEnqueue_nodup hnodup hfresh
      · simp only [hmg]
        by_cases hlt : current.g + 1 < existing.g
        · rw [if_pos hlt]
          by_cases hpc : pqContains openItems nb = true
          · rw [if_pos hpc]
            obtain ⟨hnodup2, hmem2⟩ := pqUpdateNode_spec nb (current.g + 1)
              (current.g + 1 + weight * manhattanDistance nb goal)
              current.position hnodup
            refine ih _ _ _ (fun x hx => hn x (List.mem_cons_of_mem _ hx)) ?_
              (amapChain_update hchain hcur hmg hlt hnb) ?_ hnodup2
            · rw [mapGet_mapSet_other m nb current.position _ hne]
              exact hcur
            · intro nd hnd
              rcases hmem2 nd hnd with ⟨hin, hnep⟩ | ⟨old, hold, holdpos, hndeq⟩
              · rw [mapGet_mapSet_other m nb nd.position _ hnep]
                exact hsync nd hin
              · have hso := hsync old hold
                rw [holdpos, hmg] at hso
                injection hso with hoe
                subst hndeq
                subst hoe
                have hxp : ({ existing with
                    g := current.g + 1,
                    f := current.g + 1 + weight * manhattanDistance nb goal,
                    parent := some current.position } :
                    AStarNode).position = nb := holdpos
                rw [hxp]
                exact mapGet_mapSet_self _ _ _
          · rw [if_neg hpc]
            have hpcf : pqContains openItems nb = false := by
              simpa using hpc
            have hfr := pqContains_false hpcf
            refine ih _ _ _ (fun x hx => hn x (List.mem_cons_of_mem _ hx)) ?_
              (amapChain_update hchain hcur hmg hlt hnb) ?_ hnodup
            · rw [mapGet_mapSet_other m nb current.position _ hne]
              exact hcur
            · intro nd hnd
              rw [mapGet_mapSet_other m nb nd.position _ (hfr nd hnd)]
              exact hsync nd hnd
        · rw [if_neg hlt]
          exact ih _ _ _ (fun x hx => hn x (List.mem_cons_of_mem _ hx)) hcur
            hchain hsync hnodup

/-- On every `found = true` return, the A*/Weighted A* loop yields a
start-to-goal grid path, given the queue/map invariants. -/
theorem astarLoop_path (weight : Nat) (name : String) (isOpt : Bool)
    (grid : Grid) (start goal : Position) :
    ∀ (fuel : Nat) (s : AStarState) (r : AlgorithmResult),
      AMapChain grid start s.nodeMap →
      (∀ nd ∈ s.openItems, mapGet s.nodeMap nd.position = some nd) →
      (s.openItems.map AStarNode.position).Nodup →
      astarLoop weight name isOpt grid goal fuel s = some r →
      r.found = true → FoundPathOK grid start goal r := by
  intro fuel
  induction fuel with
  | zero => intro s r _ _ _ h; simp [astarLoop] at h
  | succ n ih =>
    intro s r hchain hsync hnodup h hfound
    rw [astarLoop] at h
    rcases hq : s.openItems with _ | ⟨current, rest⟩
    · rw [hq] at h
      simp only [Option.some.injEq] at h
      subst h
      simp [astarNotFound] at hfound
    · rw [hq] at h
      simp only at h
      rw [hq] at hsync hnodup
      simp only [List.map_cons] at hnodup
      have hcur : mapGet s.nodeMap current.position = some current :=
        hsync current (List.mem_cons_self _ _)
      by_cases hv : current.position ∈ s.closedSet
      · rw [if_pos hv] at h
        exact ih { s with openItems := rest } r hchain
          (fun nd hnd => hsync nd (List.mem_cons_of_mem _ hnd))
          (List.nodup_cons.1 hnodup).2 h hfound
      · rw [if_neg hv] at h
        by_cases hg : positionsEqual current.position goal
        · rw [if_pos hg] at h
          simp only [Option.some.injEq] at h
          subst h
          have hgoal : current.position = goal := (positionsEqual_iff _ _).1 hg
          have hgg : mapGet s.nodeMap goal = some current := by
            rw [← hgoal]
            exact hcur
          obtain ⟨hh, hl, hc, hw⟩ := astarReconstructPath_spec hchain hgg
          exact ⟨hh, hl, hc, hw⟩
        · rw [if_neg hg] at h
          obtain ⟨hcur', hchain', hsync', hnodup'⟩ :=
            astarRelax_inv weight goal current
              (getNeighbors current.position grid) rest
              (insert current.position s.closedSet) s.nodeMap
              (fun x hx => hx) hcur hchain
              (fun nd hnd => hsync nd (List.mem_cons_of_mem _ hnd))
              (List.nodup_cons.1 hnodup).2
          exact ih _ r hchain' hsync' hnodup' h hfound

theorem astarExec_path {weight : Nat} {name : String} {isOpt : Bool}
    {grid : Grid} {start goal : Position}
    (h : (astarExec weight name isOpt grid start goal).found = true) :
    FoundPathOK grid start goal
      (astarExec weight name isOpt grid start goal) := by
  unfold astarExec at *
  simp only at h ⊢
  rcases hr : astarLoop weight name isOpt grid goal (astarFuel grid)
      { openItems := pqEnqueue [] ⟨start, 0, manhattanDistance start goal,
          0 + weight * manhattanDistance start goal, none⟩,
        closedSet := ∅,
        nodeMap := mapSet [] start ⟨start, 0, manhattanDistance start goal,
          0 + weight * manhattanDistance start goal, none⟩,
        explorationOrder := [], nodesExpanded := 0 } with _ | r
  · rw [hr] at h
    simp only [Option.getD_none] at h
    rw [default_result_shape.1] at h
    exact absurd h (by simp)
  · rw [hr] at h
    simp only [Option.getD_some] at h ⊢
    refine astarLoop_path weight name isOpt grid start goal _ _ r ?_ ?_ ?_
      hr h
    · intro p nd hget
      by_cases hp : p = start
      · subst hp
        rw [mapGet_mapSet_self] at hget
        injection hget with hnd
        subst hnd
        refine ⟨by simp [mapSet], fun _ => rfl, fun q hq => by simp at hq⟩
      · rw [mapGet_mapSet_other _ _ _ _ hp] at hget
        simp [mapGet] at hget
    · intro nd hnd
      rcases pqEnqueue_mem hnd with h1 | h2
      · subst h1
        exact mapGet_mapSet_self _ _ _
      · simp at h2
    · refine pqEnqueue_nodup (by simp) ?_
      intro nd hnd
      simp at hnd

theorem executeAStar_path {grid : Grid} {start goal : Position}
    (h : (executeAStar grid start goal).found = true) :
    FoundPathOK grid start goal (executeAStar grid start goal) := by
  unfold executeAStar at *
  exact astarExec_path h

theorem executeWeightedAStar_path {grid : Grid} {start goal : Position}
    (h : (executeWeightedAStar grid start goal).found = true) :
    FoundPathOK grid start goal (executeWeightedAStar grid start goal) := by
  unfold executeWeightedAStar at *
  exact astarExec_path h

/-- Validity of the explicit path IDA* threads through its recursion. -/
def IDAPathOK (grid : Grid) (start : Position) (path : List Position) : Prop :=
  path ≠ [] ∧ path.head? = some start ∧
  List.Chain' (GridEdge grid) path ∧
  ∀ x ∈ path, x = start ∨ cellGet grid x ≠ some CellType.WALL

theorem idaPathOK_extend {grid : Grid} {start : Position}
    {path : List Position} {node nb : Position}
    (hok : IDAPathOK grid start path)
    (hlast : path.getLast? = some node)
    (hnb : nb ∈ getNeighbors node grid) :
    IDAPathOK grid start (path ++ [nb]) := by
  obtain ⟨hne, hhead, hchain, hmem⟩ := hok
  refine ⟨by simp, ?_, ?_, ?_⟩
  · rcases path with _ | ⟨a, t⟩
    · exact absurd rfl hne
    · simpa using hhead
  · rw [List.chain'_append]
    refine ⟨hchain, List.chain'_singleton nb, ?_⟩
    intro x hx y hy
    rw [hlast] at hx
    simp only [List.head?_cons, Option.mem_def, Option.some.injEq] at hx hy
    subst hx
    subst hy
    exact hnb
  · intro x hx
    rcases List.mem_append.1 hx with h1 | h2
    · exact hmem x h1
    · rw [List.mem_singleton] at h2
      subst h2
      exact Or.inr (getNeighbors_nonwall hnb)

theorem idaFold_goalpath {grid : Grid} {start goalp : Position}
    {child : List Position → Nat → IDAState →
      Option (Nat × Option (List Position) × IDAState)}
    {path : List Position} {g : Nat} {node : Position}
    (hlast : path.getLast? = some node)
    (hok : IDAPathOK grid start path)
    (hchild : ∀ p', IDAPathOK grid start p' →
      ∀ g' st₁ t res st₂, child p' g' st₁ = some (t, some res, st₂) →
      IDAPathOK grid start res ∧ res.getLast? = some goalp) :
    ∀ (nbrs : List Position) (minSoFar : Nat) (st : IDAState)
      (t : Nat) (res : List Position) (st' : IDAState),
      (∀ x ∈ nbrs, x ∈ getNeighbors node grid) →
      idaFold child path g nbrs minSoFar st = some (t, some res, st') →
      IDAPathOK grid start res ∧ res.getLast? = some goalp := by
  intro nbrs
  induction nbrs with
  | nil =>
    intro minSoFar st t res st' hn h
    rw [idaFold] at h
    simp at h
  | cons nb rest ih =>
    intro minSoFar st t res st' hn h
    rw [idaFold] at h
    by_cases hp : path.any (fun p => positionsEqual p nb)
    · rw [if_pos hp] at h
      exact ih _ _ _ _ _ (fun x hx => hn x (List.mem_cons_of_mem _ hx)) h
    · rw [if_neg hp] at h
      rcases hc : child (path ++ [nb]) (g + 1) st with _ | ⟨t2, res2, st2⟩
      · rw [hc] at h
        simp at h
      · rw [hc] at h
        rcases res2 with _ | r2
        · simp only at h
          exact ih _ _ _ _ _ (fun x hx => hn x (List.mem_cons_of_mem _ hx)) h
        · simp only [Option.some.injEq, Prod.mk.injEq] at h
          obtain ⟨-, hres, -⟩ := h
          subst hres
          exact hchild (path ++ [nb])
            (idaPathOK_extend hok hlast (hn nb (List.mem_cons_self _ _)))
            (g + 1) st t2 r2 st2 hc

theorem idaSearch_goalpath (grid : Grid) (goalp start : Position) :
    ∀ (fuel : Nat) (path : List Position) (g bound : Nat) (st : IDAState)
      (t : Nat) (res : List Position) (st' : IDAState),
      IDAPathOK grid start path →
      idaSearch grid goalp fuel path g bound st = some (t, some res, st') →
      IDAPathOK grid start res ∧ res.getLast? = some goalp := by
  intro fuel
  induction fuel with
  | zero => intro path g bound st t res st' _ h; simp [idaSearch] at h
  | succ n ih =>
    intro path g bound st t res st' hok h
    rw [idaSearch] at h
    simp only at h
    by_cases hb : bound < g + manhattanDistance ((path.getLast?).getD default) goalp
    · rw [if_pos hb] at h
      simp at h
    · rw [if_neg hb] at h
      by_cases hg : positionsEqual ((path.getLast?).getD default) goalp
      · rw [if_pos hg] at h
        simp only [Option.some.injEq, Prod.mk.injEq] at h
        obtain ⟨-, hres, -⟩ := h
        subst hres
        refine ⟨hok, ?_⟩
        rcases hlast : path.getLast? with _ | node
        · rw [List.getLast?_eq_none_iff] at hlast
          exact absurd hlast hok.1
        · have hpe := (positionsEqual_iff _ _).1 hg
          rw [hlast] at hpe
          simp only [Option.getD_some] at hpe
          rw [hpe]
      · rw [if_neg hg] at h
        have hlast : path.getLast? = some ((path.getLast?).getD default) := by
          rcases hl : path.getLast? with _ | node
          · rw [List.getLast?_eq_none_iff] at hl
            exact absurd hl hok.1
          · rfl
        exact idaFold_goalpath hlast hok
          (fun p' hp' g' st₁ t₂ res₂ st₂ hc =>
            ih p' g' bound st₁ t₂ res₂ st₂ hp' hc)
          _ _ _ _ _ _ (fun x hx => hx) h

/-- On every `found = true` return, the IDA* deepening loop yields a
start-to-goal grid path. -/
theorem idaOuter_path (grid : Grid) (start goalp : Position) :
    ∀ (fuel bound : Nat) (st : IDAState) (r : AlgorithmResult),
      idaOuter grid start goalp fuel bound st = some r → r.found = true →
      FoundPathOK grid start goalp r := by
  intro fuel
  induction fuel with
  | zero => intro bound st r h; simp [idaOuter] at h
  | succ n ih =>
    intro bound st r h hfound
    rw [idaOuter] at h
    rcases hs : idaSearch grid goalp (idaFuel grid) [start] 0 bound st
      with _ | ⟨t, res, st'⟩
    · rw [hs] at h
      simp at h
    · rw [hs] at h
      rcases res with _ | result
      · simp only at h
        by_cases ht : t = INFINITY_THRESHOLD
        · rw [if_pos ht] at h
          simp only [Option.some.injEq] at h
          subst h
          simp at hfound
        · rw [if_neg ht] at h
          exact ih _ _ r h hfound
      · simp only [Option.some.injEq] at h
        subst h
        have hini : IDAPathOK grid start [start] := by
          refine ⟨by simp, rfl, List.chain'_singleton _, ?_⟩
          intro x hx
          rw [List.mem_singleton] at hx
          subst hx
          exact Or.inl rfl
        obtain ⟨⟨hne, hhead, hchain, hmem⟩, hlast⟩ :=
          idaSearch_goalpath grid goalp start (idaFuel grid) [start] 0 bound
            st t result st' hini hs
        exact ⟨hhead, hlast, hchain, hmem⟩

theorem executeIDAStar_path {grid : Grid} {start goal : Position}
    (h : (executeIDAStar grid start goal).found = true) :
    FoundPathOK grid start goal (executeIDAStar grid start goal) := by
  unfold executeIDAStar at *
  rcases hr : idaOuter grid start goal idaOuterFuel
      (manhattanDistance start goal) ⟨[], 0⟩ with _ | r
  · rw [hr] at h
    simp only [Option.getD_none] at h
    rw [default_result_shape.1] at h
    exact absurd h (by simp)
  · rw [hr] at h
    simp only [Option.getD_some] at h ⊢
    exact idaOuter_path grid start goal _ _ _ r hr h

/-- 4-adjacency: the positions differ by exactly 1 in exactly one
coordinate. -/
def FourAdjacent (a b : Position) : Prop :=
  (a.row = b.row ∧ (a.col - b.col).natAbs = 1) ∨
  (a.col = b.col ∧ (a.row - b.row).natAbs = 1)

/-- One legal step of a returned path: 4-adjacent, and neither endpoint is a
Wall cell. -/
def AdjStepOK (grid : Grid) (a b : Position) : Prop :=
  FourAdjacent a b ∧ cellGet grid a ≠ some CellType.WALL ∧
  cellGet grid b ≠ some CellType.WALL

theorem fourAdjacent_of_manhattan {a b : Position}
    (h : manhattanDistance a b = 1) : FourAdjacent a b := by
  unfold manhattanDistance at h
  unfold FourAdjacent
  omega

theorem chain_adjStep {grid : Grid} {start : Position} :
    ∀ (l : List Position), List.Chain' (GridEdge grid) l →
    (∀ x ∈ l, x = start ∨ cellGet grid x ≠ some CellType.WALL) →
    cellGet grid start ≠ some CellType.WALL →
    List.Chain' (AdjStepOK grid) l := by
  intro l
  induction l with
  | nil =>
    intro _ _ _
    exact List.chain'_nil
  | cons a t ih =>
    intro h hw hs
    rcases t with _ | ⟨b, t'⟩
    · exact List.chain'_singleton a
    · rw [List.chain'_cons] at h ⊢
      have hmem : ∀ x ∈ a :: b :: t',
          cellGet grid x ≠ some CellType.WALL := by
        intro x hx
        rcases hw x hx with h1 | h2
        · subst h1
          exact hs
        · exact h2
      refine ⟨⟨fourAdjacent_of_manhattan (getNeighbors_adj h.1),
        hmem a (List.mem_cons_self _ _),
        hmem b (List.mem_cons_of_mem _ (List.mem_cons_self _ _))⟩,
        ih h.2 (fun x hx => hw x (List.mem_cons_of_mem _ hx)) hs⟩

/-- **C2 counterexample.**  The claim quantifies over every grid, but the
engines never check the cell under `start`: on the 1×2 grid `[WALL, GOAL]`
with `start` placed on the Wall cell, BFS returns `found = true` with the
path `[start, goal]`, whose consecutive pair has a Wall endpoint. -/
theorem C2_counterexample :
    (executeBFS [[CellType.WALL, CellType.GOAL]] ⟨0, 0⟩ ⟨0, 1⟩).found =
      true ∧
    (executeBFS [[CellType.WALL, CellType.GOAL]] ⟨0, 0⟩ ⟨0, 1⟩).path =
      [⟨0, 0⟩, ⟨0, 1⟩] ∧
    cellGet [[CellType.WALL, CellType.GOAL]] ⟨0, 0⟩ =
      some CellType.WALL := by
  decide

/-- **C2 (amended: the start cell is not a Wall).**  For every grid and
every engine (DFS, BFS, A*, Weighted A*, IDA*), if the returned result has
`found = true` then the path starts at `start`, ends at `goal`, and every
consecutive pair is 4-adjacent with neither endpoint a Wall cell. -/
theorem C2_valid_path (grid : Grid) (start goal : Position)
    (hstart : cellGet grid start ≠ some CellType.WALL) :
    ∀ r ∈ [executeDFS grid start goal, executeBFS grid start goal,
        executeAStar grid start goal, executeWeightedAStar grid start goal,
        executeIDAStar grid start goal],
      r.found = true →
      r.path.head? = some start ∧ r.path.getLast? = some goal ∧
      List.Chain' (AdjStepOK grid) r.path := by
  intro r hr hfound
  have hfp : FoundPathOK grid start goal r := by
    simp only [List.mem_cons, List.mem_singleton, List.not_mem_nil,
      or_false] at hr
    rcases hr with rfl | rfl | rfl | rfl | rfl
    · exact executeDFS_path hfound
    · exact executeBFS_path hfound
    · exact executeAStar_path hfound
    · exact executeWeightedAStar_path hfound
    · exact executeIDAStar_path hfound
  exact ⟨hfp.1, hfp.2.1, chain_adjStep _ hfp.2.2.1 hfp.2.2.2 hstart⟩

/-- **C2 witness.**  Concrete instance: on the 1×2 grid `[START, GOAL]` the
amended claim applies with its hypothesis discharged by evaluation. -/
theorem C2_valid_path_witness :
    cellGet [[CellType.START, CellType.GOAL]] ⟨0, 0⟩ ≠
      some CellType.WALL ∧
    ∀ r ∈ [executeDFS [[CellType.START, CellType.GOAL]] ⟨0, 0⟩ ⟨0, 1⟩,
        executeBFS [[CellType.START, CellType.GOAL]] ⟨0, 0⟩ ⟨0, 1⟩,
        executeAStar [[CellType.START, CellType.GOAL]] ⟨0, 0⟩ ⟨0, 1⟩,
        executeWeightedAStar [[CellType.START, CellType.GOAL]] ⟨0, 0⟩ ⟨0, 1⟩,
        executeIDAStar [[CellType.START, CellType.GOAL]] ⟨0, 0⟩ ⟨0, 1⟩],
      r.found = true →
      r.path.head? = some (⟨0, 0⟩ : Position) ∧
      r.path.getLast? = some (⟨0, 1⟩ : Position) ∧
      List.Chain' (AdjStepOK [[CellType.START, CellType.GOAL]]) r.path :=
  ⟨by decide, C2_valid_path [[CellType.START, CellType.GOAL]] ⟨0, 0⟩ ⟨0, 1⟩
    (by decide)⟩

/-! ## Bounded suboptimality of Weighted A* (C4) -/

theorem manhattanDistance_self (a : Position) : manhattanDistance a a = 0 := by
  unfold manhattanDistance
  omega

theorem manhattanDistance_triangle (a b c : Position) :
    manhattanDistance a c ≤ manhattanDistance a b + manhattanDistance b c := by
  unfold manhattanDistance
  omega

theorem reachableWithin_mono {grid : Grid} {start : Position} :
    ∀ {m n : Nat}, m ≤ n →
      reachableWithin grid start m ⊆ reachableWithin grid start n := by
  intro m n h
  induction n with
  | zero =>
    rw [Nat.le_zero.1 h]
  | succ k ih =>
    rcases Nat.lt_or_ge m (k + 1) with h1 | h2
    · refine (ih (by omega)).trans ?_
      rw [reachableWithin]
      exact Finset.subset_union_left
    · rw [Nat.le_antisymm h h2]

theorem reachableWithin_step {grid : Grid} {start p q : Position} {n : Nat}
    (hp : p ∈ reachableWithin grid start n)
    (hq : q ∈ getNeighbors p grid) :
    q ∈ reachableWithin grid start (n + 1) := by
  rw [reachableWithin]
  refine Finset.mem_union_right _ ?_
  refine Finset.mem_biUnion.2 ⟨p, hp, ?_⟩
  rw [List.mem_toFinset]
  exact hq

theorem reachableWithin_self {grid : Grid} {start : Position} {n : Nat} :
    start ∈ reachableWithin grid start n := by
  refine reachableWithin_mono (Nat.zero_le n) ?_
  rw [reachableWithin]
  exact Finset.mem_singleton_self _

/-- Peeling the first step: anything reachable from `a` is `a` itself or
reachable from one of `a`'s neighbors in one step fewer. -/
theorem reachableWithin_firstStep {grid : Grid} {a : Position} :
    ∀ {n : Nat} {b : Position}, b ∈ reachableWithin grid a n →
      b = a ∨ ∃ q ∈ getNeighbors a grid, b ∈ reachableWithin grid q (n - 1) := by
  intro n
  induction n with
  | zero =>
    intro b hb
    rw [reachableWithin, Finset.mem_singleton] at hb
    exact Or.inl hb
  | succ k ih =>
    intro b hb
    rw [reachableWithin, Finset.mem_union] at hb
    rcases hb with hb | hb
    · rcases ih hb with h1 | ⟨q, hq, hbq⟩
      · exact Or.inl h1
      · exact Or.inr ⟨q, hq, reachableWithin_mono (by omega) hbq⟩
    · rw [Finset.mem_biUnion] at hb
      obtain ⟨x, hx, hbx⟩ := hb
      rw [List.mem_toFinset] at hbx
      rcases k with _ | k
      · rw [reachableWithin, Finset.mem_singleton] at hx
        subst hx
        exact Or.inr ⟨b, hbx, reachableWithin_self⟩
      · rcases ih hx with h1 | ⟨q, hq, hxq⟩
        · subst h1
          exact Or.inr ⟨b, hbx, reachableWithin_self⟩
        · refine Or.inr ⟨q, hq, ?_⟩
          have hstep := reachableWithin_step hxq hbx
          exact reachableWithin_mono (by omega) hstep
  
/-- Admissibility of the Manhattan heuristic against the reference
reachability relation. -/
theorem manhattan_le_reach {grid : Grid} {a : Position} :
    ∀ {n : Nat} {b : Position}, b ∈ reachableWithin grid a n →
      manhattanDistance a b ≤ n := by
  intro n
  induction n with
  | zero =>
    intro b hb
    rw [reachableWithin, Finset.mem_singleton] at hb
    subst hb
    rw [manhattanDistance_self]
  | succ k ih =>
    intro b hb
    rw [reachableWithin, Finset.mem_union] at hb
    rcases hb with hb | hb
    · exact (ih hb).trans (by omega)
    · rw [Finset.mem_biUnion] at hb
      obtain ⟨x, hx, hbx⟩ := hb
      rw [List.mem_toFinset] at hbx
      have h1 := ih hx
      have h2 := getNeighbors_adj hbx
      have h3 := manhattanDistance_triangle a x b
      omega

theorem pqLE_iff (a b : AStarNode) :
    pqLE a b = true ↔ (a.f < b.f ∨ (a.f = b.f ∧ a.h ≤ b.h)) := by
  unfold pqLE
  exact decide_eq_true_iff

theorem pqLE_total (a b : AStarNode) : pqLE a b = true ∨ pqLE b a = true := by
  rw [pqLE_iff, pqLE_iff]
  omega

theorem pqLE_trans {a b c : AStarNode} (h1 : pqLE a b = true)
    (h2 : pqLE b c = true) : pqLE a c = true := by
  rw [pqLE_iff] at h1 h2 ⊢
  omega

theorem pqLE_f_le {a b : AStarNode} (h : pqLE a b = true) : a.f ≤ b.f := by
  rw [pqLE_iff] at h
  omega

theorem pqInsert_sorted {node : AStarNode} :
    ∀ {l : List AStarNode}, l.Pairwise (fun a b => pqLE a b = true) →
      (pqInsert node l).Pairwise (fun a b => pqLE a b = true) := by
  intro l
  induction l with
  | nil =>
    intro _
    rw [pqInsert]
    exact List.pairwise_singleton _ _
  | cons head tail ih =>
    intro h
    rw [pqInsert]
    by_cases hle : pqLE head node = true
    · rw [if_pos hle]
      rw [List.pairwise_cons] at h ⊢
      refine ⟨?_, ih h.2⟩
      intro b hb
      have hmem := (pqInsert_perm node tail).mem_iff.1 hb
      rcases List.mem_cons.1 hmem with h1 | h2
      · subst h1
        exact hle
      · exact h.1 b h2
    · rw [if_neg hle]
      have hnh : pqLE node head = true := by
        rcases pqLE_total head node with h1 | h2
        · exact absurd h1 hle
        · exact h2
      rw [List.pairwise_cons]
      refine ⟨?_, h⟩
      intro b hb
      rcases List.mem_cons.1 hb with h1 | h2
      · subst h1
        exact hnh
      · rw [List.pairwise_cons] at h
        exact pqLE_trans hnh (h.1 b h2)

theorem pqSortGo_sorted :
    ∀ (items acc : List AStarNode),
      acc.Pairwise (fun a b => pqLE a b = true) →
      (items.foldl (fun acc node => pqInsert node acc) acc).Pairwise
        (fun a b => pqLE a b = true) := by
  intro items
  induction items with
  | nil =>
    intro acc h
    exact h
  | cons x rest ih =>
    intro acc h
    rw [List.foldl_cons]
    exact ih _ (pqInsert_sorted h)

theorem pqSort_sorted (items : List AStarNode) :
    (pqSort items).Pairwise (fun a b => pqLE a b = true) :=
  pqSortGo_sorted items [] List.Pairwise.nil

theorem pqUpdateNode_sorted {items : List AStarNode} {pos : Position}
    {newG newF : Nat} {par : Position}
    (h : items.Pairwise (fun a b => pqLE a b = true)) :
    (pqUpdateNode items pos newG newF par).Pairwise
      (fun a b => pqLE a b = true) := by
  unfold pqUpdateNode
  rcases hfind : items.findIdx? (fun node => positionsEqual node.position pos)
    with _ | idx
  · simp only [hfind]
    exact h
  · simp only [hfind]
    rcases hget : items.get? idx with _ | node
    · simp only [hget]
      exact h
    · simp only [hget]
      exact pqSort_sorted _

theorem pqEnqueue_sorted (items : List AStarNode) (node : AStarNode) :
    (pqEnqueue items node).Pairwise (fun a b => pqLE a b = true) :=
  pqSort_sorted _

theorem sorted_head_min {current : AStarNode} {rest : List AStarNode}
    (h : (current :: rest).Pairwise (fun a b => pqLE a b = true)) :
    ∀ nd ∈ current :: rest, current.f ≤ nd.f := by
  intro nd hnd
  rcases List.mem_cons.1 hnd with h1 | h2
  · subst h1
    exact le_rfl
  · rw [List.pairwise_cons] at h
    exact pqLE_f_le (h.1 nd h2)

theorem astarRelax_sorted (weight : Nat) (goal : Position)
    (current : AStarNode) :
    ∀ (nbrs : List Position) (openItems : List AStarNode)
      (closedSet : Finset Position) (m : List (Position × AStarNode)),
      openItems.Pairwise (fun a b => pqLE a b = true) →
      ((astarRelax weight goal current nbrs openItems closedSet m).1).Pairwise
        (fun a b => pqLE a b = true) := by
  intro nbrs
  induction nbrs with
  | nil =>
    intro openItems closedSet m h
    exact h
  | cons nb rest ih =>
    intro openItems closedSet m h
    rw [astarRelax]
    by_cases hc : nb ∈ closedSet
    · rw [if_pos hc]
      exact ih _ _ _ h
    · rw [if_neg hc]
      rcases hmg : mapGet m nb with _ | existing
      · simp only [hmg]
        exact ih _ _ _ (pqEnqueue_sorted _ _)
      · simp only [hmg]
        by_cases hlt : current.g + 1 < existing.g
        · rw [if_pos hlt]
          by_cases hpc : pqContains openItems nb = true
          · rw [if_pos hpc]
            exact ih _ _ _ (pqUpdateNode_sorted h)
          · rw [if_neg hpc]
            exact ih _ _ _ h
        · rw [if_neg hlt]
          exact ih _ _ _ h

theorem pqUpdateNode_pos_perm (items : List AStarNode) (pos : Position)
    (newG newF : Nat) (par : Position) :
    ((pqUpdateNode items pos newG newF par).map AStarNode.position).Perm
      (items.map AStarNode.position) := by
  unfold pqUpdateNode
  rcases hfind : items.findIdx? (fun node => positionsEqual node.position pos)
    with _ | idx
  · simp only [hfind]
    exact List.Perm.refl _
  · simp only [hfind]
    rcases hget : items.get? idx with _ | node
    · simp only [hget]
      exact List.Perm.refl _
    · simp only [hget]
      rw [List.findIdx?_eq_some_iff_findIdx_eq] at hfind
      have hlt : idx < items.length := hfind.1
      have hnodeq : items[idx] = node := by
        rw [List.get?_eq_some] at hget
        obtain ⟨h1, h2⟩ := hget
        rw [← h2]
        simp [List.get_eq_getElem]
      have hidx2 : idx < (List.map AStarNode.position items).length := by
        simpa using hlt
      refine ((pqSort_perm _).map AStarNode.position).trans ?_
      rw [List.map_set]
      have hv : (items.map AStarNode.position)[idx] =
          ({ node with g := newG, f := newF, parent := some par } :
            AStarNode).position := by
        rw [List.getElem_map, hnodeq]
      rw [set_getElem_self hidx2 hv]

/-- The C4 bookkeeping of one A* relaxation pass: map entries only gain
smaller `g` values, closed entries are untouched, every unclosed neighbor
ends with `g ≤ g(current) + 1`, queue position coverage is preserved, new
map keys are covered by the queue, and the stored `f = g + w·h` relation is
maintained. -/
theorem astarRelax_c4 {grid : Grid} (weight : Nat) (goal : Position)
    (current : AStarNode) :
    ∀ (nbrs : List Position) (openItems : List AStarNode)
      (closedSet : Finset Position) (m : List (Position × AStarNode)),
      (∀ x ∈ nbrs, x ∈ getNeighbors current.position grid) →
      (∀ nd ∈ openItems, mapGet m nd.position = some nd) →
      ((openItems.map AStarNode.position).Nodup) →
      (∀ p nd, mapGet m p = some nd →
        nd.f = nd.g + weight * manhattanDistance p goal) →
      (∀ p nd, mapGet m p = some nd → ∃ nd2,
        mapGet (astarRelax weight goal current nbrs openItems closedSet m).2 p
          = some nd2 ∧ nd2.g ≤ nd.g) ∧
      (∀ p ∈ closedSet,
        mapGet (astarRelax weight goal current nbrs openItems closedSet m).2 p
          = mapGet m p) ∧
      (∀ q ∈ nbrs, q ∉ closedSet → ∃ ndq,
        mapGet (astarRelax weight goal current nbrs openItems closedSet m).2 q
          = some ndq ∧ ndq.g ≤ current.g + 1) ∧
      (∀ p, (∃ nd ∈ openItems, nd.position = p) →
        ∃ nd2 ∈ (astarRelax weight goal current nbrs openItems closedSet m).1,
          nd2.position = p) ∧
      (∀ p nd2,
        mapGet (astarRelax weight goal current nbrs openItems closedSet m).2 p
          = some nd2 →
        (mapGet m p).isSome = true ∨
        ∃ nd3 ∈ (astarRelax weight goal current nbrs openItems closedSet m).1,
          nd3.position = p) ∧
      (∀ p nd2,
        mapGet (astarRelax weight goal current nbrs openItems closedSet m).2 p
          = some nd2 →
        nd2.f = nd2.g + weight * manhattanDistance p goal) := by
  intro nbrs
  induction nbrs with
  | nil =>
    intro openItems closedSet m hn hsync hnodup hfco
    refine ⟨fun p nd hget => ⟨nd, hget, le_rfl⟩, fun p _ => rfl,
      fun q hq => absurd hq (List.not_mem_nil q), fun p hp => hp,
      fun p nd2 hget => Or.inl (by
        have hget2 : mapGet m p = some nd2 := hget
        rw [hget2]
        rfl), hfco⟩
  | cons nb rest ih =>
    intro openItems closedSet m hn hsync hnodup hfco
    rw [astarRelax]
    by_cases hc : nb ∈ closedSet
    · rw [if_pos hc]
      obtain ⟨r1, r2, r3, r4, r5, r6⟩ :=
        ih openItems closedSet m (fun x hx => hn x (List.mem_cons_of_mem _ hx))
          hsync hnodup hfco
      refine ⟨r1, r2, ?_, r4, r5, r6⟩
      intro q hq hqc
      rcases List.mem_cons.1 hq with h1 | h2
      · subst h1
        exact absurd hc hqc
      · exact r3 q h2 hqc
    · rw [if_neg hc]
      rcases hmg : mapGet m nb with _ | existing
      · simp only [hmg]
        have hfresh : ∀ nd ∈ openItems, nd.position ≠ nb := by
          intro nd hnd hcq
          have hs := hsync nd hnd
          rw [hcq, hmg] at hs
          exact absurd hs (by simp)
        have hsync1 : ∀ nd ∈ pqEnqueue openItems
            ⟨nb, current.g + 1, manhattanDistance nb goal,
              current.g + 1 + weight * manhattanDistance nb goal,
              some current.position⟩,
            mapGet (mapSet m nb
              ⟨nb, current.g + 1, manhattanDistance nb goal,
                current.g + 1 + weight * manhattanDistance nb goal,
                some current.position⟩) nd.position = some nd := by
          intro nd hnd
          rcases pqEnqueue_mem hnd with h1 | h2
          · subst h1
            exact mapGet_mapSet_self _ _ _
          · rw [mapGet_mapSet_other m nb nd.position _ (hfresh nd h2)]
            exact hsync nd h2
        have hfco1 : ∀ p nd, mapGet (mapSet m nb
            ⟨nb, current.g + 1, manhattanDistance nb goal,
              current.g + 1 + weight * manhattanDistance nb goal,
              some current.position⟩) p = some nd →
            nd.f = nd.g + weight * manhattanDistance p goal := by
          intro p nd hget
          by_cases hp : p = nb
          · subst hp
            rw [mapGet_mapSet_self] at hget
            injection hget with hnd
            subst hnd
            rfl
          · rw [mapGet_mapSet_other m nb p _ hp] at hget
            exact hfco p nd hget
        obtain ⟨r1, r2, r3, r4, r5, r6⟩ :=
          ih _ closedSet _ (fun x hx => hn x (List.mem_cons_of_mem _ hx))
            hsync1 (pqEnqueue_nodup hnodup hfresh) hfco1
        refine ⟨?_, ?_, ?_, ?_, ?_, r6⟩
        · intro p nd hget
          have hp : p ≠ nb := by
            intro hcq
            rw [hcq, hmg] at hget
            exact absurd hget (by simp)
          obtain ⟨nd2, hnd2, hle⟩ := r1 p nd
            (by rw [mapGet_mapSet_other m nb p _ hp]; exact hget)
          exact ⟨nd2, hnd2, hle⟩
        · intro p hp
          rw [r2 p hp]
          exact mapGet_mapSet_other m nb p _ (fun hcq => hc (hcq ▸ hp))
        · intro q hq hqc
          rcases List.mem_cons.1 hq with h1 | h2
          · subst h1
            obtain ⟨nd2, hnd2, hle⟩ := r1 q _ (mapGet_mapSet_self m q
              ⟨q, current.g + 1, manhattanDistance q goal,
                current.g + 1 + weight * manhattanDistance q goal,
                some current.position⟩)
            exact ⟨nd2, hnd2, hle⟩
          · exact r3 q h2 hqc
        · intro p hp
          refine r4 p ?_
          obtain ⟨nd, hnd, hp2⟩ := hp
          refine ⟨nd, ?_, hp2⟩
          exact (pqEnqueue_perm openItems
            ⟨nb, current.g + 1, manhattanDistance nb goal,
              current.g + 1 + weight * manhattanDistance nb goal,
              some current.position⟩).symm.mem_iff.1
            (List.mem_cons_of_mem _ hnd)
        · intro p nd2 hget
          rcases r5 p nd2 hget with h1 | h2
          · by_cases hp : p = nb
            · subst hp
              refine Or.inr (r4 p ?_)
              refine ⟨⟨p, current.g + 1, manhattanDistance p goal,
                current.g + 1 + weight * manhattanDistance p goal,
                some current.position⟩, ?_, rfl⟩
              exact (pqEnqueue_perm openItems
                ⟨p, current.g + 1, manhattanDistance p goal,
                  current.g + 1 + weight * manhattanDistance p goal,
                  some current.position⟩).symm.mem_iff.1
                (List.mem_cons_self _ _)
            · rw [mapGet_mapSet_other m nb p _ hp] at h1
              exact Or.inl h1
          · exact Or.inr h2
      · simp only [hmg]
        by_cases hlt : current.g + 1 < existing.g
        · rw [if_pos hlt]
          by_cases hpc : pqContains openItems nb = true
          · rw [if_pos hpc]
            obtain ⟨hnodup2, hmem2⟩ := pqUpdateNode_spec nb (current.g + 1)
              (current.g + 1 + weight * manhattanDistance nb goal)
              current.position hnodup
            have hsync1 : ∀ nd ∈ pqUpdateNode openItems nb (current.g + 1)
                (current.g + 1 + weight * manhattanDistance nb goal)
                current.position,
                mapGet (mapSet m nb
                  { existing with
                    g := current.g + 1,
                    f := current.g + 1 + weight * manhattanDistance nb goal,
                    parent := some current.position }) nd.position =
                  some nd := by
              intro nd hnd
              rcases hmem2 nd hnd with ⟨hin, hnep⟩ |
                ⟨old, hold, holdpos, hndeq⟩
              · rw [mapGet_mapSet_other m nb nd.position _ hnep]
                exact hsync nd hin
              · have hso := hsync old hold
                rw [holdpos, hmg] at hso
                injection hso with hoe
                subst hndeq
                subst hoe
                have hxp : ({ existing with
                    g := current.g + 1,
                    f := current.g + 1 + weight * manhattanDistance nb goal,
                    parent := some current.position } :
                    AStarNode).position = nb := holdpos
                rw [hxp]
                exact mapGet_mapSet_self _ _ _
            have hfco1 : ∀ p nd, mapGet (mapSet m nb
                { existing with
                  g := current.g + 1,
                  f := current.g + 1 + weight * manhattanDistance nb goal,
                  parent := some current.position }) p = some nd →
                nd.f = nd.g + weight * manhattanDistance p goal := by
              intro p nd hget
              by_cases hp : p = nb
              · subst hp
                rw [mapGet_mapSet_self] at hget
                injection hget with hnd
                subst hnd
                rfl
              · rw [mapGet_mapSet_other m nb p _ hp] at hget
                exact hfco p nd hget
            obtain ⟨r1, r2, r3, r4, r5, r6⟩ :=
              ih _ closedSet _
                (fun x hx => hn x (List.mem_cons_of_mem _ hx))
                hsync1 hnodup2 hfco1
            refine ⟨?_, ?_, ?_, ?_, ?_, r6⟩
            · intro p nd hget
              by_cases hp : p = nb
              · subst hp
                rw [hmg] at hget
                injection hget with hnd
                subst hnd
                obtain ⟨nd2, hnd2, hle⟩ := r1 p _ (mapGet_mapSet_self m p
                  { existing with
                    g := current.g + 1,
                    f := current.g + 1 + weight * manhattanDistance p goal,
                    parent := some current.position })
                refine ⟨nd2, hnd2, ?_⟩
                simp only at hle
                omega
              · obtain ⟨nd2, hnd2, hle⟩ := r1 p nd
                  (by rw [mapGet_mapSet_other m nb p _ hp]; exact hget)
                exact ⟨nd2, hnd2, hle⟩
            · intro p hp
              rw [r2 p hp]
              exact mapGet_mapSet_other m nb p _ (fun hcq => hc (hcq ▸ hp))
            · intro q hq hqc
              rcases List.mem_cons.1 hq with h1 | h2
              · subst h1
                obtain ⟨nd2, hnd2, hle⟩ := r1 q _ (mapGet_mapSet_self m q
                  { existing with
                    g := current.g + 1,
                    f := current.g + 1 + weight * manhattanDistance q goal,
                    parent := some current.position })
                refine ⟨nd2, hnd2, ?_⟩
                simp only at hle
                omega
              · exact r3 q h2 hqc
            · intro p hp
              refine r4 p ?_
              obtain ⟨nd, hnd, hp2⟩ := hp
              have hpin : p ∈ (pqUpdateNode openItems nb (current.g + 1)
                  (current.g + 1 + weight * manhattanDistance nb goal)
                  current.position).map AStarNode.position := by
                refine (pqUpdateNode_pos_perm openItems nb _ _ _).symm.mem_iff.1
                  ?_
                rw [List.mem_map]
                exact ⟨nd, hnd, hp2⟩
              rw [List.mem_map] at hpin
              obtain ⟨nd3, hnd3, hp3⟩ := hpin
              exact ⟨nd3, hnd3, hp3⟩
            · intro p nd2 hget
              rcases r5 p nd2 hget with h1 | h2
              · by_cases hp : p = nb
                · subst hp
                  rw [hmg]
                  exact Or.inl rfl
                · rw [mapGet_mapSet_other m nb p _ hp] at h1
                  exact Or.inl h1
              · exact Or.inr h2
          · rw [if_neg hpc]
            have hfr := pqContains_false (by simpa using hpc)
            have hsync1 : ∀ nd ∈ openItems,
                mapGet (mapSet m nb
                  { existing with
                    g := current.g + 1,
                    f := current.g + 1 + weight * manhattanDistance nb goal,
                    parent := some current.position }) nd.position =
                  some nd := by
              intro nd hnd
              rw [mapGet_mapSet_other m nb nd.position _ (hfr nd hnd)]
              exact hsync nd hnd
            have hfco1 : ∀ p nd, mapGet (mapSet m nb
                { existing with
                  g := current.g + 1,
                  f := current.g + 1 + weight * manhattanDistance nb goal,
                  parent := some current.position }) p = some nd →
                nd.f = nd.g + weight * manhattanDistance p goal := by
              intro p nd hget
              by_cases hp : p = nb
              · subst hp
                rw [mapGet_mapSet_self] at hget
                injection hget with hnd
                subst hnd
                rfl
              · rw [mapGet_mapSet_other m nb p _ hp] at hget
                exact hfco p nd hget
            obtain ⟨r1, r2, r3, r4, r5, r6⟩ :=
              ih _ closedSet _
                (fun x hx => hn x (List.mem_cons_of_mem _ hx))
                hsync1 hnodup hfco1
            refine ⟨?_, ?_, ?_, r4, ?_, r6⟩
            · intro p nd hget
              by_cases hp : p = nb
              · subst hp
                rw [hmg] at hget
                injection hget with hnd
                subst hnd
                obtain ⟨nd2, hnd2, hle⟩ := r1 p _ (mapGet_mapSet_self m p
                  { existing with
                    g := current.g + 1,
                    f := current.g + 1 + weight * manhattanDistance p goal,
                    parent := some current.position })
                refine ⟨nd2, hnd2, ?_⟩
                simp only at hle
                omega
              · obtain ⟨nd2, hnd2, hle⟩ := r1 p nd
                  (by rw [mapGet_mapSet_other m nb p _ hp]; exact hget)
                exact ⟨nd2, hnd2, hle⟩
            · intro p hp
              rw [r2 p hp]
              exact mapGet_mapSet_other m nb p _ (fun hcq => hc (hcq ▸ hp))
            · intro q hq hqc
              rcases List.mem_cons.1 hq with h1 | h2
              · subst h1
                obtain ⟨nd2, hnd2, hle⟩ := r1 q _ (mapGet_mapSet_self m q
                  { existing with
                    g := current.g + 1,
                    f := current.g + 1 + weight * manhattanDistance q goal,
                    parent := some current.position })
                refine ⟨nd2, hnd2, ?_⟩
                simp only at hle
                omega
              · exact r3 q h2 hqc
            · intro p nd2 hget
              rcases r5 p nd2 hget with h1 | h2
              · by_cases hp : p = nb
                · subst hp
                  rw [hmg]
                  exact Or.inl rfl
                · rw [mapGet_mapSet_other m nb p _ hp] at h1
                  exact Or.inl h1
              · exact Or.inr h2
        · rw [if_neg hlt]
          obtain ⟨r1, r2, r3, r4, r5, r6⟩ :=
            ih openItems closedSet m
              (fun x hx => hn x (List.mem_cons_of_mem _ hx)) hsync hnodup hfco
          refine ⟨r1, r2, ?_, r4, r5, r6⟩
          intro q hq hqc
          rcases List.mem_cons.1 hq with h1 | h2
          · subst h1
            obtain ⟨nd2, hnd2, hle⟩ := r1 q existing hmg
            exact ⟨nd2, hnd2, by omega⟩
          · exact r3 q h2 hqc

/-- The loop invariant behind the weighted-A* suboptimality bound:
queue/map sync, queue position nodup-ness, queue sortedness, stored
`f = g + w·h` coherence, map keys closed-or-queued, the start entry at
`g = 0`, closed entries bounded by `w ×` any reachability bound, closed
entries existing, and closed entries having relaxed all unclosed
neighbors. -/
def C4Inv (grid : Grid) (start goal : Position) (weight : Nat)
    (s : AStarState) : Prop :=
  (∀ nd ∈ s.openItems, mapGet s.nodeMap nd.position = some nd) ∧
  (s.openItems.map AStarNode.position).Nodup ∧
  s.openItems.Pairwise (fun a b => pqLE a b = true) ∧
  (∀ p nd, mapGet s.nodeMap p = some nd →
    nd.f = nd.g + weight * manhattanDistance p goal) ∧
  (∀ p, (mapGet s.nodeMap p).isSome = true → p ∈ s.closedSet ∨
    ∃ nd ∈ s.openItems, nd.position = p) ∧
  (∃ nd0, mapGet s.nodeMap start = some nd0 ∧ nd0.g = 0) ∧
  (∀ p ∈ s.closedSet, (mapGet s.nodeMap p).isSome = true) ∧
  (∀ p nd, p ∈ s.closedSet → mapGet s.nodeMap p = some nd →
    ∀ n, p ∈ reachableWithin grid start n → nd.g ≤ weight * n) ∧
  (∀ p nd, p ∈ s.closedSet → mapGet s.nodeMap p = some nd →
    ∀ q ∈ getNeighbors p grid, q ∉ s.closedSet →
      ∃ ndq, mapGet s.nodeMap q = some ndq ∧ ndq.g ≤ nd.g + 1)

/-- Walking an optimal route through the closed region always reaches an
unclosed map entry whose `g` is within the inflation factor of its depth. -/
theorem c4_walk {grid : Grid} {start goal tgt : Position} {weight : Nat}
    {s : AStarState} (hw : 1 ≤ weight)
    (hinv : C4Inv grid start goal weight s)
    (htgt : tgt ∉ s.closedSet) :
    ∀ (fuel k : Nat) (p : Position) (ndp : AStarNode),
      mapGet s.nodeMap p = some ndp → ndp.g ≤ weight * k →
      p ∈ reachableWithin grid start k →
      tgt ∈ reachableWithin grid p fuel →
      ∃ i pp ndpp, pp ∉ s.closedSet ∧ mapGet s.nodeMap pp = some ndpp ∧
        ndpp.g ≤ weight * i ∧ pp ∈ reachableWithin grid start i ∧
        ∃ fuel2, tgt ∈ reachableWithin grid pp fuel2 ∧
          i + fuel2 ≤ k + fuel := by
  obtain ⟨-, -, -, -, -, -, hH, hA, hC⟩ := hinv
  intro fuel
  induction fuel with
  | zero =>
    intro k p ndp hget hg hk htp
    by_cases hpc : p ∈ s.closedSet
    · rw [reachableWithin, Finset.mem_singleton] at htp
      subst htp
      exact absurd hpc htgt
    · exact ⟨k, p, ndp, hpc, hget, hg, hk, 0, htp, le_rfl⟩
  | succ f ih =>
    intro k p ndp hget hg hk htp
    by_cases hpc : p ∈ s.closedSet
    · rcases reachableWithin_firstStep htp with h1 | ⟨q, hq, htq⟩
      · subst h1
        exact absurd hpc htgt
      · simp only [Nat.add_sub_cancel] at htq
        have hqk : q ∈ reachableWithin grid start (k + 1) :=
          reachableWithin_step hk hq
        by_cases hqc : q ∈ s.closedSet
        · obtain ⟨ndq, hndq⟩ := Option.isSome_iff_exists.1 (hH q hqc)
          have hgq : ndq.g ≤ weight * (k + 1) := hA q ndq hqc hndq _ hqk
          obtain ⟨i, pp, ndpp, h1, h2, h3, h4, fuel2, h5, h6⟩ :=
            ih (k + 1) q ndq hndq hgq hqk htq
          exact ⟨i, pp, ndpp, h1, h2, h3, h4, fuel2, h5, by omega⟩
        · obtain ⟨ndq, hndq, hgq⟩ := hC p ndp hpc hget q hq hqc
          refine ⟨k + 1, q, ndq, hqc, hndq, ?_, hqk, f, htq, by omega⟩
          have : weight * k + 1 ≤ weight * (k + 1) := by
            rw [Nat.mul_add, Nat.mul_one]
            omega
          omega
    · exact ⟨k, p, ndp, hpc, hget, hg, hk, f + 1, htp, le_rfl⟩

/-- When the sorted queue's head is popped for expansion, its `g` is within
the inflation factor of any reachability bound on its position (the
weighted-A* bounded-suboptimality argument). -/
theorem c4_expansion_bound {grid : Grid} {start goal : Position}
    {weight : Nat} {s : AStarState} {current : AStarNode}
    {rest : List AStarNode} (hw : 1 ≤ weight)
    (hinv : C4Inv grid start goal weight s)
    (hq : s.openItems = current :: rest)
    (hnc : current.position ∉ s.closedSet) :
    ∀ n, current.position ∈ reachableWithin grid start n →
      current.g ≤ weight * n := by
  intro n hn
  obtain ⟨hsync, hnodup, hsorted, hfco, hcover, ⟨nd0, hnd0, hg0⟩, hH, hA, hC⟩ :=
    id hinv
  obtain ⟨i, pp, ndpp, h1, h2, h3, h4, fuel2, h5, h6⟩ :=
    c4_walk hw hinv hnc n 0 start nd0 (by rw [hnd0]) (by omega)
      reachableWithin_self hn
  have hkey : (mapGet s.nodeMap pp).isSome = true := by
    rw [h2]
    rfl
  rcases hcover pp hkey with hcl | ⟨ndq, hndq, hpos⟩
  · exact absurd hcl h1
  · subst hpos
    have hqe : mapGet s.nodeMap ndq.position = some ndq :=
      hsync ndq hndq
    rw [h2] at hqe
    injection hqe with hqe
    subst hqe
    have hsorted2 : (current :: rest).Pairwise
        (fun a b => pqLE a b = true) := by
      rw [← hq]
      exact hsorted
    have hmin : current.f ≤ ndpp.f :=
      sorted_head_min hsorted2 ndpp (by rw [← hq]; exact hndq)
    have hcurget : mapGet s.nodeMap current.position = some current := by
      refine hsync current ?_
      rw [hq]
      exact List.mem_cons_self _ _
    have hfc : current.f =
        current.g + weight * manhattanDistance current.position goal :=
      hfco _ _ hcurget
    have hfp : ndpp.f =
        ndpp.g + weight * manhattanDistance ndpp.position goal :=
      hfco _ _ h2
    have htri : manhattanDistance ndpp.position goal ≤
        fuel2 + manhattanDistance current.position goal := by
      have ht := manhattanDistance_triangle ndpp.position current.position
        goal
      have hr := manhattan_le_reach h5
      omega
    have hmul1 : weight * manhattanDistance ndpp.position goal ≤
        weight * fuel2 +
          weight * manhattanDistance current.position goal := by
      rw [← Nat.mul_add]
      exact Nat.mul_le_mul_left weight htri
    have hmul2 : weight * i + weight * fuel2 ≤ weight * n := by
      rw [← Nat.mul_add]
      exact Nat.mul_le_mul_left weight (by omega : i + fuel2 ≤ n)
    have hchain : current.g +
        weight * manhattanDistance current.position goal ≤
        (weight * i + weight * fuel2) +
          weight * manhattanDistance current.position goal := by
      rw [hfc] at hmin
      rw [hfp] at hmin
      omega
    have hfinal := Nat.add_le_add_iff_right.1 hchain
    omega

theorem astarReconstructGo_len {grid : Grid} {start : Position}
    {m : List (Position × AStarNode)} (hinv : AMapChain grid start m) :
    ∀ (n : Nat) (p0 : Position) (nd0 : AStarNode) (acc : List Position)
      (fuel : Nat), nd0.g ≤ n → mapGet m p0 = some nd0 →
      (astarReconstructGo m fuel (some p0) acc).length ≤
        nd0.g + 1 + acc.length := by
  intro n
  induction n with
  | zero =>
    intro p0 nd0 acc fuel hn hget
    rcases fuel with _ | f
    · show acc.length ≤ nd0.g + 1 + acc.length
      omega
    · rw [astarReconstructGo_step]
      simp only [hget]
      obtain ⟨-, -, hsome⟩ := hinv p0 nd0 hget
      rcases hp : nd0.parent with _ | q
      · rw [astarReconstructGo_none]
        simp only [List.length_cons]
        omega
      · obtain ⟨ndq, -, hql, -⟩ := hsome q hp
        omega
  | succ k ih =>
    intro p0 nd0 acc fuel hn hget
    rcases fuel with _ | f
    · show acc.length ≤ nd0.g + 1 + acc.length
      omega
    · rw [astarReconstructGo_step]
      simp only [hget]
      obtain ⟨-, -, hsome⟩ := hinv p0 nd0 hget
      rcases hp : nd0.parent with _ | q
      · rw [astarReconstructGo_none]
        simp only [List.length_cons]
        omega
      · obtain ⟨ndq, hq, hql, -⟩ := hsome q hp
        have := ih q ndq (p0 :: acc) f (by omega) hq
        simp only [List.length_cons] at this
        omega

theorem astarReconstructPath_len {grid : Grid} {start : Position}
    {m : List (Position × AStarNode)} {goal : Position} {nd : AStarNode}
    (hinv : AMapChain grid start m) (hget : mapGet m goal = some nd) :
    (astarReconstructPath m goal).length ≤ nd.g + 1 := by
  have := astarReconstructGo_len hinv nd.g goal nd [] (m.length + 1) le_rfl
    hget
  simpa using this

/-- The weighted-A* loop returns results whose `pathLength` is within the
inflation factor of any reachability bound on the goal. -/
theorem astarLoop_c4 (weight : Nat) (name : String) (isOpt : Bool)
    (grid : Grid) (start goal : Position) (hw : 1 ≤ weight) :
    ∀ (fuel : Nat) (s : AStarState) (r : AlgorithmResult) (D : Nat),
      C4Inv grid start goal weight s →
      AMapChain grid start s.nodeMap →
      goal ∈ reachableWithin grid start D →
      goal ∉ s.closedSet →
      astarLoop weight name isOpt grid goal fuel s = some r →
      r.pathLength ≤ weight * D := by
  intro fuel
  induction fuel with
  | zero => intro s r D _ _ _ _ h; simp [astarLoop] at h
  | succ n ih =>
    intro s r D hinv hchain hD hgc h
    rw [astarLoop] at h
    rcases hq : s.openItems with _ | ⟨current, rest⟩
    · rw [hq] at h
      simp only [Option.some.injEq] at h
      subst h
      show (0 : Nat) ≤ weight * D
      exact Nat.zero_le _
    · rw [hq] at h
      simp only at h
      obtain ⟨hsync, hnodup, hsorted, hfco, hcover, hstart0, hH, hA, hC⟩ :=
        id hinv
      by_cases hv : current.position ∈ s.closedSet
      · rw [if_pos hv] at h
        refine ih { s with openItems := rest } r D ?_ hchain hD hgc h
        rw [hq] at hsync hnodup hsorted
        rw [List.map_cons, List.nodup_cons] at hnodup
        refine ⟨fun nd hnd => hsync nd (List.mem_cons_of_mem _ hnd),
          hnodup.2,
          List.Pairwise.of_cons hsorted, hfco, ?_, hstart0, hH, hA, hC⟩
        intro p hp
        rcases hcover p hp with h1 | ⟨nd, hnd, hpos⟩
        · exact Or.inl h1
        · rw [hq] at hnd
          rcases List.mem_cons.1 hnd with h2 | h3
          · subst h2
            exact Or.inl (hpos ▸ hv)
          · exact Or.inr ⟨nd, h3, hpos⟩
      · rw [if_neg hv] at h
        have hcur : mapGet s.nodeMap current.position = some current := by
          refine hsync current ?_
          rw [hq]
          exact List.mem_cons_self _ _
        have hexp := c4_expansion_bound hw hinv hq hv
        by_cases hg : positionsEqual current.position goal
        · rw [if_pos hg] at h
          simp only [Option.some.injEq] at h
          subst h
          show (astarReconstructPath s.nodeMap goal).length - 1 ≤ weight * D
          have hgoal : current.position = goal := (positionsEqual_iff _ _).1 hg
          have hgget : mapGet s.nodeMap goal = some current := by
            rw [← hgoal]
            exact hcur
          have hlen := astarReconstructPath_len hchain hgget
          have hgb : current.g ≤ weight * D := by
            refine hexp D ?_
            rw [hgoal]
            exact hD
          omega
        · rw [if_neg hg] at h
          have hgoalne : current.position ≠ goal :=
            fun hc => hg ((positionsEqual_iff _ _).2 hc)
          rw [hq] at hsync hnodup hsorted
          rw [List.map_cons, List.nodup_cons] at hnodup
          have hsyncr : ∀ nd ∈ rest, mapGet s.nodeMap nd.position = some nd :=
            fun nd hnd => hsync nd (List.mem_cons_of_mem _ hnd)
          have hnodupr := hnodup.2
          obtain ⟨hcur', hchain', hsync', hnodup'⟩ :=
            astarRelax_inv weight goal current
              (getNeighbors current.position grid) rest
              (insert current.position s.closedSet) s.nodeMap
              (fun x hx => hx) hcur hchain hsyncr hnodupr
          obtain ⟨r1, r2, r3, r4, r5, r6⟩ :=
            astarRelax_c4 weight goal current
              (getNeighbors current.position grid) rest
              (insert current.position s.closedSet) s.nodeMap
              (fun x hx => hx) hsyncr hnodupr hfco
          have hsorted' := astarRelax_sorted weight goal current
            (getNeighbors current.position grid) rest
            (insert current.position s.closedSet) s.nodeMap
            (List.Pairwise.of_cons hsorted)
          refine ih _ r D ⟨hsync', hnodup', hsorted', r6, ?_, ?_, ?_, ?_, ?_⟩
            hchain' hD ?_ h
          · intro p hp
            obtain ⟨nd2, hnd2⟩ := Option.isSome_iff_exists.1 hp
            rcases r5 p nd2 hnd2 with h1 | h2
            · rcases hcover p h1 with h3 | ⟨nd3, hnd3, hpos3⟩
              · exact Or.inl (Finset.mem_insert_of_mem h3)
              · rw [hq] at hnd3
                rcases List.mem_cons.1 hnd3 with h4 | h5
                · subst h4
                  exact Or.inl (hpos3 ▸ Finset.mem_insert_self _ _)
                · exact Or.inr (r4 p ⟨nd3, h5, hpos3⟩)
            · exact Or.inr h2
          · obtain ⟨nd0, hnd0, hg0⟩ := hstart0
            obtain ⟨nd2, hnd2, hle⟩ := r1 start nd0 hnd0
            exact ⟨nd2, hnd2, by omega⟩
          · intro p hp
            rcases Finset.mem_insert.1 hp with h1 | h2
            · subst h1
              rw [r2 current.position (Finset.mem_insert_self _ _), hcur]
              rfl
            · obtain ⟨ndp, hndp⟩ := Option.isSome_iff_exists.1 (hH p h2)
              obtain ⟨nd2, hnd2, -⟩ := r1 p ndp hndp
              rw [hnd2]
              rfl
          · intro p nd hp hget n2 hreach
            rcases Finset.mem_insert.1 hp with h1 | h2
            · subst h1
              rw [r2 current.position (Finset.mem_insert_self _ _), hcur]
                at hget
              injection hget with hnd
              subst hnd
              exact hexp n2 hreach
            · rw [r2 p (Finset.mem_insert_of_mem h2)] at hget
              exact hA p nd h2 hget n2 hreach
          · intro p nd hp hget q hqn hqc
            have hqc2 : q ∉ s.closedSet :=
              fun hc => hqc (Finset.mem_insert_of_mem hc)
            rcases Finset.mem_insert.1 hp with h1 | h2
            · subst h1
              rw [r2 current.position (Finset.mem_insert_self _ _), hcur]
                at hget
              injection hget with hnd
              subst hnd
              exact r3 q hqn hqc
            · rw [r2 p (Finset.mem_insert_of_mem h2)] at hget
              obtain ⟨ndq, hndq, hgq⟩ := hC p nd h2 hget q hqn hqc2
              obtain ⟨ndq2, hndq2, hle⟩ := r1 q ndq hndq
              exact ⟨ndq2, hndq2, by omega⟩
          · intro hc
            rcases Finset.mem_insert.1 hc with h1 | h2
            · exact hgoalne h1.symm
            · exact hgc h2

/-- **C4.**  For every grid on which the brute-force reference search finds
the goal at distance `d` (every solvable grid), the `pathLength` returned by
`executeWeightedAStar` (fixed weight ε = 2 in `f = g + ε·h`) is at most
`2 × d`, the true shortest-path length. -/
theorem C4_weighted_suboptimality (grid : Grid) (start goal : Position)
    (d : Nat) (hd : refDist grid start goal = some d) :
    (executeWeightedAStar grid start goal).pathLength ≤ 2 * d := by
  have hmem : goal ∈ reachableWithin grid start d := by
    have hp := List.find?_some hd
    exact of_decide_eq_true hp
  unfold executeWeightedAStar astarExec
  simp only
  rcases hr : astarLoop 2 "Weighted A* (e=2)" false grid goal (astarFuel grid)
      { openItems := pqEnqueue [] ⟨start, 0, manhattanDistance start goal,
          0 + 2 * manhattanDistance start goal, none⟩,
        closedSet := ∅,
        nodeMap := mapSet [] start ⟨start, 0, manhattanDistance start goal,
          0 + 2 * manhattanDistance start goal, none⟩,
        explorationOrder := [], nodesExpanded := 0 } with _ | r
  · simp only [Option.getD_none]
    rw [default_result_shape.2.2]
    exact Nat.zero_le _
  · simp only [Option.getD_some]
    refine astarLoop_c4 2 "Weighted A* (e=2)" false grid start goal
      (by omega) (astarFuel grid) _ r d
      ⟨?_, ?_, pqEnqueue_sorted _ _, ?_, ?_, ?_, ?_, ?_, ?_⟩ ?_ hmem
      (Finset.not_mem_empty goal) hr
    · intro nd hnd
      rcases pqEnqueue_mem hnd with h1 | h2
      · subst h1
        exact mapGet_mapSet_self _ _ _
      · simp at h2
    · refine pqEnqueue_nodup (by simp) ?_
      intro nd hnd
      simp at hnd
    · intro p nd hget
      by_cases hp : p = start
      · subst hp
        rw [mapGet_mapSet_self] at hget
        injection hget with hnd
        subst hnd
        rfl
      · rw [mapGet_mapSet_other _ _ _ _ hp] at hget
        simp [mapGet] at hget
    · intro p hp
      by_cases hps : p = start
      · subst hps
        refine Or.inr ⟨⟨p, 0, manhattanDistance p goal,
          0 + 2 * manhattanDistance p goal, none⟩, ?_, rfl⟩
        exact (pqEnqueue_perm []
          ⟨p, 0, manhattanDistance p goal,
            0 + 2 * manhattanDistance p goal, none⟩).symm.mem_iff.1
          (List.mem_cons_self _ _)
      · rw [mapGet_mapSet_other _ _ _ _ hps] at hp
        simp [mapGet] at hp
    · exact ⟨⟨start, 0, manhattanDistance start goal,
        0 + 2 * manhattanDistance start goal, none⟩,
        mapGet_mapSet_self _ _ _, rfl⟩
    · intro p hp
      exact absurd hp (Finset.not_mem_empty p)
    · intro p nd hp
      exact absurd hp (Finset.not_mem_empty p)
    · intro p nd hp
      exact absurd hp (Finset.not_mem_empty p)
    · intro p nd hget
      by_cases hp : p = start
      · subst hp
        rw [mapGet_mapSet_self] at hget
        injection hget with hnd
        subst hnd
        refine ⟨by simp [mapSet], fun _ => rfl, fun q hq => by simp at hq⟩
      · rw [mapGet_mapSet_other _ _ _ _ hp] at hget
        simp [mapGet] at hget

/-- **C4 witness.**  On the 1×2 grid `[START, GOAL]` the reference distance
is 1 and the weighted-A* path length is bounded by 2. -/
theorem C4_weighted_suboptimality_witness :
    refDist [[CellType.START, CellType.GOAL]] ⟨0, 0⟩ ⟨0, 1⟩ = some 1 ∧
    (executeWeightedAStar [[CellType.START, CellType.GOAL]]
      ⟨0, 0⟩ ⟨0, 1⟩).pathLength ≤ 2 * 1 :=
  ⟨by decide, C4_weighted_suboptimality [[CellType.START, CellType.GOAL]]
    ⟨0, 0⟩ ⟨0, 1⟩ 1 (by decide)⟩

/-- **C1 (code bug mechanism).**  IDA*'s minimum-overrun fold never returns
a threshold above its running minimum, which starts at
`INFINITY_THRESHOLD`; and whenever the deepening search reports the
threshold `INFINITY_THRESHOLD`, the outer loop concludes `found = false`
with an empty path.  A genuine next threshold of `999999` or more on a
solvable grid (shortest path ≥ 999999) is therefore saturated to the
sentinel and misreported as "no path exists". -/
theorem C1_sentinel_saturation :
    (∀ (child : List Position → Nat → IDAState →
        Option (Nat × Option (List Position) × IDAState))
       (path : List Position) (g : Nat) (nbrs : List Position)
       (minSoFar : Nat) (st : IDAState) (t : Nat) (st' : IDAState),
       idaFold child path g nbrs minSoFar st = some (t, none, st') →
       t ≤ minSoFar) ∧
    (∀ (grid : Grid) (start goal : Position) (fuel bound : Nat)
       (st st' : IDAState),
       idaSearch grid goal (idaFuel grid) [start] 0 bound st =
         some (INFINITY_THRESHOLD, none, st') →
       ∃ r, idaOuter grid start goal (fuel + 1) bound st = some r ∧
         r.found = false ∧ r.path = []) := by
  constructor
  · intro child path g nbrs
    induction nbrs with
    | nil =>
      intro minSoFar st t st' h
      rw [idaFold] at h
      simp only [Option.some.injEq, Prod.mk.injEq] at h
      omega
    | cons nb rest ih =>
      intro minSoFar st t st' h
      rw [idaFold] at h
      by_cases hp : path.any (fun p => positionsEqual p nb)
      · rw [if_pos hp] at h
        exact ih _ _ _ _ h
      · rw [if_neg hp] at h
        rcases hc : child (path ++ [nb]) (g + 1) st with _ | ⟨t2, res2, st2⟩
        · rw [hc] at h
          simp at h
        · rw [hc] at h
          rcases res2 with _ | r2
          · simp only at h
            have := ih _ _ _ _ h
            by_cases hlt : t2 < minSoFar
            · rw [if_pos hlt] at this
              omega
            · rw [if_neg hlt] at this
              omega
          · simp at h
  · intro grid start goal fuel bound st st' h
    rw [idaOuter, h]
    simp only [if_true]
    exact ⟨_, rfl, rfl, rfl⟩

/-- **C1 witness.**  Concrete saturation instances: a fold over no
neighbors returns its running minimum, and a search that exhausts every
branch reports the sentinel, upon which the outer loop returns
`found = false`. -/
theorem C1_sentinel_saturation_witness :
    (idaFold (fun _ _ _ => none) [] 0 [] 5 ⟨[], 0⟩ =
        some (5, none, ⟨[], 0⟩) ∧ 5 ≤ 5) ∧
    (idaSearch [[CellType.START]] ⟨0, 1⟩ (idaFuel [[CellType.START]])
        [⟨0, 0⟩] 0 1 ⟨[], 0⟩ =
        some (INFINITY_THRESHOLD, none, ⟨[⟨0, 0⟩], 1⟩) ∧
      ∃ r, idaOuter [[CellType.START]] ⟨0, 0⟩ ⟨0, 1⟩ (7 + 1) 1 ⟨[], 0⟩ =
        some r ∧ r.found = false ∧ r.path = []) :=
  ⟨⟨rfl, C1_sentinel_saturation.1 (fun _ _ _ => none) [] 0 [] 5 ⟨[], 0⟩ 5
      ⟨[], 0⟩ rfl⟩,
   ⟨by decide, C1_sentinel_saturation.2 [[CellType.START]] ⟨0, 0⟩ ⟨0, 1⟩ 7 1
      ⟨[], 0⟩ ⟨[⟨0, 0⟩], 1⟩ (by decide)⟩⟩
